import Mathlib

/-!
Shallow embedding of the bible-viewer event-timeline pipeline
(scripts/build_research_dataset.py, scripts/enrich_gospel_parallels.py,
scripts/build_web_data.py) together with theorems settling the
specification claims about quota allocation, cycle detection, parallel
matching, candidate extraction, even sampling and snapshot normalization.

Machine integers are modelled as Nat/Int (Python ints are unbounded),
Python floats used only as intermediate values for floor/rounding are
modelled by exact rational arithmetic, dicts by insertion-ordered
association lists, sets by membership on lists, and functions that can
raise by Except/Option.
-/

namespace BibleViewer

/-! ### Generic list helpers -/

/-- One insertion step of a stable insertion sort: `x` is placed after
every already-sorted element `y` with `keep y x = true`.  With
`keep y x := key x ≤ key y` this matches Python `list.sort(key, reverse=True)`
(stable descending); with `keep y x := key y ≤ key x` it matches the stable
ascending sort. -/
def insKeep (keep : α → α → Bool) (x : α) : List α → List α
  | [] => [x]
  | y :: ys => if keep y x then y :: insKeep keep x ys else x :: y :: ys

/-- Stable insertion sort, processing elements left to right. -/
def sortKeep (keep : α → α → Bool) (l : List α) : List α :=
  l.foldl (fun acc x => insKeep keep x acc) []

/-! ### build_web_data.py: research-mode snapshot normalization -/

/-- Python str.strip() (ASCII whitespace model), implemented on the
character list so that concrete instances evaluate inside proofs. -/
def pyStrip (s : String) : String :=
  (((s.toList.dropWhile Char.isWhitespace).reverse.dropWhile Char.isWhitespace).reverse).asString

/-- Python str.lower() (ASCII model; the tier values it is applied to are
ASCII). -/
def pyLower (s : String) : String := (s.toList.map Char.toLower).asString

/-- Decimal digits to a number; none on a non-digit. -/
def digitsToNatAux : List Char → Nat → Option Nat
  | [], acc => some acc
  | c :: cs, acc =>
    if c.isDigit then digitsToNatAux cs (acc * 10 + (c.toNat - 48)) else none

/-- A non-empty all-digit list to its number. -/
def digitsToNat : List Char → Option Nat
  | [] => none
  | c :: cs => digitsToNatAux (c :: cs) 0

/-- Python int(...) applied to a CSV field: strip, then an optionally
signed decimal integer; anything else raises (modelled as none). -/
def pyInt (s : String) : Option Int :=
  match (pyStrip s).toList with
  | '-' :: rest => (digitsToNat rest).map (fun n => -(n : Int))
  | '+' :: rest => (digitsToNat rest).map (fun n => (n : Int))
  | l => (digitsToNat l).map (fun n => (n : Int))

/-- CERTAINTY_SET = {"high", "medium", "low", "disputed"}. -/
def CERTAINTY_SET : List String := ["high", "medium", "low", "disputed"]

/-- One row of research/events.csv as read by csv.DictReader. -/
structure EventsCsvRow where
  event_id : String
  testament : String
  book : String
  event_title : String
  event_summary : String
  lane_tag : String
  sequence_index : String
  track_id : String
  certainty_level : String
deriving DecidableEq

/-- One normalized event as produced by normalize_events. -/
structure NormEvent where
  event_id : String
  lane_tag : String
  sequence_index : Int
  book : String
  event_title : String
  event_summary : String
  certainty_level : String
deriving DecidableEq

/-- The normalized event built from one CSV row (the loop body of
normalize_events, on the path where nothing raises). -/
def mkNormEvent (row : EventsCsvRow) : NormEvent :=
  { event_id := pyStrip row.event_id
    lane_tag := pyStrip row.lane_tag
    sequence_index := (pyInt row.sequence_index).getD 0
    book := pyStrip row.book
    event_title := pyStrip row.event_title
    event_summary := pyStrip row.event_summary
    certainty_level :=
      if pyStrip row.certainty_level ∈ CERTAINTY_SET then pyStrip row.certainty_level
      else "medium" }

/-- The row loop of normalize_events: duplicate (stripped) event_id raises,
an unparsable sequence_index raises (Python int()), unknown certainty_level
defaults to "medium". -/
def normalizeEventsLoop :
    List EventsCsvRow → List String → List NormEvent → Except String (List NormEvent)
  | [], _, acc => .ok acc
  | row :: rest, seen, acc =>
    let eventId := pyStrip row.event_id
    if eventId ∈ seen then .error ("duplicate event_id: " ++ eventId)
    else
      match pyInt row.sequence_index with
      | none => .error ("invalid sequence_index: " ++ row.sequence_index)
      | some _ => normalizeEventsLoop rest (seen ++ [eventId]) (acc ++ [mkNormEvent row])

/-- normalize_events (build_web_data.py, lines 165-192): validate event_id
uniqueness, default unknown certainty_level to "medium", then sort by
sequence_index (Python stable sort). -/
def normalizeEvents (rows : List EventsCsvRow) : Except String (List NormEvent) :=
  match normalizeEventsLoop rows [] [] with
  | .error e => .error e
  | .ok events => .ok (sortKeep (fun a b => a.sequence_index ≤ b.sequence_index) events)

/-- One row of research/evidence_verses.csv. -/
structure EvidenceCsvRow where
  evidence_id : String
  event_id : String
  evidence_tier : String
  reference : String
  verse_text_kr : String
  translation : String
  is_parallel : String
  note : String
deriving DecidableEq

/-- An evidence entry placed in a bucket by normalize_evidence; the Python
dict has a note key only for parallel entries, modelled by Option. -/
structure EvBase where
  reference : String
  verse_text_kr : String
  note : Option String
deriving DecidableEq

/-- The direct/parallel buckets of one event. -/
structure EvBucket where
  direct : List EvBase
  parallel : List EvBase
deriving DecidableEq

/-- evidence_by_event = {eid: {"direct": [], "parallel": []} for eid in event_ids},
as an insertion-ordered association list over the deduplicated id list
(event_ids is a Python set; only membership is observable). -/
def initBuckets (eventIds : List String) : List (String × EvBucket) :=
  eventIds.dedup.map (fun eid => (eid, { direct := [], parallel := [] }))

/-- Append one entry to the bucket of event eid (tier "parallel" goes to the
parallel list, anything else to the direct list). -/
def bucketUpdate (tier : String) (base : EvBase) :
    List (String × EvBucket) → String → List (String × EvBucket)
  | [], _ => []
  | (k, b) :: rest, eid =>
    if k = eid then
      (k, if tier = "parallel" then { b with parallel := b.parallel ++ [base] }
          else { b with direct := b.direct ++ [base] }) :: rest
    else (k, b) :: bucketUpdate tier base rest eid

/-- The row loop of normalize_evidence: unknown event_id raises; the tier is
stripped and lowercased and compared with "parallel" only; every distinct
translation label is collected (Python set, modelled as a dedup list). -/
def normalizeEvidenceLoop :
    List EvidenceCsvRow → List (String × EvBucket) → List String →
    Except String (List (String × EvBucket) × List String)
  | [], buckets, translations => .ok (buckets, translations)
  | row :: rest, buckets, translations =>
    let eid := pyStrip row.event_id
    if (buckets.lookup eid).isNone then .error ("unknown event_id: " ++ eid)
    else
      let tier := pyLower (pyStrip row.evidence_tier)
      let translation := pyStrip row.translation
      let translations1 :=
        if translation ∈ translations then translations else translations ++ [translation]
      let base : EvBase :=
        if tier = "parallel" then
          { reference := pyStrip row.reference, verse_text_kr := pyStrip row.verse_text_kr,
            note := some (pyStrip row.note) }
        else
          { reference := pyStrip row.reference, verse_text_kr := pyStrip row.verse_text_kr,
            note := none }
      normalizeEvidenceLoop rest (bucketUpdate tier base buckets eid) translations1

/-- normalize_evidence (build_web_data.py, lines 195-235): classify each row
into its event's direct/parallel bucket, enforce a single translation label,
then fail if any event ended with an empty direct bucket. -/
def normalizeEvidence (rows : List EvidenceCsvRow) (eventIds : List String) :
    Except String (List (String × EvBucket) × String × Nat) :=
  match normalizeEvidenceLoop rows (initBuckets eventIds) [] with
  | .error e => .error e
  | .ok pr =>
    if pr.2.length ≠ 1 then .error "translation label not unique"
    else
      let translation := pr.2.headD ""
      let total := (pr.1.map (fun p => p.2.direct.length + p.2.parallel.length)).sum
      match pr.1.find? (fun p => p.2.direct.isEmpty) with
      | some p => .error ("missing direct evidence: " ++ p.1)
      | none => .ok (pr.1, translation, total)

/-- The rows of the evidence table classified as direct evidence of eid:
stripped event_id matches and the stripped, lowercased tier is anything
other than exactly "parallel". -/
def directFor (rows : List EvidenceCsvRow) (eid : String) : List EvidenceCsvRow :=
  rows.filter (fun r => pyStrip r.event_id = eid ∧ pyLower (pyStrip r.evidence_tier) ≠ "parallel")

/-- The rows classified as parallel evidence of eid. -/
def parallelFor (rows : List EvidenceCsvRow) (eid : String) : List EvidenceCsvRow :=
  rows.filter (fun r => pyStrip r.event_id = eid ∧ pyLower (pyStrip r.evidence_tier) = "parallel")

/-- The bucket entry built from a direct-classified row. -/
def mkBaseD (r : EvidenceCsvRow) : EvBase :=
  { reference := pyStrip r.reference, verse_text_kr := pyStrip r.verse_text_kr, note := none }

/-- The bucket entry built from a parallel-classified row. -/
def mkBaseP (r : EvidenceCsvRow) : EvBase :=
  { reference := pyStrip r.reference, verse_text_kr := pyStrip r.verse_text_kr,
    note := some (pyStrip r.note) }

/-- One row of research/chronology_edges.csv. -/
structure EdgesCsvRow where
  edge_id : String
  from_event_id : String
  to_event_id : String
  relation_type : String
  basis_reference : String
  track_id : String
deriving DecidableEq

/-- One normalized edge of the research-mode payload. -/
structure NormEdge where
  from_event_id : String
  to_event_id : String
  relation_type : String
deriving DecidableEq

/-- defaultdict(list) append keyed by track_id, insertion-ordered. -/
def trackAppend (track : String) (e : NormEdge) :
    List (String × List NormEdge) → List (String × List NormEdge)
  | [] => [(track, [e])]
  | (k, es) :: rest =>
    if k = track then (k, es ++ [e]) :: rest else (k, es) :: trackAppend track e rest

/-- The row loop of normalize_edges: unknown endpoints raise; any
relation_type other than "before" is silently rewritten to "before". -/
def normalizeEdgesLoop (eventIds : List String) :
    List EdgesCsvRow → List (String × List NormEdge) →
    Except String (List (String × List NormEdge))
  | [], byTrack => .ok byTrack
  | row :: rest, byTrack =>
    let frm := pyStrip row.from_event_id
    let toId := pyStrip row.to_event_id
    if frm ∉ eventIds ∨ toId ∉ eventIds then
      .error ("edge references unknown event: " ++ frm ++ "->" ++ toId)
    else
      let relation0 := pyStrip row.relation_type
      let relation := if relation0 ≠ "before" then "before" else relation0
      normalizeEdgesLoop eventIds rest
        (trackAppend (pyStrip row.track_id)
          { from_event_id := frm, to_event_id := toId, relation_type := relation } byTrack)

/-- normalize_edges (build_web_data.py, lines 238-261). -/
def normalizeEdges (rows : List EdgesCsvRow) (eventIds : List String) :
    Except String (List (String × List NormEdge)) :=
  normalizeEdgesLoop eventIds rows []

/-! ### enrich_gospel_parallels.py: the fuzzy parallel matcher

Evidence ids appear in the CSV as strings "EVD0000001"; the script reads
them with int(row['evidence_id'][3:]) and writes them back zero-padded, a
lossless round trip, so the embedding carries the numeric id directly. -/

/-- One evidence row as the enrichment script sees it. -/
structure EnrichRow where
  evidence_id : Nat
  event_id : String
  evidence_tier : String
  reference : String
  verse_text_kr : String
  translation : String
  is_parallel : String
  note : String
deriving DecidableEq

/-- GOSPELS = the four gospel book names. -/
def GOSPELS : List String := ["마태복음", "마가복음", "누가복음", "요한복음"]

/-- STOPWORDS of the title tokenizer. -/
def STOPWORDS : List String :=
  ["예수", "예수께서", "예수님", "그가", "그의", "하나님", "말씀", "제자들"]

/-- Characters kept by re.sub(r'[^가-힣A-Za-z0-9 ]+', ' ', title): Korean
syllables, ASCII letters and digits, and the space itself. -/
def keepTokenChar (c : Char) : Bool :=
  ('가' ≤ c ∧ c ≤ '힣') ∨ ('A' ≤ c ∧ c ≤ 'Z') ∨ ('a' ≤ c ∧ c ≤ 'z') ∨
    ('0' ≤ c ∧ c ≤ '9') ∨ c = ' '

/-- The non-empty space-separated words of a character list (Python
str.split() with no separator argument). -/
def wordsAux : List Char → List Char → List String
  | [], acc => if acc = [] then [] else [acc.reverse.asString]
  | c :: cs, acc =>
    if c = ' ' then
      (if acc = [] then wordsAux cs [] else acc.reverse.asString :: wordsAux cs [])
    else wordsAux cs (c :: acc)

/-- tokens(title): strip punctuation (the regex replaces runs of other
characters with a space; replacing each such character with a space yields
the same word list), split on whitespace discarding empties (Python
str.split()), drop tokens shorter than 2 and stop words, and take the
set. -/
def tokens (title : String) : Finset String :=
  ((wordsAux (title.toList.map (fun c => if keepTokenChar c then c else ' ')) []).filter
    (fun t => 2 ≤ t.length ∧ t ∉ STOPWORDS)).toFinset

/-- score(a, b): Jaccard index of the two token sets, 0 when either is
empty. -/
def score (a b : String) : ℚ :=
  let ta := tokens a
  let tb := tokens b
  if ta = ∅ ∨ tb = ∅ then 0
  else
    let inter := (ta ∩ tb).card
    let union := (ta ∪ tb).card
    if union = 0 then 0 else (inter : ℚ) / (union : ℚ)

/-- Model of the Python format f"{s:.2f}" on a score: the exact rational is
rounded to two decimal places with halves to even.  (Python rounds the
binary double representing s; the two agree except on values a half ulp
from a decimal boundary, and the claims only use that the tag is a
deterministic function of the score.) -/
def round2 (s : ℚ) : Int :=
  let m := s * 100
  let fl := Int.floor m
  if m - fl > 1/2 then fl + 1
  else if m - fl < 1/2 then fl
  else if fl % 2 = 0 then fl else fl + 1

/-- Two-digit rendering of the fractional part. -/
def twoDigits (n : Int) : String :=
  let k := (n % 100).toNat
  (if k < 10 then "0" else "") ++ toString k

/-- Decimal rendering of the rounded score, e.g. "0.35". -/
def fmt2 (s : ℚ) : String :=
  toString (round2 s / 100) ++ "." ++ twoDigits (round2 s)

/-- note = f"parallel_from:{source_id};score={s:.2f}". -/
def mkNote (sourceId : String) (s : ℚ) : String :=
  "parallel_from:" ++ sourceId ++ ";score=" ++ fmt2 s

/-- gospel_events = [e for e in events if e['book'] in GOSPELS]. -/
def gospelEvents (events : List EventsCsvRow) : List EventsCsvRow :=
  events.filter (fun e => e.book ∈ GOSPELS)

/-- max_id = max over all evidence rows of the numeric id (starting at 0). -/
def maxIdOf (evidence : List EnrichRow) : Nat :=
  evidence.foldl (fun m r => max m r.evidence_id) 0

/-- evidence_by_event: the direct-tier rows of an event, in file order
(the tier is compared with == 'direct' exactly, no stripping here). -/
def directRowsOf (evidence : List EnrichRow) (eid : String) : List EnrichRow :=
  evidence.filter (fun r => r.evidence_tier = "direct" ∧ r.event_id = eid)

/-- existing_parallel_keys: is (eid, note) among the (event_id, note) pairs
of parallel rows with a non-empty note? -/
def existingParallelKey (evidence : List EnrichRow) (eid note : String) : Bool :=
  evidence.any (fun r =>
    r.evidence_tier = "parallel" ∧ r.note ≠ "" ∧ r.event_id = eid ∧ r.note = note)

/-- best_by_book entry update: first candidate for the book inserts, a
strictly larger score replaces in place (Python dict keeps the slot). -/
def updateBest : List (String × ℚ × EventsCsvRow) → String → ℚ → EventsCsvRow →
    List (String × ℚ × EventsCsvRow)
  | [], book, s, src => [(book, s, src)]
  | (k, p) :: rest, book, s, src =>
    if k = book then (k, if s > p.1 then (s, src) else p) :: rest
    else (k, p) :: updateBest rest book s src

/-- best_by_book for one target: per source book the highest-scoring
same-group candidate from a different book with score at least 0.35. -/
def bestByBook (gospel : List EventsCsvRow) (target : EventsCsvRow) :
    List (String × ℚ × EventsCsvRow) :=
  gospel.foldl (fun m source =>
    if source.event_id = target.event_id then m
    else if source.book = target.book then m
    else
      let s := score target.event_title source.event_title
      if s < 35/100 then m
      else updateBest m source.book s source) []

/-- The kept matches of one target: best_by_book values sorted by score
descending (stable) and truncated to the top 3. -/
def matchesFor (gospel : List EventsCsvRow) (target : EventsCsvRow) :
    List (ℚ × EventsCsvRow) :=
  (sortKeep (fun a b => b.1 ≤ a.1) ((bestByBook gospel target).map (fun p => p.2))).take 3

/-- The parallel rows appended for one kept match: nothing if the
(target_event_id, note) key already exists, otherwise up to 8 of the source
event's direct rows copied onto the target with fresh consecutive ids
(max_id is incremented once per appended row). -/
def rowsForMatch (evidence : List EnrichRow) (target : EventsCsvRow) (maxId : Nat)
    (m : ℚ × EventsCsvRow) : List EnrichRow :=
  let note := mkNote m.2.event_id m.1
  if existingParallelKey evidence target.event_id note then []
  else
    ((directRowsOf evidence m.2.event_id).take 8).enum.map (fun p =>
      { evidence_id := maxId + p.1 + 1, event_id := target.event_id,
        evidence_tier := "parallel", reference := p.2.reference,
        verse_text_kr := p.2.verse_text_kr, translation := p.2.translation,
        is_parallel := "true", note := note })

/-- The additions list of one matcher run (enrich_gospel_parallels.py main,
lines 52-89): the nested loops over gospel targets and their kept matches,
threading the running max_id through the appended rows. -/
def enrichAdditions (events : List EventsCsvRow) (evidence : List EnrichRow) :
    List EnrichRow :=
  let gospel := gospelEvents events
  (gospel.foldl (fun (st : Nat × List EnrichRow) target =>
    (matchesFor gospel target).foldl (fun (st : Nat × List EnrichRow) m =>
      let rows := rowsForMatch evidence target st.1 m
      (st.1 + rows.length, st.2 ++ rows)) st) (maxIdOf evidence, [])).2

/-- The (target, kept match) pairs a run processes, in loop order; they
depend only on the events table. -/
def matchPairs (events : List EventsCsvRow) : List (EventsCsvRow × ℚ × EventsCsvRow) :=
  ((gospelEvents events).map (fun t =>
    (matchesFor (gospelEvents events) t).map (fun m => (t, m)))).flatten

/-- The additions produced by a flat pass over the (target, match) pairs,
threading the running max id; equal to enrichAdditions (proved below). -/
def goPairs (evidence : List EnrichRow) :
    List (EventsCsvRow × ℚ × EventsCsvRow) → Nat → List EnrichRow
  | [], _ => []
  | (t, m) :: rest, maxId =>
    let rows := rowsForMatch evidence t maxId m
    rows ++ goPairs evidence rest (maxId + rows.length)

/-- The per-entry invariant of the best_by_book fold: keys are unique, each
entry holds a qualifying candidate from the processed prefix with its
score, and every qualifying processed candidate's book already has an
entry scoring at least it. -/
def bestInv (target : EventsCsvRow) (processed : List EventsCsvRow)
    (m : List (String × ℚ × EventsCsvRow)) : Prop :=
  (m.map Prod.fst).Nodup ∧
  (∀ p ∈ m, p.2.2 ∈ processed ∧ p.2.2.event_id ≠ target.event_id ∧
    p.2.2.book ≠ target.book ∧ p.2.2.book = p.1 ∧
    p.2.1 = score target.event_title p.2.2.event_title ∧ ¬ p.2.1 < 35/100) ∧
  ∀ e2 ∈ processed, e2.event_id ≠ target.event_id → e2.book ≠ target.book →
    ¬ score target.event_title e2.event_title < 35/100 →
    ∃ p ∈ m, p.1 = e2.book ∧ score target.event_title e2.event_title ≤ p.2.1

/-- The evidence file contents after one matcher run: unchanged when no
rows were added, otherwise the old rows plus the additions re-sorted by
numeric evidence id (Python stable sort). -/
def runMatcher (events : List EventsCsvRow) (evidence : List EnrichRow) :
    List EnrichRow :=
  let adds := enrichAdditions events evidence
  if adds = [] then evidence
  else sortKeep (fun a b => a.evidence_id ≤ b.evidence_id) (evidence ++ adds)

/-! ### build_research_dataset.py: extraction, quotas, sampling, DAG check -/

/-- TARGET_EVENTS = 320 (the fixed global target). -/
def TARGET_EVENTS : Nat := 320

/-- TRANSLATION = "개역개정". -/
def TRANSLATION : String := "개역개정"

/-- NARRATIVE_BOOKS: the fixed allow-list of books used for event
extraction. -/
def NARRATIVE_BOOKS : List String :=
  ["창세기", "출애굽기", "민수기", "신명기", "여호수아", "사사기", "룻기", "사무엘상",
   "사무엘하", "열왕기상", "열왕기하", "역대상", "역대하", "에스라", "느헤미야", "에스더",
   "다니엘", "요나", "마태복음", "마가복음", "누가복음", "요한복음", "사도행전"]

/-- One verse record. -/
structure Verse where
  testament : String
  canonical_order : Nat
  book_name : String
  book_abbr : String
  chapter : Nat
  verse : Nat
  text : String
deriving DecidableEq

/-- One candidate event (a heading-delimited verse span). -/
structure CandidateEvent where
  testament : String
  canonical_order : Nat
  book_name : String
  title : String
  first_text : String
  start_ref : String
  start_chapter : Nat
  start_verse : Nat
  end_ref : String
  verse_slice : List Verse
deriving DecidableEq

/-- normalize_text: NFC-normalize and strip.  NFC normalization is the
identity on already-composed text, which the corpus files and the literals
of these scripts are; the embedding keeps the strip. -/
def normalizeText (s : String) : String := pyStrip s

/-- HEADING_RE.match for the pattern matching a line that starts (after
optional whitespace) with a bracketed heading: the first group is the
non-empty text before the first closing bracket, the second group is the
rest of the line after the bracket and any following whitespace. -/
def headingMatch (s : String) : Option (String × String) :=
  match s.toList.dropWhile (fun c => c.isWhitespace) with
  | '<' :: rest =>
    let content := rest.takeWhile (fun c => c ≠ '>')
    match rest.dropWhile (fun c => c ≠ '>') with
    | '>' :: tail =>
      if content = [] then none
      else some (content.asString, (tail.dropWhile (fun c => c.isWhitespace)).asString)
    | _ => none
  | _ => none

/-- The loop of clean_heading_prefix (renamed here): strip, then repeatedly
unwrap a leading bracketed heading.  Every successful match removes at
least the two bracket characters and the non-empty heading text, so the
text shrinks and fuel text.length + 1 is never exhausted. -/
def cleanHeadingMarksAux : Nat → String → String
  | 0, text => text
  | fuel + 1, text =>
    let t := pyStrip text
    match headingMatch t with
    | none => t
    | some m => cleanHeadingMarksAux fuel (pyStrip m.2)

/-- clean_heading_prefix from the scripts (build_research_dataset.py lines
103-109): drop every leading bracketed heading marker. -/
def cleanHeadingMarks (text : String) : String :=
  cleanHeadingMarksAux (text.length + 1) text

/-- The heading positions of one book: (verse index, heading title, heading
body) for every verse whose text matches the heading pattern. -/
def headingPositions (verses : List Verse) : List (Nat × String × String) :=
  verses.enum.filterMap (fun p =>
    (headingMatch p.2.text).map (fun m => (p.1, normalizeText m.1, normalizeText m.2)))

/-- The verse span of the i-th heading of a book
(build_research_dataset.py lines 228-230): from the heading's verse index
up to one short of the next heading's index, or to the last verse of the
book for the final heading. -/
def eventSlice (verses : List Verse) (i : Nat) : List Verse :=
  let hp := headingPositions verses
  let startIdx := (hp.getD i (0, "", "")).1
  let endIdx := if i + 1 < hp.length then (hp.getD (i + 1) (0, "", "")).1 - 1
                else verses.length - 1
  (verses.drop startIdx).take (endIdx + 1 - startIdx)

/-- The candidate event built at heading index i, none when the span is
empty (the source's `if not verse_slice: continue`). -/
def candidateAt (bookName : String) (verses : List Verse) (i : Nat) :
    Option CandidateEvent :=
  let h := (headingPositions verses).getD i (0, "", "")
  match eventSlice verses i with
  | [] => none
  | sv :: tail =>
    let slice := sv :: tail
    let lastV := slice.getLastD sv
    let firstText := if h.2.2 = "" then cleanHeadingMarks sv.text else h.2.2
    some { testament := sv.testament, canonical_order := sv.canonical_order,
           book_name := bookName, title := h.2.1, first_text := firstText,
           start_ref := bookName ++ " " ++ toString sv.chapter ++ ":" ++ toString sv.verse,
           start_chapter := sv.chapter, start_verse := sv.verse,
           end_ref := bookName ++ " " ++ toString lastV.chapter ++ ":" ++ toString lastV.verse,
           verse_slice := slice }

/-- The body of build_candidate_events for one narrative book
(build_research_dataset.py lines 207-255, inner loop): each heading starts
a candidate over its eventSlice span. -/
def buildCandidatesBook (bookName : String) (verses : List Verse) : List CandidateEvent :=
  (List.range (headingPositions verses).length).filterMap (candidateAt bookName verses)

/-- The global candidate sort key (canonical_order, start_chapter,
start_verse), as a lexicographic Boolean order. -/
def candidateKeyLe (a b : CandidateEvent) : Bool :=
  a.canonical_order < b.canonical_order ∨
    (a.canonical_order = b.canonical_order ∧ (a.start_chapter < b.start_chapter ∨
      (a.start_chapter = b.start_chapter ∧ a.start_verse ≤ b.start_verse)))

/-- build_candidate_events over the whole corpus map: extract candidates of
every narrative book in the map's insertion order, then sort globally. -/
def build_candidate_events (byBook : List (String × List Verse)) : List CandidateEvent :=
  sortKeep (fun y x => candidateKeyLe y x)
    (byBook.foldl (fun acc p =>
      if p.1 ∈ NARRATIVE_BOOKS then acc ++ buildCandidatesBook p.1 p.2 else acc) [])

/-- Candidate count of one book in the group_counts dict (0 off the dict). -/
def cntOf (counts : List (String × Nat)) (b : String) : Nat :=
  (counts.lookup b).getD 0

/-- The initial quota of one book: max(1, int(target*cnt/total)) capped at
the candidate count.  Python computes target*cnt/total in binary floating
point and truncates with int(); on the rationals this is exact natural
division, which the embedding uses. -/
def quota0 (counts : List (String × Nat)) (target total : Nat) (b : String) : Nat :=
  match counts.lookup b with
  | some c => min (max 1 (target * c / total)) c
  | none => 0

/-- The fractional remainder target*cnt/total - int(target*cnt/total) of a
book, represented by its numerator over the common denominator total (the
sort key ordering is the same). -/
def fracKey (counts : List (String × Nat)) (target total : Nat) (b : String) : Nat :=
  (target * cntOf counts b) % total

/-- The remainder-distribution loop of proportional_quotas (lines 273-284):
round-robin over the expandable books, adding one unit where there is
headroom, stopping at the target or after the fixed iteration bound.  The
loop body advances idx once per iteration; fuel bound + 1 covers every
iteration the Python loop can perform before its break fires. -/
def upLoop (counts : List (String × Nat)) (e : List String) (bound target : Nat) :
    Nat → Nat → (String → Nat) → Nat → ((String → Nat) × Nat)
  | 0, _, q, current => (q, current)
  | fuel + 1, idx, q, current =>
    if current < target ∧ e ≠ [] then
      let b := e.getD (idx % e.length) ""
      let grow := q b < cntOf counts b
      let q1 := if grow then fun x => if x = b then q b + 1 else q x else q
      let current1 := if grow then current + 1 else current
      if idx + 1 > bound then (q1, current1)
      else upLoop counts e bound target fuel (idx + 1) q1 current1
    else (q, current)

/-- The surplus-removal loop of proportional_quotas (lines 286-297):
round-robin over the reducible books, removing one unit where the quota is
still above 1. -/
def downLoop (counts : List (String × Nat)) (r : List String) (bound target : Nat) :
    Nat → Nat → (String → Nat) → Nat → ((String → Nat) × Nat)
  | 0, _, q, current => (q, current)
  | fuel + 1, idx, q, current =>
    if target < current ∧ r ≠ [] then
      let b := r.getD (idx % r.length) ""
      let shrink := 1 < q b
      let q1 := if shrink then fun x => if x = b then q b - 1 else q x else q
      let current1 := if shrink then current - 1 else current
      if idx + 1 > bound then (q1, current1)
      else downLoop counts r bound target fuel (idx + 1) q1 current1
    else (q, current)

/-- proportional_quotas (build_research_dataset.py lines 258-299).  The
group_counts dict is an insertion-ordered association list; the result dict
is the quota function on its keys.  After the first loop the running sum
never exceeds the target, so at most one of the two correction loops runs,
exactly as in the source. -/
def proportional_quotas (counts : List (String × Nat)) (target : Nat) : String → Nat :=
  let total := (counts.map (fun p => p.2)).sum
  if total = 0 then fun _ => 0
  else
    let q0 := quota0 counts target total
    let books := counts.map (fun p => p.1)
    let current := (books.map q0).sum
    if current < target then
      let e := sortKeep (fun a b => fracKey counts target total b ≤ fracKey counts target total a)
        (books.filter (fun b => q0 b < cntOf counts b))
      let bound := e.length * (target + 2)
      (upLoop counts e bound target (bound + 1) 0 q0 current).1
    else if target < current then
      let r := sortKeep (fun a b => fracKey counts target total a ≤ fracKey counts target total b)
        (books.filter (fun b => 1 < q0 b))
      let bound := r.length * (target + 2)
      (downLoop counts r bound target (bound + 1) 0 q0 current).1
    else q0

/-- A candidate event with every field empty (used only as the default of
in-range list indexing). -/
def defaultCand : CandidateEvent :=
  { testament := "", canonical_order := 0, book_name := "", title := "", first_text := "",
    start_ref := "", start_chapter := 0, start_verse := 0, end_ref := "", verse_slice := [] }

/-- The deduplication key (book_name, start_ref) of pick_evenly. -/
def eventKey (c : CandidateEvent) : String × String := (c.book_name, c.start_ref)

/-- The stride-sample deduplication of pick_evenly (lines 318-324): keep
the first item of each key. -/
def dedupPhase : List CandidateEvent →
    List CandidateEvent × List (String × String) →
    List CandidateEvent × List (String × String)
  | [], st => st
  | item :: rest, (unique, seen) =>
    if eventKey item ∈ seen then dedupPhase rest (unique, seen)
    else dedupPhase rest (unique ++ [item], seen ++ [eventKey item])

/-- One pass of the fill loop of pick_evenly (lines 326-334): walk the
items in original order, appending each unseen key, breaking at quota. -/
def fillPass (quota : Nat) : List CandidateEvent →
    List CandidateEvent × List (String × String) →
    List CandidateEvent × List (String × String)
  | [], st => st
  | item :: rest, (unique, seen) =>
    if eventKey item ∈ seen then fillPass quota rest (unique, seen)
    else
      let unique1 := unique ++ [item]
      let seen1 := seen ++ [eventKey item]
      if unique1.length = quota then (unique1, seen1)
      else fillPass quota rest (unique1, seen1)

/-- The while-loop around the fill pass.  After one complete pass every key
of items is in seen, so every later pass is the identity; hence with any
fuel of at least 2 this returns none exactly when the Python while-loop
never reaches the quota, i.e. spins forever. -/
def fillWhile (quota : Nat) (items : List CandidateEvent) :
    Nat → List CandidateEvent × List (String × String) → Option (List CandidateEvent)
  | 0, _ => none
  | fuel + 1, st =>
    if st.1.length < quota then fillWhile quota items fuel (fillPass quota items st)
    else some st.1

/-- The stride-sampled picks of pick_evenly (lines 310-316): the midpoint
index of each of quota equal-width index ranges over the list. -/
def strideSelected (items : List CandidateEvent) (quota : Nat) : List CandidateEvent :=
  (List.range quota).map (fun i =>
    let start := i * items.length / quota
    let e := (i + 1) * items.length / quota
    items.getD ((start + max start (e - 1)) / 2) defaultCand)

/-- pick_evenly (build_research_dataset.py lines 302-337): midpoint of each
of quota equal-width index ranges, dedup by event key, fill from the items
in original order, sort by the canonical key.  none models the source
looping forever. -/
def pick_evenly (items : List CandidateEvent) (quota : Nat) :
    Option (List CandidateEvent) :=
  if quota ≥ items.length then some items
  else if quota = 0 then some []
  else if quota = 1 then some [items.getD (items.length / 2) defaultCand]
  else
    (fillWhile quota items (items.length + 2)
        (dedupPhase (strideSelected items quota) ([], []))).map
      (fun unique => sortKeep (fun y x => candidateKeyLe y x) unique)

/-- The indegree and adjacency maps of topological_ok (lines 383-387):
edges with an endpoint outside the node set are skipped; the others bump
the indegree of their destination and extend the outgoing list of their
source in edge order. -/
def buildMaps (ns : List String) (edges : List (String × String)) :
    (String → Int) × (String → List String) :=
  edges.foldl (fun maps e =>
    if e.1 ∈ ns ∧ e.2 ∈ ns then
      (fun v => if v = e.2 then maps.1 v + 1 else maps.1 v,
       fun v => if v = e.1 then maps.2 v ++ [e.2] else maps.2 v)
    else maps) (fun _ => 0, fun _ => [])

/-- Processing the outgoing list of a popped node (lines 394-397): each
successor's indegree drops by one and a successor reaching zero is
appended to the queue. -/
def processOut (nxts : List String) (indeg : String → Int) (queue : List String) :
    (String → Int) × List String :=
  nxts.foldl (fun st nxt =>
    let d := st.1 nxt - 1
    (fun v => if v = nxt then d else st.1 v, if d = 0 then st.2 ++ [nxt] else st.2))
    (indeg, queue)

/-- The Kahn traversal loop (lines 391-397).  queue.pop() removes the last
element; the visited counter is realised as the list of popped nodes (its
length is the counter).  The popped list stays duplicate-free inside the
node set (proved below), so the queue empties within ns.length iterations
and the fuel of the caller is never the reason the loop stops. -/
def kahnLoop (out : String → List String) :
    Nat → List String → (String → Int) → List String → List String
  | 0, _, _, popped => popped
  | fuel + 1, queue, indeg, popped =>
    match queue.getLast? with
    | none => popped
    | some cur =>
      let st := processOut (out cur) indeg queue.dropLast
      kahnLoop out fuel st.2 st.1 (popped ++ [cur])

/-- topological_ok (build_research_dataset.py lines 378-399): Kahn's
zero-indegree traversal visits every node exactly when the induced graph is
acyclic.  nodes is an enumeration of the Python node set (deduplicated
before use, so only membership matters). -/
def topological_ok (nodes : List String) (edges : List (String × String)) : Bool :=
  let ns := nodes.dedup
  let maps := buildMaps ns edges
  let queue0 := ns.filter (fun n => maps.1 n = 0)
  decide ((kahnLoop maps.2 (ns.length + 1) queue0 maps.1 []).length = ns.length)

/-- The per-track validation of main (lines 617-619): the build aborts with
a DAG-violation error on the first track whose traversal misses a node. -/
def validateTracks (tracks : List (String × List String × List (String × String))) :
    Except String Unit :=
  match tracks.find? (fun t => !(topological_ok t.2.1 t.2.2)) with
  | some t => .error ("DAG violation: " ++ t.1)
  | none => .ok ()

/-- The induced edge list of one track: edges whose two endpoints lie in
the node set. -/
def inducedEdges (ns : List String) (edges : List (String × String)) :
    List (String × String) :=
  edges.filter (fun e => e.1 ∈ ns ∧ e.2 ∈ ns)

/-- The edge relation of an edge list. -/
def EdgeRel (E : List (String × String)) (a b : String) : Prop := (a, b) ∈ E

/-- A directed cycle: a chain of edges leaving v and returning to v. -/
def HasCycle (E : List (String × String)) : Prop :=
  ∃ v l, List.Chain (EdgeRel E) v (l ++ [v])

/-- The per-book grouping of main (lines 422-424): dict key order is the
first-occurrence order of books in the candidate list. -/
def groupedBooks (candidates : List CandidateEvent) : List String :=
  (candidates.map (fun c => c.book_name)).dedup

/-- grouped[b]: the candidates of book b in list order. -/
def groupedFor (candidates : List CandidateEvent) (b : String) : List CandidateEvent :=
  candidates.filter (fun c => c.book_name = b)

/-- group_counts = {book: len(items)}. -/
def groupCounts (candidates : List CandidateEvent) : List (String × Nat) :=
  (groupedBooks candidates).map (fun b => (b, (groupedFor candidates b).length))

/-- Per-book even picks in book order; none propagates a diverging
pick_evenly. -/
def pickAll (f : String → Option (List CandidateEvent)) :
    List String → Option (List (List CandidateEvent))
  | [] => some []
  | b :: bs =>
    match f b, pickAll f bs with
    | some l, some ls => some (l :: ls)
    | _, _ => none

/-- The selected candidates of main (lines 426-433): per-book even picks
under the proportional quotas, concatenated over the books in canonical
order and re-sorted globally; none propagates a diverging pick_evenly. -/
def selectedCandidates (canonicalMap : String → Nat) (candidates : List CandidateEvent) :
    Option (List CandidateEvent) :=
  let quotas := proportional_quotas (groupCounts candidates) TARGET_EVENTS
  let books := sortKeep (fun y x => canonicalMap y ≤ canonicalMap x) (groupedBooks candidates)
  (pickAll (fun b => pick_evenly (groupedFor candidates b) (quotas b)) books).map
    (fun ls => sortKeep (fun y x => candidateKeyLe y x) ls.flatten)

/-- The event objects of main (lines 436-456): 1-based sequence numbers,
modelling the id string EVT{seq:04d} by its number. -/
def eventObjects (canonicalMap : String → Nat) (candidates : List CandidateEvent) :
    Option (List (Nat × CandidateEvent)) :=
  (selectedCandidates canonicalMap candidates).map
    (fun sel => sel.enum.map (fun p => (p.1 + 1, p.2)))

/-- One research-package evidence row, with the ids EVD{n:07d} and
EVT{n:04d} modelled by their numbers. -/
structure ResearchEvidenceRow where
  evidence_id : Nat
  event_id : Nat
  evidence_tier : String
  reference : String
  verse_text_kr : String
  translation : String
  is_parallel : String
  note : String
deriving DecidableEq

/-- The direct evidence rows of one event (main, lines 461-476): one row
per verse of the candidate's slice, the first verse stripped of its heading
marker. -/
def directRowsForEvent (eid : Nat) (cand : CandidateEvent) (startId : Nat) :
    List ResearchEvidenceRow :=
  cand.verse_slice.enum.map (fun p =>
    { evidence_id := startId + p.1, event_id := eid, evidence_tier := "direct",
      reference := p.2.book_name ++ " " ++ toString p.2.chapter ++ ":" ++ toString p.2.verse,
      verse_text_kr := if p.1 = 0 then cleanHeadingMarks p.2.text else p.2.text,
      translation := TRANSLATION, is_parallel := "false", note := "" })

/-- The full direct-evidence pass of main: consecutive ids from 1 across
all events. -/
def buildDirectRows (objs : List (Nat × CandidateEvent)) : List ResearchEvidenceRow :=
  (objs.foldl (fun (st : Nat × List ResearchEvidenceRow) obj =>
    let rows := directRowsForEvent obj.1 obj.2 st.1
    (st.1 + rows.length, st.2 ++ rows)) (1, [])).2

/-! ### Concrete inputs used by witnesses -/

/-- A concrete events row with an unrecognized certainty_level. -/
def c8row1 : EventsCsvRow :=
  { event_id := "E1", testament := "OT", book := "b", event_title := "t",
    event_summary := "s", lane_tag := "lane", sequence_index := "1", track_id := "tr",
    certainty_level := "certainly-not" }

/-- A concrete events table with one unrecognized and one recognized
certainty value. -/
def c8rows : List EventsCsvRow :=
  [c8row1,
   { event_id := "E2", testament := "OT", book := "b", event_title := "t",
     event_summary := "s", lane_tag := "lane", sequence_index := "2", track_id := "tr",
     certainty_level := "low" }]

/-- A concrete chronology-edges table whose relation_type is not
"before". -/
def c9rows : List EdgesCsvRow :=
  [{ edge_id := "G1", from_event_id := "E1", to_event_id := "E2",
     relation_type := "after", basis_reference := "x", track_id := "track_main" }]

/-- A concrete evidence table whose only row for event E1 carries the
unrecognized tier "dirct". -/
def c10rows : List EvidenceCsvRow :=
  [{ evidence_id := "EVD0000001", event_id := "E1", evidence_tier := "dirct",
     reference := "r 1:1", verse_text_kr := "v", translation := "개역개정",
     is_parallel := "false", note := "" }]

/-- A 10-verse narrative book with headings on its 1st and 6th verses. -/
def c7verses : List Verse :=
  [{ testament := "OT", canonical_order := 1, book_name := "창세기", book_abbr := "창",
     chapter := 1, verse := 1, text := "<첫째 단락> 본문1" },
   { testament := "OT", canonical_order := 1, book_name := "창세기", book_abbr := "창",
     chapter := 1, verse := 2, text := "본문2" },
   { testament := "OT", canonical_order := 1, book_name := "창세기", book_abbr := "창",
     chapter := 1, verse := 3, text := "본문3" },
   { testament := "OT", canonical_order := 1, book_name := "창세기", book_abbr := "창",
     chapter := 1, verse := 4, text := "본문4" },
   { testament := "OT", canonical_order := 1, book_name := "창세기", book_abbr := "창",
     chapter := 1, verse := 5, text := "본문5" },
   { testament := "OT", canonical_order := 1, book_name := "창세기", book_abbr := "창",
     chapter := 1, verse := 6, text := "<둘째 단락> 본문6" },
   { testament := "OT", canonical_order := 1, book_name := "창세기", book_abbr := "창",
     chapter := 1, verse := 7, text := "본문7" },
   { testament := "OT", canonical_order := 1, book_name := "창세기", book_abbr := "창",
     chapter := 1, verse := 8, text := "본문8" },
   { testament := "OT", canonical_order := 1, book_name := "창세기", book_abbr := "창",
     chapter := 1, verse := 9, text := "본문9" },
   { testament := "OT", canonical_order := 1, book_name := "창세기", book_abbr := "창",
     chapter := 1, verse := 10, text := "본문10" }]

/-- A candidate with the fixed key (창세기, 창세기 1:1). -/
def c6dup : CandidateEvent :=
  { testament := "OT", canonical_order := 1, book_name := "창세기", title := "t",
    first_text := "f", start_ref := "창세기 1:1", start_chapter := 1, start_verse := 1,
    end_ref := "창세기 1:1", verse_slice := [] }

/-- Three candidates sharing one dedup key. -/
def c6dupItems : List CandidateEvent := [c6dup, c6dup, c6dup]

/-- A candidate of 창세기 starting at the given verse of chapter 1. -/
def c6cand (v : Nat) (ref : String) : CandidateEvent :=
  { testament := "OT", canonical_order := 1, book_name := "창세기", title := "t",
    first_text := "f", start_ref := ref, start_chapter := 1, start_verse := v,
    end_ref := ref, verse_slice := [] }

/-- Five candidates with pairwise distinct dedup keys. -/
def c6Items : List CandidateEvent :=
  [c6cand 1 "창세기 1:1", c6cand 2 "창세기 1:2", c6cand 3 "창세기 1:3",
   c6cand 4 "창세기 1:4", c6cand 5 "창세기 1:5"]

/-- A concrete gospel events table for the matcher: the two retellings of
one pericope share enough title tokens to match, the third title does
not. -/
def c4target : EventsCsvRow :=
  { event_id := "T1", testament := "NT", book := "마태복음", event_title := "seed parable lake",
    event_summary := "s", lane_tag := "life_of_jesus", sequence_index := "1",
    track_id := "track_main", certainty_level := "high" }

/-- A retelling of c4target from another gospel book sharing two of its
four title tokens (Jaccard one half). -/
def c4src1 : EventsCsvRow :=
  { event_id := "S1", testament := "NT", book := "마가복음", event_title := "seed parable shore",
    event_summary := "s", lane_tag := "life_of_jesus", sequence_index := "2",
    track_id := "track_main", certainty_level := "high" }

/-- The events table around c4target. -/
def c4events : List EventsCsvRow :=
  [c4target, c4src1,
   { event_id := "S2", testament := "NT", book := "누가복음", event_title := "totally different words",
     event_summary := "s", lane_tag := "life_of_jesus", sequence_index := "3",
     track_id := "track_main", certainty_level := "high" }]

/-! ### Lemmas about the stable sort -/

theorem insKeep_perm (keep : α → α → Bool) (x : α) (l : List α) :
    (insKeep keep x l).Perm (x :: l) := by
  induction l with
  | nil => simp [insKeep]
  | cons y ys ih =>
    simp only [insKeep]
    split
    · exact (ih.cons y).trans (List.Perm.swap x y ys)
    · exact List.Perm.refl _

theorem foldl_insKeep_perm (keep : α → α → Bool) :
    ∀ (l acc : List α), (l.foldl (fun a x => insKeep keep x a) acc).Perm (acc ++ l) := by
  intro l
  induction l with
  | nil => simp
  | cons x xs ih =>
    intro acc
    have h1 : (xs.foldl (fun a x => insKeep keep x a) (insKeep keep x acc)).Perm
        (insKeep keep x acc ++ xs) := ih _
    have h2 : (insKeep keep x acc ++ xs).Perm ((x :: acc) ++ xs) :=
      (insKeep_perm keep x acc).append_right xs
    have h3 : ((x :: acc) ++ xs).Perm (acc ++ x :: xs) := List.perm_middle.symm
    exact (h1.trans (h2.trans h3))

theorem sortKeep_perm (keep : α → α → Bool) (l : List α) :
    (sortKeep keep l).Perm l := by
  simpa [sortKeep] using foldl_insKeep_perm keep l []

theorem sortKeep_mem (keep : α → α → Bool) (l : List α) (x : α) :
    x ∈ sortKeep keep l ↔ x ∈ l :=
  (sortKeep_perm keep l).mem_iff

theorem sortKeep_length (keep : α → α → Bool) (l : List α) :
    (sortKeep keep l).length = l.length :=
  (sortKeep_perm keep l).length_eq

/-! ### Lemmas about normalize_events (C8) -/

theorem normalizeEventsLoop_ok_eq :
    ∀ (rows : List EventsCsvRow) (seen : List String) (acc out : List NormEvent),
      normalizeEventsLoop rows seen acc = .ok out → out = acc ++ rows.map mkNormEvent := by
  intro rows
  induction rows with
  | nil =>
    intro seen acc out h
    simp only [normalizeEventsLoop] at h
    cases h
    simp
  | cons row rest ih =>
    intro seen acc out h
    simp only [normalizeEventsLoop] at h
    split at h
    · cases h
    · split at h
      · cases h
      · have := ih _ _ _ h
        simp [this]

theorem normalizeEventsLoop_isOk :
    ∀ (rows : List EventsCsvRow) (seen : List String) (acc : List NormEvent),
      (∃ out, normalizeEventsLoop rows seen acc = .ok out) ↔
        ((rows.map (fun r => pyStrip r.event_id)).Nodup ∧
          (∀ r ∈ rows, pyStrip r.event_id ∉ seen) ∧
          (∀ r ∈ rows, (pyInt r.sequence_index).isSome)) := by
  intro rows
  induction rows with
  | nil =>
    intro seen acc
    simp [normalizeEventsLoop]
  | cons row rest ih =>
    intro seen acc
    simp only [normalizeEventsLoop]
    split
    · rename_i hmem
      constructor
      · rintro ⟨out, hout⟩; cases hout
      · rintro ⟨-, hseen, -⟩
        exact absurd hmem (hseen row (by simp))
    · rename_i hmem
      cases hpi : pyInt row.sequence_index with
      | none =>
        constructor
        · rintro ⟨out, hout⟩; cases hout
        · rintro ⟨-, -, hint⟩
          have := hint row (by simp)
          rw [hpi] at this
          cases this
      | some v =>
        rw [ih]
        constructor
        · rintro ⟨hnd, hseen, hint⟩
          have hne : ∀ r ∈ rest,
              pyStrip r.event_id ∉ seen ∧ pyStrip r.event_id ≠ pyStrip row.event_id := by
            intro r hr
            have := hseen r hr
            simp only [List.mem_append, List.mem_singleton] at this
            push_neg at this
            exact this
          refine ⟨?_, ?_, ?_⟩
          · rw [List.map_cons]
            refine List.nodup_cons.mpr ⟨?_, hnd⟩
            intro hc
            rcases List.mem_map.mp hc with ⟨r, hr, hre⟩
            exact (hne r hr).2 hre
          · intro r hr
            rcases List.mem_cons.mp hr with h | h
            · subst h; exact hmem
            · exact (hne r h).1
          · intro r hr
            rcases List.mem_cons.mp hr with h | h
            · subst h; simp [hpi]
            · exact hint r h
        · rintro ⟨hnd, hseen, hint⟩
          rw [List.map_cons] at hnd
          rcases List.nodup_cons.mp hnd with ⟨hnotin, hnd2⟩
          refine ⟨hnd2, ?_, fun r hr => hint r (List.mem_cons_of_mem _ hr)⟩
          intro r hr
          simp only [List.mem_append, List.mem_singleton]
          push_neg
          refine ⟨fun hc => hseen r (List.mem_cons_of_mem _ hr) hc, ?_⟩
          intro heq
          exact hnotin (List.mem_map.mpr ⟨r, hr, heq⟩)

/-- C8: a row whose (stripped) certainty_level is not one of
{high, medium, low, disputed} is not rejected by normalize_events: the run
succeeds or fails independently of the certainty values (it fails exactly
on a duplicate stripped event_id or an unparsable sequence_index), and on
success the row's event is emitted with certainty_level "medium", while a
row with a recognized value keeps that value unchanged. -/
theorem normalize_events_certainty_default (rows : List EventsCsvRow) :
    ((∃ out, normalizeEvents rows = .ok out) ↔
      ((rows.map (fun r => pyStrip r.event_id)).Nodup ∧
        ∀ r ∈ rows, (pyInt r.sequence_index).isSome)) ∧
    (∀ out, normalizeEvents rows = .ok out → ∀ r ∈ rows,
      ∃ ev ∈ out, ev.event_id = pyStrip r.event_id ∧
        ev.certainty_level =
          (if pyStrip r.certainty_level ∈ CERTAINTY_SET then pyStrip r.certainty_level
           else "medium")) := by
  constructor
  · constructor
    · rintro ⟨out, hout⟩
      unfold normalizeEvents at hout
      cases hloop : normalizeEventsLoop rows [] [] with
      | error e => rw [hloop] at hout; cases hout
      | ok o =>
        have := (normalizeEventsLoop_isOk rows [] []).mp ⟨o, hloop⟩
        exact ⟨this.1, this.2.2⟩
    · rintro ⟨hnd, hint⟩
      rcases (normalizeEventsLoop_isOk rows [] []).mpr ⟨hnd, by simp, hint⟩ with ⟨o, ho⟩
      exact ⟨_, by unfold normalizeEvents; rw [ho]⟩
  · intro out hout r hr
    unfold normalizeEvents at hout
    cases hloop : normalizeEventsLoop rows [] [] with
    | error e => rw [hloop] at hout; cases hout
    | ok o =>
      rw [hloop] at hout
      have ho : o = rows.map mkNormEvent := by
        simpa using normalizeEventsLoop_ok_eq rows [] [] o hloop
      have hout2 : sortKeep (fun a b => decide (a.sequence_index ≤ b.sequence_index)) o = out := by
        cases hout; rfl
      refine ⟨mkNormEvent r, ?_, rfl, rfl⟩
      rw [← hout2, sortKeep_mem, ho]
      exact List.mem_map.mpr ⟨r, hr, rfl⟩

/-- Witness for C8: the concrete table with an unrecognized certainty value
normalizes successfully and emits that row with certainty "medium". -/
theorem normalize_events_certainty_default_witness :
    (∃ out, normalizeEvents c8rows = .ok out) ∧
    (∀ out, normalizeEvents c8rows = .ok out →
      ∃ ev ∈ out, ev.event_id = "E1" ∧ ev.certainty_level = "medium") := by
  have h := normalize_events_certainty_default c8rows
  refine ⟨h.1.mpr (by decide), ?_⟩
  intro out hout
  rcases h.2 out hout c8row1 (by decide) with ⟨ev, hev, h1, h2⟩
  exact ⟨ev, hev, h1.trans (by decide), h2.trans (by decide)⟩

/-! ### Lemmas about normalize_edges (C9) -/

theorem trackAppend_mem_prop (P : NormEdge → Prop) (track : String) (e : NormEdge) :
    ∀ byTrack, (∀ p ∈ byTrack, ∀ x ∈ p.2, P x) → P e →
      ∀ p ∈ trackAppend track e byTrack, ∀ x ∈ p.2, P x := by
  intro byTrack
  induction byTrack with
  | nil =>
    intro _ hPe p hp x hx
    simp only [trackAppend, List.mem_singleton] at hp
    subst hp
    simp only [List.mem_singleton] at hx
    subst hx
    exact hPe
  | cons q rest ih =>
    intro hinv hPe p hp x hx
    rcases q with ⟨k, es⟩
    simp only [trackAppend] at hp
    split at hp
    · rcases List.mem_cons.mp hp with h | h
      · subst h
        rcases List.mem_append.mp hx with h2 | h2
        · exact hinv (k, es) (by simp) x h2
        · simp only [List.mem_singleton] at h2; subst h2; exact hPe
      · exact hinv p (List.mem_cons_of_mem _ h) x hx
    · rcases List.mem_cons.mp hp with h | h
      · subst h; exact hinv (k, es) (by simp) x hx
      · exact ih (fun q hq => hinv q (List.mem_cons_of_mem _ hq)) hPe p h x hx

theorem normalizeEdgesLoop_before (eventIds : List String) :
    ∀ (rows : List EdgesCsvRow) byTrack out,
      normalizeEdgesLoop eventIds rows byTrack = .ok out →
      (∀ p ∈ byTrack, ∀ x ∈ p.2, x.relation_type = "before") →
      ∀ p ∈ out, ∀ x ∈ p.2, x.relation_type = "before" := by
  intro rows
  induction rows with
  | nil =>
    intro byTrack out h hinv
    simp only [normalizeEdgesLoop] at h
    cases h
    exact hinv
  | cons row rest ih =>
    intro byTrack out h hinv
    simp only [normalizeEdgesLoop] at h
    split at h
    · cases h
    · refine ih _ _ h (trackAppend_mem_prop _ _ _ _ hinv ?_)
      show (if pyStrip row.relation_type ≠ "before" then "before"
            else pyStrip row.relation_type) = "before"
      by_cases hb : pyStrip row.relation_type ≠ "before"
      · simp [hb]
      · push_neg at hb; simp [hb]

theorem normalizeEdgesLoop_isOk (eventIds : List String) :
    ∀ (rows : List EdgesCsvRow) byTrack,
      (∃ out, normalizeEdgesLoop eventIds rows byTrack = .ok out) ↔
        ∀ r ∈ rows, pyStrip r.from_event_id ∈ eventIds ∧ pyStrip r.to_event_id ∈ eventIds := by
  intro rows
  induction rows with
  | nil =>
    intro byTrack
    simp [normalizeEdgesLoop]
  | cons row rest ih =>
    intro byTrack
    simp only [normalizeEdgesLoop]
    split
    · rename_i hbad
      constructor
      · rintro ⟨out, hout⟩; cases hout
      · intro hall
        rcases hall row (by simp) with ⟨h1, h2⟩
        rcases hbad with hb | hb
        · exact absurd h1 hb
        · exact absurd h2 hb
    · rename_i hgood
      push_neg at hgood
      rw [ih]
      constructor
      · intro hall r hr
        rcases List.mem_cons.mp hr with h | h
        · subst h; exact hgood
        · exact hall r h
      · intro hall r hr
        exact hall r (List.mem_cons_of_mem _ hr)

/-- C9: in research-mode normalization every output edge has
relation_type "before": normalize_edges succeeds exactly when every edge's
endpoints are known event ids (the relation value never causes an error),
and on success every edge of every track carries relation_type "before",
whatever the CSV said. -/
theorem normalize_edges_always_before (rows : List EdgesCsvRow) (eventIds : List String) :
    ((∃ out, normalizeEdges rows eventIds = .ok out) ↔
      ∀ r ∈ rows, pyStrip r.from_event_id ∈ eventIds ∧ pyStrip r.to_event_id ∈ eventIds) ∧
    (∀ out, normalizeEdges rows eventIds = .ok out →
      ∀ p ∈ out, ∀ e ∈ p.2, e.relation_type = "before") := by
  constructor
  · exact normalizeEdgesLoop_isOk eventIds rows []
  · intro out hout
    exact normalizeEdgesLoop_before eventIds rows [] out hout (by simp)

/-- Witness for C9: the concrete table with relation_type "after" is
accepted and its edge comes out as "before". -/
theorem normalize_edges_always_before_witness :
    (∃ out, normalizeEdges c9rows ["E1", "E2"] = .ok out) ∧
    (∀ out, normalizeEdges c9rows ["E1", "E2"] = .ok out →
      ∀ p ∈ out, ∀ e ∈ p.2, e.relation_type = "before") := by
  have h := normalize_edges_always_before c9rows ["E1", "E2"]
  exact ⟨h.1.mpr (by decide), h.2⟩

/-! ### Lemmas about normalize_evidence (C10, C7) -/

theorem bucketUpdate_lookup_self (tier : String) (base : EvBase) :
    ∀ (buckets : List (String × EvBucket)) (eid : String) (b0 : EvBucket),
      buckets.lookup eid = some b0 →
      (bucketUpdate tier base buckets eid).lookup eid =
        some (if tier = "parallel" then { b0 with parallel := b0.parallel ++ [base] }
              else { b0 with direct := b0.direct ++ [base] }) := by
  intro buckets
  induction buckets with
  | nil => intro eid b0 h; cases h
  | cons p rest ih =>
    intro eid b0 h
    rcases p with ⟨k, b⟩
    by_cases hk : k = eid
    · subst hk
      simp only [List.lookup, beq_self_eq_true, if_true] at h
      cases h
      simp [bucketUpdate, List.lookup]
    · have hk2 : (eid == k) = false := beq_eq_false_iff_ne.mpr (fun hc => hk hc.symm)
      simp only [List.lookup, hk2, if_false] at h
      simp only [bucketUpdate, if_neg hk, List.lookup, hk2, if_false]
      exact ih eid b0 h

theorem bucketUpdate_lookup_other (tier : String) (base : EvBase) :
    ∀ (buckets : List (String × EvBucket)) (eid k : String), k ≠ eid →
      (bucketUpdate tier base buckets eid).lookup k = buckets.lookup k := by
  intro buckets
  induction buckets with
  | nil => intro eid k _; simp [bucketUpdate]
  | cons p rest ih =>
    intro eid k hne
    rcases p with ⟨k1, b⟩
    by_cases hk : k1 = eid
    · subst hk
      have hk2 : (k == k1) = false := beq_eq_false_iff_ne.mpr hne
      simp [bucketUpdate, List.lookup, hk2]
    · simp only [bucketUpdate, if_neg hk]
      by_cases hkk : k = k1
      · subst hkk
        simp [List.lookup]
      · have hk2 : (k == k1) = false := beq_eq_false_iff_ne.mpr hkk
        simp only [List.lookup, hk2, if_false]
        exact ih eid k hne

theorem lookup_mem_of_eq_some :
    ∀ (l : List (String × EvBucket)) (k : String) (b : EvBucket),
      l.lookup k = some b → (k, b) ∈ l := by
  intro l
  induction l with
  | nil => intro k b h; cases h
  | cons p rest ih =>
    intro k b h
    rcases p with ⟨k1, b1⟩
    by_cases hk : k == k1
    · simp only [List.lookup, hk, if_true] at h
      cases h
      have := eq_of_beq hk
      subst this
      simp
    · simp only [List.lookup, Bool.not_eq_true] at h
      rw [Bool.eq_false_iff.mpr hk] at h
      simp only [if_false] at h
      exact List.mem_cons_of_mem _ (ih k b h)

theorem initBuckets_lookup_aux (eid : String) :
    ∀ l : List String, eid ∈ l →
      (l.map (fun e => (e, ({ direct := [], parallel := [] } : EvBucket)))).lookup eid =
        some { direct := [], parallel := [] } := by
  intro l
  induction l with
  | nil => intro h; cases h
  | cons k rest ih =>
    intro h
    by_cases hk : eid = k
    · subst hk
      simp [List.lookup]
    · have hk2 : (eid == k) = false := beq_eq_false_iff_ne.mpr hk
      simp only [List.map_cons, List.lookup, hk2, if_false]
      exact ih (by rcases List.mem_cons.mp h with h1 | h1; exact absurd h1 hk; exact h1)

theorem initBuckets_lookup (eventIds : List String) (eid : String) (h : eid ∈ eventIds) :
    (initBuckets eventIds).lookup eid = some { direct := [], parallel := [] } :=
  initBuckets_lookup_aux eid eventIds.dedup (List.mem_dedup.mpr h)

theorem normalizeEvidenceLoop_ok_lookup :
    ∀ (rows : List EvidenceCsvRow) buckets trs out,
      normalizeEvidenceLoop rows buckets trs = .ok out →
      ∀ eid b0, buckets.lookup eid = some b0 →
        out.1.lookup eid = some
          { direct := b0.direct ++ (directFor rows eid).map mkBaseD,
            parallel := b0.parallel ++ (parallelFor rows eid).map mkBaseP } := by
  intro rows
  induction rows with
  | nil =>
    intro buckets trs out h eid b0 hb
    simp only [normalizeEvidenceLoop] at h
    cases h
    simpa [directFor, parallelFor] using hb
  | cons row rest ih =>
    intro buckets trs out h eid b0 hb
    simp only [normalizeEvidenceLoop] at h
    split at h
    · cases h
    · by_cases heq : pyStrip row.event_id = eid
      · rw [heq] at h
        by_cases htier : pyLower (pyStrip row.evidence_tier) = "parallel"
        · rw [if_pos htier] at h
          have hupd := bucketUpdate_lookup_self (pyLower (pyStrip row.evidence_tier))
            (mkBaseP row) buckets eid b0 hb
          rw [if_pos htier] at hupd
          have hrec := ih _ _ _ h eid _ hupd
          rw [hrec]
          have hd : directFor (row :: rest) eid = directFor rest eid := by
            simp [directFor, List.filter, heq, htier]
          have hp : parallelFor (row :: rest) eid = row :: parallelFor rest eid := by
            simp [parallelFor, List.filter, heq, htier]
          simp [hd, hp, mkBaseP]
        · rw [if_neg htier] at h
          have hupd := bucketUpdate_lookup_self (pyLower (pyStrip row.evidence_tier))
            (mkBaseD row) buckets eid b0 hb
          rw [if_neg htier] at hupd
          have hrec := ih _ _ _ h eid _ hupd
          rw [hrec]
          have hd : directFor (row :: rest) eid = row :: directFor rest eid := by
            simp [directFor, List.filter, heq, htier]
          have hp : parallelFor (row :: rest) eid = parallelFor rest eid := by
            simp [parallelFor, List.filter, heq, htier]
          simp [hd, hp, mkBaseD]
      · have hupd := bucketUpdate_lookup_other
          (pyLower (pyStrip row.evidence_tier))
          (if pyLower (pyStrip row.evidence_tier) = "parallel" then mkBaseP row else mkBaseD row)
          buckets (pyStrip row.event_id) eid (fun hc => heq hc.symm)
        have hb2 : (bucketUpdate (pyLower (pyStrip row.evidence_tier))
            (if pyLower (pyStrip row.evidence_tier) = "parallel" then mkBaseP row else mkBaseD row)
            buckets (pyStrip row.event_id)).lookup eid = some b0 := by rw [hupd]; exact hb
        have hsame : (bucketUpdate (pyLower (pyStrip row.evidence_tier))
            (if pyLower (pyStrip row.evidence_tier) = "parallel" then mkBaseP row else mkBaseD row)
            buckets (pyStrip row.event_id)) =
            (if pyLower (pyStrip row.evidence_tier) = "parallel" then
              bucketUpdate (pyLower (pyStrip row.evidence_tier)) (mkBaseP row) buckets
                (pyStrip row.event_id)
            else
              bucketUpdate (pyLower (pyStrip row.evidence_tier)) (mkBaseD row) buckets
                (pyStrip row.event_id)) := by
          by_cases htier : pyLower (pyStrip row.evidence_tier) = "parallel"
          · rw [if_pos htier, if_pos htier]
          · rw [if_neg htier, if_neg htier]
        have hd : directFor (row :: rest) eid = directFor rest eid := by
          simp [directFor, List.filter, heq]
        have hp : parallelFor (row :: rest) eid = parallelFor rest eid := by
          simp [parallelFor, List.filter, heq]
        rw [hd, hp]
        by_cases htier : pyLower (pyStrip row.evidence_tier) = "parallel"
        · rw [if_pos htier] at h
          rw [hsame, if_pos htier] at hb2
          exact ih _ _ _ h eid b0 hb2
        · rw [if_neg htier] at h
          rw [hsame, if_neg htier] at hb2
          exact ih _ _ _ h eid b0 hb2

theorem normalizeEvidence_eq_of_loop (rows : List EvidenceCsvRow) (eventIds : List String)
    (pr0 : List (String × EvBucket) × List String)
    (hloop : normalizeEvidenceLoop rows (initBuckets eventIds) [] = .ok pr0) :
    normalizeEvidence rows eventIds =
      (if pr0.2.length ≠ 1 then .error "translation label not unique"
       else
        match pr0.1.find? (fun p => p.2.direct.isEmpty) with
        | some p => .error ("missing direct evidence: " ++ p.1)
        | none => .ok (pr0.1, pr0.2.headD "",
            (pr0.1.map (fun p => p.2.direct.length + p.2.parallel.length)).sum)) := by
  unfold normalizeEvidence
  rw [hloop]

theorem normalizeEvidence_ok_parts (rows : List EvidenceCsvRow) (eventIds : List String)
    (pr : List (String × EvBucket) × String × Nat)
    (h : normalizeEvidence rows eventIds = .ok pr) :
    ∃ trs, normalizeEvidenceLoop rows (initBuckets eventIds) [] = .ok (pr.1, trs) ∧
      pr.1.find? (fun p => p.2.direct.isEmpty) = none := by
  cases hloop : normalizeEvidenceLoop rows (initBuckets eventIds) [] with
  | error e =>
    rw [normalizeEvidence, hloop] at h
    cases h
  | ok pr0 =>
    rcases pr0 with ⟨bks, trs⟩
    rw [normalizeEvidence_eq_of_loop rows eventIds (bks, trs) hloop] at h
    split at h
    · cases h
    · cases hfind : (bks, trs).1.find? (fun p => p.2.direct.isEmpty) with
      | some p => rw [hfind] at h; cases h
      | none =>
        rw [hfind] at h
        cases h
        exact ⟨trs, rfl, hfind⟩

theorem normalizeEvidence_ok_lookup (rows : List EvidenceCsvRow) (eventIds : List String)
    (pr : List (String × EvBucket) × String × Nat)
    (h : normalizeEvidence rows eventIds = .ok pr) :
    ∀ eid ∈ eventIds, pr.1.lookup eid = some
      { direct := (directFor rows eid).map mkBaseD,
        parallel := (parallelFor rows eid).map mkBaseP } := by
  intro eid hid
  rcases normalizeEvidence_ok_parts rows eventIds pr h with ⟨trs, hloop, -⟩
  have := normalizeEvidenceLoop_ok_lookup rows _ _ _ hloop eid _
    (initBuckets_lookup eventIds eid hid)
  simpa using this

theorem normalizeEvidence_ok_direct_nonempty (rows : List EvidenceCsvRow)
    (eventIds : List String) (pr : List (String × EvBucket) × String × Nat)
    (h : normalizeEvidence rows eventIds = .ok pr) (eid : String) (hid : eid ∈ eventIds) :
    directFor rows eid ≠ [] := by
  have hlook := normalizeEvidence_ok_lookup rows eventIds pr h eid hid
  rcases normalizeEvidence_ok_parts rows eventIds pr h with ⟨trs, -, hfind⟩
  have hmem := lookup_mem_of_eq_some pr.1 eid _ hlook
  have hne := List.find?_eq_none.mp hfind _ hmem
  intro hcon
  apply hne
  simp [hcon]

/-- C10: normalize_evidence classifies a row as parallel exactly when its
stripped, lowercased tier equals "parallel"; every other tier value,
including unrecognized ones such as a misspelled "dirct", lands in the
direct bucket (directFor keeps precisely the rows whose normalized tier is
anything other than "parallel"), so an event whose only rows carry an
unknown tier still satisfies the at-least-one-direct-evidence check. -/
theorem normalize_evidence_tier_classification (rows : List EvidenceCsvRow)
    (eventIds : List String) (pr : List (String × EvBucket) × String × Nat)
    (h : normalizeEvidence rows eventIds = .ok pr) (eid : String) (hid : eid ∈ eventIds) :
    pr.1.lookup eid = some
      { direct := (directFor rows eid).map mkBaseD,
        parallel := (parallelFor rows eid).map mkBaseP } :=
  normalizeEvidence_ok_lookup rows eventIds pr h eid hid

/-- Witness for C10: the misspelled tier is accepted, counted as direct
evidence, and the event passes the direct-evidence check. -/
theorem normalize_evidence_tier_classification_witness :
    ∃ pr, normalizeEvidence c10rows ["E1"] = .ok pr ∧
      pr.1.lookup "E1" =
        some { direct := (directFor c10rows "E1").map mkBaseD,
               parallel := (parallelFor c10rows "E1").map mkBaseP } ∧
      (directFor c10rows "E1").length = 1 ∧ parallelFor c10rows "E1" = [] := by
  refine ⟨_, rfl, ?_, by decide, by decide⟩
  exact normalize_evidence_tier_classification c10rows ["E1"] _ rfl "E1" (by decide)

/-! ### Membership lemmas for the extraction pipeline (C5, C6, C7) -/

theorem getD_mem : ∀ (l : List α) (i : Nat), i < l.length → ∀ d : α, l.getD i d ∈ l := by
  intro l
  induction l with
  | nil => intro i h d; simp at h
  | cons a as ih =>
    intro i h d
    cases i with
    | zero => simp [List.getD]
    | succ n =>
      have hn : n < as.length := by simpa using h
      simp only [List.getD, List.get?]
      exact List.mem_cons_of_mem _ (ih n hn d)

theorem buildCandidatesBook_slice_ne_nil (book : String) (verses : List Verse) :
    ∀ c ∈ buildCandidatesBook book verses, c.verse_slice ≠ [] := by
  intro c hc
  unfold buildCandidatesBook at hc
  rcases List.mem_filterMap.mp hc with ⟨i, -, hf⟩
  unfold candidateAt at hf
  split at hf
  · cases hf
  · rename_i sv tail heq
    cases hf
    intro hcon
    dsimp only at hcon
    cases hcon

theorem foldl_append_if_mem (P : β → Prop) [DecidablePred P] (g : β → List α) :
    ∀ (l : List β) (acc : List α) (x : α),
      x ∈ l.foldl (fun acc p => if P p then acc ++ g p else acc) acc →
      x ∈ acc ∨ ∃ p ∈ l, P p ∧ x ∈ g p := by
  intro l
  induction l with
  | nil => intro acc x h; exact Or.inl h
  | cons p rest ih =>
    intro acc x h
    simp only [List.foldl_cons] at h
    rcases ih _ x h with h2 | ⟨q, hq, hPq, hx⟩
    · by_cases hP : P p
      · rw [if_pos hP] at h2
        rcases List.mem_append.mp h2 with h3 | h3
        · exact Or.inl h3
        · exact Or.inr ⟨p, by simp, hP, h3⟩
      · rw [if_neg hP] at h2
        exact Or.inl h2
    · exact Or.inr ⟨q, List.mem_cons_of_mem _ hq, hPq, hx⟩

theorem build_candidate_events_mem (byBook : List (String × List Verse)) :
    ∀ c ∈ build_candidate_events byBook,
      ∃ p ∈ byBook, p.1 ∈ NARRATIVE_BOOKS ∧ c ∈ buildCandidatesBook p.1 p.2 := by
  intro c hc
  unfold build_candidate_events at hc
  rw [sortKeep_mem] at hc
  rcases foldl_append_if_mem (fun p => p.1 ∈ NARRATIVE_BOOKS)
      (fun p => buildCandidatesBook p.1 p.2) byBook [] c hc with h | ⟨p, hp, hn, hx⟩
  · cases h
  · exact ⟨p, hp, hn, hx⟩

theorem build_candidate_events_slice_ne_nil (byBook : List (String × List Verse)) :
    ∀ c ∈ build_candidate_events byBook, c.verse_slice ≠ [] := by
  intro c hc
  rcases build_candidate_events_mem byBook c hc with ⟨p, -, -, hx⟩
  exact buildCandidatesBook_slice_ne_nil p.1 p.2 c hx

theorem dedupPhase_mem :
    ∀ (l : List CandidateEvent) (st : List CandidateEvent × List (String × String))
      (x : CandidateEvent), x ∈ (dedupPhase l st).1 → x ∈ st.1 ∨ x ∈ l := by
  intro l
  induction l with
  | nil => intro st x h; exact Or.inl h
  | cons item rest ih =>
    intro st x h
    rcases st with ⟨unique, seen⟩
    simp only [dedupPhase] at h
    split at h
    · rcases ih _ x h with h2 | h2
      · exact Or.inl h2
      · exact Or.inr (List.mem_cons_of_mem _ h2)
    · rcases ih _ x h with h2 | h2
      · rcases List.mem_append.mp h2 with h3 | h3
        · exact Or.inl h3
        · simp only [List.mem_singleton] at h3
          exact Or.inr (by simp [h3])
      · exact Or.inr (List.mem_cons_of_mem _ h2)

theorem fillPass_mem (quota : Nat) :
    ∀ (l : List CandidateEvent) (st : List CandidateEvent × List (String × String))
      (x : CandidateEvent), x ∈ (fillPass quota l st).1 → x ∈ st.1 ∨ x ∈ l := by
  intro l
  induction l with
  | nil => intro st x h; exact Or.inl h
  | cons item rest ih =>
    intro st x h
    rcases st with ⟨unique, seen⟩
    simp only [fillPass] at h
    split at h
    · rcases ih _ x h with h2 | h2
      · exact Or.inl h2
      · exact Or.inr (List.mem_cons_of_mem _ h2)
    · split at h
      · rcases List.mem_append.mp h with h3 | h3
        · exact Or.inl h3
        · simp only [List.mem_singleton] at h3
          exact Or.inr (by simp [h3])
      · rcases ih _ x h with h2 | h2
        · rcases List.mem_append.mp h2 with h3 | h3
          · exact Or.inl h3
          · simp only [List.mem_singleton] at h3
            exact Or.inr (by simp [h3])
        · exact Or.inr (List.mem_cons_of_mem _ h2)

theorem fillWhile_mem (quota : Nat) (items : List CandidateEvent) :
    ∀ (fuel : Nat) (st : List CandidateEvent × List (String × String))
      (u : List CandidateEvent), fillWhile quota items fuel st = some u →
      ∀ x ∈ u, x ∈ st.1 ∨ x ∈ items := by
  intro fuel
  induction fuel with
  | zero => intro st u h; cases h
  | succ n ih =>
    intro st u h x hx
    simp only [fillWhile] at h
    split at h
    · rcases ih _ u h x hx with h2 | h2
      · rcases fillPass_mem quota items st x h2 with h3 | h3
        · exact Or.inl h3
        · exact Or.inr h3
      · exact Or.inr h2
    · cases h
      exact Or.inl hx

theorem pick_evenly_mem (items : List CandidateEvent) (quota : Nat)
    (r : List CandidateEvent) (h : pick_evenly items quota = some r) :
    ∀ x ∈ r, x ∈ items := by
  intro x hx
  unfold pick_evenly at h
  split at h
  · cases h; exact hx
  · split at h
    · cases h; cases hx
    · rename_i hlen hq0
      split at h
      · rename_i hq1
        cases h
        simp only [List.mem_singleton] at hx
        subst hx
        refine getD_mem items (items.length / 2) ?_ defaultCand
        exact Nat.div_lt_self (by omega) (by omega)
      · rcases Option.map_eq_some'.mp h with ⟨u, hu, hr⟩
        subst hr
        rw [sortKeep_mem] at hx
        rcases fillWhile_mem quota items _ _ u hu x hx with h2 | h2
        · rcases dedupPhase_mem _ _ x h2 with h3 | h3
          · cases h3
          · unfold strideSelected at h3
            rcases List.mem_map.mp h3 with ⟨i, hi, hxi⟩
            subst hxi
            have hin : i < quota := List.mem_range.mp hi
            have hq : 0 < quota := by omega
            have hn : quota < items.length := by omega
            have hn0 : 0 < items.length := by omega
            have hstart : i * items.length / quota < items.length := by
              refine (Nat.div_lt_iff_lt_mul hq).mpr ?_
              rw [Nat.mul_comm items.length quota]
              exact (Nat.mul_lt_mul_right hn0).mpr hin
            have he : (i + 1) * items.length / quota ≤ items.length := by
              have h1 : (i + 1) * items.length ≤ quota * items.length :=
                Nat.mul_le_mul_right items.length (by omega)
              have h2 : (i + 1) * items.length / quota ≤ quota * items.length / quota :=
                Nat.div_le_div_right h1
              rwa [Nat.mul_div_cancel_left items.length hq] at h2
            refine getD_mem items _ ?_ defaultCand
            generalize hsv : i * items.length / quota = s at hstart
            generalize hev : (i + 1) * items.length / quota = e at he
            have hm1 : s ≤ max s (e - 1) := le_max_left _ _
            have hm2 : max s (e - 1) < items.length := max_lt hstart (by omega)
            generalize hmv : max s (e - 1) = m at hm1 hm2
            omega
        · exact h2

theorem pickAll_mem (f : String → Option (List CandidateEvent)) :
    ∀ (books : List String) (ls : List (List CandidateEvent)),
      pickAll f books = some ls → ∀ l ∈ ls, ∃ b ∈ books, f b = some l := by
  intro books
  induction books with
  | nil =>
    intro ls h l hl
    simp only [pickAll] at h
    cases h
    cases hl
  | cons b bs ih =>
    intro ls h l hl
    simp only [pickAll] at h
    cases hfb : f b with
    | none => rw [hfb] at h; cases h
    | some l0 =>
      rw [hfb] at h
      cases hrest : pickAll f bs with
      | none => rw [hrest] at h; cases h
      | some ls0 =>
        rw [hrest] at h
        cases h
        rcases List.mem_cons.mp hl with h1 | h1
        · subst h1; exact ⟨b, by simp, hfb⟩
        · rcases ih ls0 hrest l h1 with ⟨b1, hb1, hfb1⟩
          exact ⟨b1, List.mem_cons_of_mem _ hb1, hfb1⟩

theorem selectedCandidates_mem (canonicalMap : String → Nat)
    (candidates : List CandidateEvent) (sel : List CandidateEvent)
    (h : selectedCandidates canonicalMap candidates = some sel) :
    ∀ x ∈ sel, x ∈ candidates := by
  intro x hx
  unfold selectedCandidates at h
  rcases Option.map_eq_some'.mp h with ⟨ls, hls, hsel⟩
  subst hsel
  rw [sortKeep_mem] at hx
  rcases List.mem_flatten.mp hx with ⟨l, hl, hxl⟩
  rcases pickAll_mem _ _ ls hls l hl with ⟨b, -, hfb⟩
  have := pick_evenly_mem _ _ _ hfb x hxl
  exact List.mem_filter.mp this |>.1

theorem mem_enumFrom_snd : ∀ (l : List α) (n : Nat) (p : Nat × α),
    p ∈ l.enumFrom n → p.2 ∈ l := by
  intro l
  induction l with
  | nil => intro n p h; cases h
  | cons a as ih =>
    intro n p h
    rcases List.mem_cons.mp h with h1 | h1
    · subst h1; simp
    · exact List.mem_cons_of_mem _ (ih (n + 1) p h1)

theorem eventObjects_mem (canonicalMap : String → Nat)
    (candidates : List CandidateEvent) (objs : List (Nat × CandidateEvent))
    (h : eventObjects canonicalMap candidates = some objs) :
    ∀ obj ∈ objs, obj.2 ∈ candidates := by
  intro obj hobj
  unfold eventObjects at h
  rcases Option.map_eq_some'.mp h with ⟨sel, hsel, hobjs⟩
  subst hobjs
  rcases List.mem_map.mp hobj with ⟨p, hp, hpe⟩
  have hps : p.2 ∈ sel := mem_enumFrom_snd sel 0 p hp
  have : obj.2 = p.2 := by rw [← hpe]
  rw [this]
  exact selectedCandidates_mem canonicalMap candidates sel hsel p.2 hps

theorem buildDirectRows_acc_mono (step : Nat × List ResearchEvidenceRow →
      Nat × CandidateEvent → Nat × List ResearchEvidenceRow)
    (hstep : ∀ st obj, ∃ rows, step st obj = (st.1 + rows.length, st.2 ++ rows)) :
    ∀ (objs : List (Nat × CandidateEvent)) (st : Nat × List ResearchEvidenceRow)
      (x : ResearchEvidenceRow), x ∈ st.2 → x ∈ (objs.foldl step st).2 := by
  intro objs
  induction objs with
  | nil => intro st x h; exact h
  | cons obj rest ih =>
    intro st x h
    rcases hstep st obj with ⟨rows, hrows⟩
    simp only [List.foldl_cons, hrows]
    exact ih _ x (List.mem_append.mpr (Or.inl h))

theorem buildDirectRows_exists_aux :
    ∀ (objs : List (Nat × CandidateEvent)) (st : Nat × List ResearchEvidenceRow)
      (obj : Nat × CandidateEvent), obj ∈ objs → obj.2.verse_slice ≠ [] →
      ∃ row ∈ (objs.foldl (fun st obj =>
          let rows := directRowsForEvent obj.1 obj.2 st.1
          (st.1 + rows.length, st.2 ++ rows)) st).2,
        row.event_id = obj.1 ∧ row.evidence_tier = "direct" := by
  intro objs
  induction objs with
  | nil => intro st obj h; cases h
  | cons o rest ih =>
    intro st obj hobj hne
    rcases List.mem_cons.mp hobj with h1 | h1
    · subst h1
      cases hsl : obj.2.verse_slice with
      | nil => exact absurd hsl hne
      | cons v vs =>
        have hmem0 : ∃ row ∈ directRowsForEvent obj.1 obj.2 st.1,
            row.event_id = obj.1 ∧ row.evidence_tier = "direct" := by
          unfold directRowsForEvent
          rw [hsl]
          exact ⟨_, List.mem_map.mpr ⟨(0, v), by simp [List.enum], rfl⟩, rfl, rfl⟩
        rcases hmem0 with ⟨row, hrowmem, hprops⟩
        refine ⟨row, ?_, hprops⟩
        simp only [List.foldl_cons]
        exact buildDirectRows_acc_mono _ (fun st obj => ⟨_, rfl⟩) rest _ row
          (List.mem_append.mpr (Or.inr hrowmem))
    · simp only [List.foldl_cons]
      exact ih _ obj h1 hne

/-- C7: normalization rejects a missing direct row (for any evidence table
and event-id set, an event id with zero direct-classified rows makes
normalize_evidence fail), and every event emitted by the research
extraction pipeline carries at least one direct evidence row. -/
theorem direct_evidence_required_and_provided :
    (∀ (rows : List EvidenceCsvRow) (eventIds : List String) (eid : String),
      eid ∈ eventIds → directFor rows eid = [] →
      ∀ pr, normalizeEvidence rows eventIds ≠ .ok pr) ∧
    (∀ (byBook : List (String × List Verse)) (canonicalMap : String → Nat)
        (objs : List (Nat × CandidateEvent)),
      eventObjects canonicalMap (build_candidate_events byBook) = some objs →
      ∀ obj ∈ objs, ∃ row ∈ buildDirectRows objs,
        row.event_id = obj.1 ∧ row.evidence_tier = "direct") := by
  constructor
  · intro rows eventIds eid hid hdir pr hok
    exact normalizeEvidence_ok_direct_nonempty rows eventIds pr hok eid hid hdir
  · intro byBook canonicalMap objs hobjs obj hobj
    have hslice : obj.2.verse_slice ≠ [] :=
      build_candidate_events_slice_ne_nil byBook obj.2
        (eventObjects_mem canonicalMap _ objs hobjs obj hobj)
    exact buildDirectRows_exists_aux objs (1, []) obj hobj hslice

/-- Witness for C7: an evidence table with no direct row for E1 makes
normalization fail, and the pipeline on the concrete one-book corpus emits
events all backed by a direct row. -/
theorem direct_evidence_required_and_provided_witness :
    (∃ e, normalizeEvidence [] ["E1"] = .error e) ∧
    (∃ objs, eventObjects (fun _ => 1) (build_candidate_events [("창세기", c7verses)]) =
        some objs ∧ objs ≠ [] ∧
      ∀ obj ∈ objs, ∃ row ∈ buildDirectRows objs,
        row.event_id = obj.1 ∧ row.evidence_tier = "direct") := by
  constructor
  · cases h : normalizeEvidence [] ["E1"] with
    | error e => exact ⟨e, rfl⟩
    | ok pr =>
      exact absurd h
        (direct_evidence_required_and_provided.1 [] ["E1"] "E1" (by decide) (by decide) pr)
  · refine ⟨_, rfl, by decide, ?_⟩
    exact direct_evidence_required_and_provided.2 [("창세기", c7verses)] (fun _ => 1) _ rfl

/-! ### Lemmas about the candidate extractor (C5) -/

theorem getD_eq_get : ∀ (l : List α) (i : Nat) (h : i < l.length) (d : α),
    l.getD i d = l.get ⟨i, h⟩ := by
  intro l
  induction l with
  | nil => intro i h d; simp at h
  | cons a as ih =>
    intro i h d
    cases i with
    | zero => simp [List.getD]
    | succ n =>
      have hn : n < as.length := by simpa using h
      show as.getD n d = as.get ⟨n, hn⟩
      exact ih n hn d

theorem headingPositions_aux (g : Nat × Verse → Option (Nat × String × String))
    (hg : ∀ p q, g p = some q → q.1 = p.1) :
    ∀ (l : List Verse) (n : Nat),
      List.Pairwise (fun a b => a.1 < b.1) ((l.enumFrom n).filterMap g) ∧
      ∀ p ∈ (l.enumFrom n).filterMap g, n ≤ p.1 ∧ p.1 < n + l.length := by
  intro l
  induction l with
  | nil => intro n; simp
  | cons v rest ih =>
    intro n
    rcases ih (n + 1) with ⟨ihp, ihb⟩
    simp only [List.enumFrom, List.filterMap_cons]
    cases hm : g (n, v) with
    | none =>
      refine ⟨ihp, ?_⟩
      intro p hp
      rcases ihb p hp with ⟨h1, h2⟩
      constructor
      · omega
      · simpa [Nat.add_comm, Nat.add_left_comm, Nat.add_assoc] using by omega
    | some q =>
      have hq1 : q.1 = n := hg (n, v) q hm
      constructor
      · refine List.pairwise_cons.mpr ⟨?_, ihp⟩
        intro p hp
        have := (ihb p hp).1
        omega
      · intro p hp
        rcases List.mem_cons.mp hp with h1 | h1
        · subst h1
          constructor
          · omega
          · simp only [List.length_cons]
            omega
        · rcases ihb p h1 with ⟨h1a, h1b⟩
          constructor
          · omega
          · simp only [List.length_cons]
            omega

theorem headingPositions_pairwise (verses : List Verse) :
    List.Pairwise (fun a b => a.1 < b.1) (headingPositions verses) ∧
    ∀ p ∈ headingPositions verses, p.1 < verses.length := by
  have := headingPositions_aux
    (fun p => (headingMatch p.2.text).map (fun m => (p.1, normalizeText m.1, normalizeText m.2)))
    (by
      intro p q hq
      rcases Option.map_eq_some'.mp hq with ⟨m, -, hm⟩
      rw [← hm])
    verses 0
  refine ⟨this.1, fun p hp => ?_⟩
  have := (this.2 p hp).2
  simpa using this

theorem headingPositions_getD_lt (verses : List Verse) (i j : Nat) (hij : i < j)
    (hj : j < (headingPositions verses).length) :
    ((headingPositions verses).getD i (0, "", "")).1 <
      ((headingPositions verses).getD j (0, "", "")).1 := by
  have hi : i < (headingPositions verses).length := by omega
  rw [getD_eq_get _ i hi, getD_eq_get _ j hj]
  have hp := (headingPositions_pairwise verses).1
  rw [List.pairwise_iff_get] at hp
  exact hp ⟨i, hi⟩ ⟨j, hj⟩ hij

theorem headingPositions_getD_lt_length (verses : List Verse) (i : Nat)
    (hi : i < (headingPositions verses).length) :
    ((headingPositions verses).getD i (0, "", "")).1 < verses.length := by
  rw [getD_eq_get _ i hi]
  exact (headingPositions_pairwise verses).2 _ (List.get_mem _ _ _)

theorem eventSlice_ne_nil (verses : List Verse) (i : Nat)
    (hi : i < (headingPositions verses).length) : eventSlice verses i ≠ [] := by
  intro hcon
  have hlen := congrArg List.length hcon
  rw [eventSlice] at hlen
  simp only [List.length_take, List.length_drop, List.length_nil] at hlen
  have hstart := headingPositions_getD_lt_length verses i hi
  by_cases hnext : i + 1 < (headingPositions verses).length
  · rw [if_pos hnext] at hlen
    have hmono := headingPositions_getD_lt verses i (i + 1) (by omega) hnext
    omega
  · rw [if_neg hnext] at hlen
    omega

theorem filterMap_range_get (f : Nat → Option α) :
    ∀ n : Nat, (∀ i, i < n → (f i).isSome) →
      ((List.range n).filterMap f).length = n ∧
      ∀ i, i < n → ((List.range n).filterMap f).get? i = f i := by
  intro n
  induction n with
  | zero => intro h; simp
  | succ m ih =>
    intro hall
    rcases ih (fun i hi => hall i (by omega)) with ⟨ihl, ihg⟩
    cases hfm : f m with
    | none =>
      have := hall m (by omega)
      rw [hfm] at this
      cases this
    | some v =>
      rw [List.range_succ, List.filterMap_append]
      constructor
      · rw [List.length_append, ihl]
        simp [List.filterMap_cons, hfm]
      · intro i hi
        by_cases him : i < m
        · rw [List.get?_append (by rw [ihl]; exact him)]
          exact ihg i him
        · have hieq : i = m := by omega
          subst hieq
          rw [List.get?_append_right (by rw [ihl])]
          rw [ihl]
          simp [List.filterMap_cons, hfm]

/-- C5: in a narrative book, every verse whose text begins with a heading
marker starts exactly one candidate event (the candidate list has one entry
per heading position, in order) and the i-th candidate's verse span is
eventSlice verses i: from the heading's verse up to the verse before the
next heading, or the end of the book for the last heading. -/
theorem candidate_events_span (book : String) (verses : List Verse) :
    (buildCandidatesBook book verses).length = (headingPositions verses).length ∧
    ∀ i, i < (headingPositions verses).length →
      ∃ c, (buildCandidatesBook book verses).get? i = some c ∧
        c.verse_slice = eventSlice verses i ∧
        c.title = ((headingPositions verses).getD i (0, "", "")).2.1 := by
  have hsome : ∀ i, i < (headingPositions verses).length →
      (candidateAt book verses i).isSome := by
    intro i hi
    unfold candidateAt
    cases hsl : eventSlice verses i with
    | nil => exact absurd hsl (eventSlice_ne_nil verses i hi)
    | cons sv tail => simp only [hsl]; rfl
  have hmain := filterMap_range_get (candidateAt book verses)
    (headingPositions verses).length hsome
  constructor
  · exact hmain.1
  · intro i hi
    have hg := hmain.2 i hi
    cases hsl : eventSlice verses i with
    | nil => exact absurd hsl (eventSlice_ne_nil verses i hi)
    | cons sv tail =>
      cases hc : candidateAt book verses i with
      | none =>
        have := hsome i hi
        rw [hc] at this
        cases this
      | some c =>
        refine ⟨c, hg.trans hc, ?_, ?_⟩
        · simp only [candidateAt, hsl] at hc
          cases hc
          rfl
        · simp only [candidateAt, hsl] at hc
          cases hc
          rfl

/-- Witness for C5: the concrete 10-verse book with headings on verses 1
and 6 yields exactly 2 candidates, spanning verses 1-5 and 6-10. -/
theorem candidate_events_span_witness :
    (buildCandidatesBook "창세기" c7verses).length = 2 ∧
    (∃ c, (buildCandidatesBook "창세기" c7verses).get? 0 = some c ∧
      c.verse_slice = eventSlice c7verses 0 ∧ eventSlice c7verses 0 = c7verses.take 5) ∧
    (∃ c, (buildCandidatesBook "창세기" c7verses).get? 1 = some c ∧
      c.verse_slice = eventSlice c7verses 1 ∧ eventSlice c7verses 1 = c7verses.drop 5) := by
  have h := candidate_events_span "창세기" c7verses
  refine ⟨by rw [h.1]; decide, ?_, ?_⟩
  · rcases h.2 0 (by decide) with ⟨c, hc, hs, -⟩
    exact ⟨c, hc, hs, by decide⟩
  · rcases h.2 1 (by decide) with ⟨c, hc, hs, -⟩
    exact ⟨c, hc, hs, by decide⟩

/-! ### Lemmas about pick_evenly (C6) -/

theorem length_filter_add (p : α → Prop) [DecidablePred p] :
    ∀ l : List α, (l.filter (fun x => p x)).length +
      (l.filter (fun x => ¬ p x)).length = l.length := by
  intro l
  induction l with
  | nil => simp
  | cons a as ih =>
    simp only [List.filter_cons]
    by_cases hp : p a
    · rw [if_pos (by simp [hp]), if_neg (by simp [hp])]
      simp only [List.length_cons]
      omega
    · rw [if_neg (by simp [hp]), if_pos (by simp [hp])]
      simp only [List.length_cons]
      omega

theorem filter_mem_le (f : CandidateEvent → String × String) (l : List CandidateEvent)
    (s : List (String × String)) (hnd : (l.map f).Nodup) :
    (l.filter (fun x => f x ∈ s)).length ≤ s.length := by
  have hsub : ((l.filter (fun x => f x ∈ s)).map f).Nodup :=
    hnd.sublist (List.Sublist.map f (List.filter_sublist l))
  have hmem : ∀ y ∈ (l.filter (fun x => f x ∈ s)).map f, y ∈ s := by
    intro y hy
    rcases List.mem_map.mp hy with ⟨x, hx, hxy⟩
    rcases List.mem_filter.mp hx with ⟨-, hpx⟩
    rw [← hxy]
    simpa using hpx
  calc (l.filter (fun x => f x ∈ s)).length
      = ((l.filter (fun x => f x ∈ s)).map f).length := (List.length_map _ _).symm
    _ = ((l.filter (fun x => f x ∈ s)).map f).toFinset.card :=
        (List.toFinset_card_of_nodup hsub).symm
    _ ≤ s.toFinset.card := by
        apply Finset.card_le_card
        intro y hy
        exact List.mem_toFinset.mpr (hmem y (List.mem_toFinset.mp hy))
    _ ≤ s.length := s.toFinset_card_le

theorem dedupPhase_seen :
    ∀ (l : List CandidateEvent) (u : List CandidateEvent) (s : List (String × String)),
      s = u.map eventKey →
      (dedupPhase l (u, s)).2 = (dedupPhase l (u, s)).1.map eventKey := by
  intro l
  induction l with
  | nil => intro u s h; exact h
  | cons item rest ih =>
    intro u s h
    simp only [dedupPhase]
    split
    · exact ih u s h
    · exact ih _ _ (by simp [h])

theorem dedupPhase_len :
    ∀ (l : List CandidateEvent) (u : List CandidateEvent) (s : List (String × String)),
      (dedupPhase l (u, s)).1.length ≤ u.length + l.length := by
  intro l
  induction l with
  | nil => intro u s; simp [dedupPhase]
  | cons item rest ih =>
    intro u s
    simp only [dedupPhase]
    split
    · have := ih u s
      simp only [List.length_cons]
      omega
    · have := ih (u ++ [item]) (s ++ [eventKey item])
      simp only [List.length_append, List.length_cons, List.length_nil] at *
      omega

theorem fillPass_reaches (quota : Nat) :
    ∀ (l : List CandidateEvent) (u : List CandidateEvent) (s : List (String × String)),
      (l.map eventKey).Nodup → u.length < quota →
      quota ≤ u.length + (l.filter (fun x => eventKey x ∉ s)).length →
      (fillPass quota l (u, s)).1.length = quota := by
  intro l
  induction l with
  | nil =>
    intro u s _ h1 h2
    simp only [List.filter_nil, List.length_nil] at h2
    omega
  | cons item rest ih =>
    intro u s hnd h1 h2
    rw [List.map_cons, List.nodup_cons] at hnd
    simp only [fillPass]
    split
    · rename_i hseen
      refine ih u s hnd.2 h1 ?_
      simp only [List.filter_cons] at h2
      rw [if_neg (by simpa using hseen)] at h2
      exact h2
    · rename_i hunseen
      split
      · rename_i hq
        simpa using hq
      · rename_i hq
        simp only [List.length_append, List.length_cons, List.length_nil] at hq
        have hlt : (u ++ [item]).length < quota := by
          simp only [List.length_append, List.length_cons, List.length_nil]
          omega
        refine ih (u ++ [item]) (s ++ [eventKey item]) hnd.2 hlt ?_
        have hfeq : rest.filter (fun x => eventKey x ∉ s ++ [eventKey item]) =
            rest.filter (fun x => eventKey x ∉ s) := by
          apply List.filter_congr
          intro x hx
          have hne : eventKey x ≠ eventKey item := by
            intro hc
            exact hnd.1 (List.mem_map.mpr ⟨x, hx, hc⟩)
          rw [decide_eq_decide]
          simp [List.mem_append, hne]
        simp only [List.filter_cons] at h2
        rw [if_pos (by simpa using hunseen)] at h2
        simp only [List.length_cons] at h2
        simp only [List.length_append, List.length_cons, List.length_nil, hfeq]
        omega

/-- Counterexample to C6 as stated: on a 3-candidate list whose entries all
share one (book, start_ref) key, with quota 2 (so 0 < quota < n), the
source's fill loop finds no unseen key after deduplication leaves a single
pick, and its while-loop spins forever, so pick_evenly does not return
exactly quota candidates (the embedding returns none exactly in that
diverging case). -/
theorem pick_evenly_counterexample :
    0 < 2 ∧ 2 < c6dupItems.length ∧ pick_evenly c6dupItems 2 = none := by decide

/-- C6 (amended): for every candidate list whose (book, start ref) keys are
pairwise distinct (the hypothesis the counterexample forces: duplicate keys
make the source loop forever) and every quota with 0 < quota < n,
pick_evenly returns exactly quota candidates, each taken from the list: it
picks the midpoint of each of quota equal-width ranges, dedups by key, and
fills the shortfall from the list in original order. -/
theorem pick_evenly_returns_quota (items : List CandidateEvent) (quota : Nat)
    (hnd : (items.map eventKey).Nodup) (h0 : 0 < quota) (hlt : quota < items.length) :
    ∃ r, pick_evenly items quota = some r ∧ r.length = quota ∧ ∀ x ∈ r, x ∈ items := by
  suffices h : ∃ r, pick_evenly items quota = some r ∧ r.length = quota by
    rcases h with ⟨r, hr, hl⟩
    exact ⟨r, hr, hl, pick_evenly_mem items quota r hr⟩
  unfold pick_evenly
  rw [if_neg (by omega), if_neg (by omega)]
  by_cases hq1 : quota = 1
  · subst hq1
    rw [if_pos rfl]
    exact ⟨_, rfl, by simp⟩
  · rw [if_neg hq1]
    have hsel_len : (strideSelected items quota).length = quota := by
      simp [strideSelected]
    have hst_le : (dedupPhase (strideSelected items quota) ([], [])).1.length ≤ quota := by
      have := dedupPhase_len (strideSelected items quota) [] []
      simpa [hsel_len] using this
    have hseen : (dedupPhase (strideSelected items quota) ([], [])).2 =
        (dedupPhase (strideSelected items quota) ([], [])).1.map eventKey :=
      dedupPhase_seen (strideSelected items quota) [] [] (by simp)
    rcases Nat.lt_or_ge (dedupPhase (strideSelected items quota) ([], [])).1.length quota
      with hcase | hcase
    · have havail : quota ≤ (dedupPhase (strideSelected items quota) ([], [])).1.length +
          (items.filter (fun x =>
            eventKey x ∉ (dedupPhase (strideSelected items quota) ([], [])).2)).length := by
        have hcnt := filter_mem_le eventKey items
          (dedupPhase (strideSelected items quota) ([], [])).2 hnd
        have hpart := length_filter_add
          (fun x => eventKey x ∈ (dedupPhase (strideSelected items quota) ([], [])).2) items
        have hslen : (dedupPhase (strideSelected items quota) ([], [])).2.length =
            (dedupPhase (strideSelected items quota) ([], [])).1.length := by
          rw [hseen, List.length_map]
        omega
      have hreach : (fillPass quota items
          (dedupPhase (strideSelected items quota) ([], []))).1.length = quota :=
        fillPass_reaches quota items
          (dedupPhase (strideSelected items quota) ([], [])).1
          (dedupPhase (strideSelected items quota) ([], [])).2 hnd hcase havail
      have hwhile : fillWhile quota items (items.length + 2)
          (dedupPhase (strideSelected items quota) ([], [])) =
          some (fillPass quota items (dedupPhase (strideSelected items quota) ([], []))).1 := by
        show (if (dedupPhase (strideSelected items quota) ([], [])).1.length < quota then
            fillWhile quota items (items.length + 1)
              (fillPass quota items (dedupPhase (strideSelected items quota) ([], [])))
          else some (dedupPhase (strideSelected items quota) ([], [])).1) = _
        rw [if_pos hcase]
        show (if (fillPass quota items
            (dedupPhase (strideSelected items quota) ([], []))).1.length < quota then
            fillWhile quota items items.length
              (fillPass quota items (fillPass quota items
                (dedupPhase (strideSelected items quota) ([], []))))
          else some (fillPass quota items
            (dedupPhase (strideSelected items quota) ([], []))).1) = _
        rw [if_neg (by omega)]
      refine ⟨sortKeep (fun y x => candidateKeyLe y x)
        (fillPass quota items (dedupPhase (strideSelected items quota) ([], []))).1, ?_, ?_⟩
      · rw [hwhile]
        rfl
      · rw [sortKeep_length]
        exact hreach
    · have heq : (dedupPhase (strideSelected items quota) ([], [])).1.length = quota := by omega
      have hwhile : fillWhile quota items (items.length + 2)
          (dedupPhase (strideSelected items quota) ([], [])) =
          some (dedupPhase (strideSelected items quota) ([], [])).1 := by
        show (if (dedupPhase (strideSelected items quota) ([], [])).1.length < quota then
            fillWhile quota items (items.length + 1)
              (fillPass quota items (dedupPhase (strideSelected items quota) ([], [])))
          else some (dedupPhase (strideSelected items quota) ([], [])).1) = _
        rw [if_neg (by omega)]
      refine ⟨sortKeep (fun y x => candidateKeyLe y x)
        (dedupPhase (strideSelected items quota) ([], [])).1, ?_, ?_⟩
      · rw [hwhile]
        rfl
      · rw [sortKeep_length]
        exact heq

/-- Witness for C6 (amended): on five candidates with distinct keys and
quota 2, pick_evenly returns exactly 2 of them. -/
theorem pick_evenly_returns_quota_witness :
    ∃ r, pick_evenly c6Items 2 = some r ∧ r.length = 2 ∧ ∀ x ∈ r, x ∈ c6Items :=
  pick_evenly_returns_quota c6Items 2 (by decide) (by decide) (by decide)

/-! ### Lemmas about the parallel matcher (C4) -/

theorem updateBest_mem_or :
    ∀ (m : List (String × ℚ × EventsCsvRow)) (b : String) (s : ℚ) (src : EventsCsvRow)
      (q : String × ℚ × EventsCsvRow),
      q ∈ updateBest m b s src → q ∈ m ∨ q = (b, s, src) := by
  intro m
  induction m with
  | nil =>
    intro b s src q hq
    simp only [updateBest, List.mem_singleton] at hq
    exact Or.inr hq
  | cons e rest ih =>
    intro b s src q hq
    rcases e with ⟨k, p⟩
    simp only [updateBest] at hq
    split at hq
    · rename_i hk
      subst hk
      rcases List.mem_cons.mp hq with h1 | h1
      · split at h1
        · exact Or.inr (by rw [h1])
        · exact Or.inl (by rw [h1]; simp)
      · exact Or.inl (List.mem_cons_of_mem _ h1)
    · rcases List.mem_cons.mp hq with h1 | h1
      · exact Or.inl (by rw [h1]; simp)
      · rcases ih b s src q h1 with h2 | h2
        · exact Or.inl (List.mem_cons_of_mem _ h2)
        · exact Or.inr h2

theorem updateBest_keys :
    ∀ (m : List (String × ℚ × EventsCsvRow)) (b : String) (s : ℚ) (src : EventsCsvRow),
      (updateBest m b s src).map Prod.fst =
        (if b ∈ m.map Prod.fst then m.map Prod.fst else m.map Prod.fst ++ [b]) := by
  intro m
  induction m with
  | nil => intro b s src; simp [updateBest]
  | cons e rest ih =>
    intro b s src
    rcases e with ⟨k, p⟩
    simp only [updateBest]
    split
    · rename_i hk
      subst hk
      simp
    · rename_i hk
      have hbk : ¬ b = k := fun hc => hk hc.symm
      simp only [List.map_cons, List.mem_cons, hbk, false_or]
      rw [ih b s src]
      split
      · rfl
      · rfl

theorem updateBest_keys_nodup (m : List (String × ℚ × EventsCsvRow)) (b : String) (s : ℚ)
    (src : EventsCsvRow) (hnd : (m.map Prod.fst).Nodup) :
    ((updateBest m b s src).map Prod.fst).Nodup := by
  rw [updateBest_keys]
  split
  · exact hnd
  · rename_i hmem
    simp [List.nodup_append, hnd, hmem]

theorem updateBest_entry_ge :
    ∀ (m : List (String × ℚ × EventsCsvRow)) (b : String) (s : ℚ) (src : EventsCsvRow)
      (q : String × ℚ × EventsCsvRow), q ∈ m →
      ∃ q2 ∈ updateBest m b s src, q2.1 = q.1 ∧ q.2.1 ≤ q2.2.1 := by
  intro m
  induction m with
  | nil => intro b s src q hq; cases hq
  | cons e rest ih =>
    intro b s src q hq
    rcases e with ⟨k, p⟩
    simp only [updateBest]
    split
    · rename_i hk
      rcases List.mem_cons.mp hq with h1 | h1
      · subst h1
        refine ⟨(k, if s > p.1 then (s, src) else p), by simp, rfl, ?_⟩
        split
        · rename_i hgt
          exact le_of_lt hgt
        · exact le_refl _
      · exact ⟨q, List.mem_cons_of_mem _ h1, rfl, le_refl _⟩
    · rcases List.mem_cons.mp hq with h1 | h1
      · subst h1
        exact ⟨(k, p), by simp, rfl, le_refl _⟩
      · rcases ih b s src q h1 with ⟨q2, hq2, hk2, hle⟩
        exact ⟨q2, List.mem_cons_of_mem _ hq2, hk2, hle⟩

theorem updateBest_self :
    ∀ (m : List (String × ℚ × EventsCsvRow)) (b : String) (s : ℚ) (src : EventsCsvRow),
      ∃ q ∈ updateBest m b s src, q.1 = b ∧ s ≤ q.2.1 := by
  intro m
  induction m with
  | nil => intro b s src; exact ⟨(b, s, src), by simp [updateBest], rfl, le_refl _⟩
  | cons e rest ih =>
    intro b s src
    rcases e with ⟨k, p⟩
    simp only [updateBest]
    split
    · rename_i hk
      subst hk
      refine ⟨(k, if s > p.1 then (s, src) else p), by simp, rfl, ?_⟩
      split
      · exact le_refl _
      · rename_i hng
        simp only [gt_iff_lt, not_lt] at hng
        exact hng
    · rcases ih b s src with ⟨q, hq, hqb, hqs⟩
      exact ⟨q, List.mem_cons_of_mem _ hq, hqb, hqs⟩

theorem mem_same_key_eq :
    ∀ (m : List (String × ℚ × EventsCsvRow)), (m.map Prod.fst).Nodup →
      ∀ p ∈ m, ∀ q ∈ m, p.1 = q.1 → p = q := by
  intro m
  induction m with
  | nil => intro _ p hp; cases hp
  | cons e rest ih =>
    intro hnd p hp q hq hpq
    rw [List.map_cons, List.nodup_cons] at hnd
    rcases List.mem_cons.mp hp with h1 | h1 <;> rcases List.mem_cons.mp hq with h2 | h2
    · rw [h1, h2]
    · exfalso
      apply hnd.1
      rw [h1] at hpq
      exact List.mem_map.mpr ⟨q, h2, hpq.symm⟩
    · exfalso
      apply hnd.1
      rw [h2] at hpq
      exact List.mem_map.mpr ⟨p, h1, hpq⟩
    · exact ih hnd.2 p h1 q h2 hpq

theorem bestByBook_foldl_inv (target : EventsCsvRow) :
    ∀ (l processed : List EventsCsvRow) (m : List (String × ℚ × EventsCsvRow)),
      bestInv target processed m →
      bestInv target (processed ++ l)
        (l.foldl (fun m source =>
          if source.event_id = target.event_id then m
          else if source.book = target.book then m
          else
            let s := score target.event_title source.event_title
            if s < 35/100 then m
            else updateBest m source.book s source) m) := by
  intro l
  induction l with
  | nil => intro processed m h; simpa using h
  | cons source rest ih =>
    intro processed m h
    rcases h with ⟨hnd, hq, hcov⟩
    have hstep : bestInv target (processed ++ [source])
        (if source.event_id = target.event_id then m
         else if source.book = target.book then m
         else
          if score target.event_title source.event_title < 35/100 then m
          else updateBest m source.book (score target.event_title source.event_title) source) := by
      by_cases h1 : source.event_id = target.event_id
      · rw [if_pos h1]
        refine ⟨hnd, fun p hp => ?_, fun e2 he2 hid hbk hsc => ?_⟩
        · rcases hq p hp with ⟨ha, hb, hc, hd, he, hf⟩
          exact ⟨List.mem_append.mpr (Or.inl ha), hb, hc, hd, he, hf⟩
        · rcases List.mem_append.mp he2 with h2 | h2
          · exact hcov e2 h2 hid hbk hsc
          · simp only [List.mem_singleton] at h2
            subst h2
            exact absurd h1 hid
      · rw [if_neg h1]
        by_cases h2 : source.book = target.book
        · rw [if_pos h2]
          refine ⟨hnd, fun p hp => ?_, fun e2 he2 hid hbk hsc => ?_⟩
          · rcases hq p hp with ⟨ha, hb, hc, hd, he, hf⟩
            exact ⟨List.mem_append.mpr (Or.inl ha), hb, hc, hd, he, hf⟩
          · rcases List.mem_append.mp he2 with h3 | h3
            · exact hcov e2 h3 hid hbk hsc
            · simp only [List.mem_singleton] at h3
              subst h3
              exact absurd h2 hbk
        · rw [if_neg h2]
          by_cases h3 : score target.event_title source.event_title < 35/100
          · rw [if_pos h3]
            refine ⟨hnd, fun p hp => ?_, fun e2 he2 hid hbk hsc => ?_⟩
            · rcases hq p hp with ⟨ha, hb, hc, hd, he, hf⟩
              exact ⟨List.mem_append.mpr (Or.inl ha), hb, hc, hd, he, hf⟩
            · rcases List.mem_append.mp he2 with h4 | h4
              · exact hcov e2 h4 hid hbk hsc
              · simp only [List.mem_singleton] at h4
                subst h4
                exact absurd h3 hsc
          · rw [if_neg h3]
            refine ⟨updateBest_keys_nodup m _ _ _ hnd, fun p hp => ?_, ?_⟩
            · rcases updateBest_mem_or m _ _ _ p hp with h4 | h4
              · rcases hq p h4 with ⟨ha, hb, hc, hd, he, hf⟩
                exact ⟨List.mem_append.mpr (Or.inl ha), hb, hc, hd, he, hf⟩
              · subst h4
                exact ⟨List.mem_append.mpr (Or.inr (by simp)), h1, h2, rfl, rfl, h3⟩
            · intro e2 he2 hid hbk hsc
              rcases List.mem_append.mp he2 with h4 | h4
              · rcases hcov e2 h4 hid hbk hsc with ⟨p, hp, hpk, hple⟩
                rcases updateBest_entry_ge m source.book _ source p hp with ⟨q2, hq2, hk2, hle2⟩
                exact ⟨q2, hq2, by rw [hk2, hpk], le_trans hple hle2⟩
              · simp only [List.mem_singleton] at h4
                subst h4
                rcases updateBest_self m e2.book (score target.event_title e2.event_title) e2
                  with ⟨q, hqm, hqb, hqs⟩
                exact ⟨q, hqm, hqb.symm ▸ rfl, hqs⟩
    have := ih (processed ++ [source]) _ hstep
    simpa [List.append_assoc] using this

theorem bestByBook_inv (gospel : List EventsCsvRow) (target : EventsCsvRow) :
    bestInv target gospel (bestByBook gospel target) := by
  have h := bestByBook_foldl_inv target gospel [] []
    ⟨by simp, by simp, by simp⟩
  simpa [bestByBook] using h

/-- C4: for every events table and target, each kept match of the fuzzy
matcher comes from a different gospel book than the target, is never the
target itself, scores at least 0.35 under the token-set Jaccard score, is
the highest-scoring candidate of its source book, at most 3 matches are
kept, and each kept match appends at most 8 rows, all copied from the
source event's direct rows, tagged is_parallel "true" with the note built
from the source event id and the score. -/
theorem parallel_matcher_properties (events : List EventsCsvRow) (target : EventsCsvRow) :
    (matchesFor (gospelEvents events) target).length ≤ 3 ∧
    ∀ m ∈ matchesFor (gospelEvents events) target,
      m.2.book ≠ target.book ∧ m.2.event_id ≠ target.event_id ∧ m.2 ∈ gospelEvents events ∧
      ¬ m.1 < 35/100 ∧ m.1 = score target.event_title m.2.event_title ∧
      (∀ src ∈ gospelEvents events, src.event_id ≠ target.event_id → src.book = m.2.book →
        score target.event_title src.event_title ≤ m.1) ∧
      ∀ (evidence : List EnrichRow) (maxId : Nat),
        (rowsForMatch evidence target maxId m).length ≤ 8 ∧
        ∀ row ∈ rowsForMatch evidence target maxId m,
          row.event_id = target.event_id ∧ row.is_parallel = "true" ∧
          row.note = mkNote m.2.event_id m.1 ∧ row.evidence_tier = "parallel" ∧
          ∃ src ∈ directRowsOf evidence m.2.event_id,
            row.reference = src.reference ∧ row.verse_text_kr = src.verse_text_kr := by
  constructor
  · exact le_trans (List.length_take_le 3 _) (le_refl 3)
  · intro m hm
    rcases bestByBook_inv (gospelEvents events) target with ⟨hnd, hq, hcov⟩
    have hm2 : m ∈ (bestByBook (gospelEvents events) target).map (fun p => p.2) := by
      have := List.mem_of_mem_take hm
      rwa [sortKeep_mem] at this
    rcases List.mem_map.mp hm2 with ⟨p, hp, hpm⟩
    rcases hq p hp with ⟨ha, hb, hc, hd, he, hf⟩
    subst hpm
    refine ⟨hc, hb, ha, hf, he, ?_, ?_⟩
    · intro src hsrc hsid hsbk
      by_cases hsc : score target.event_title src.event_title < 35/100
      · calc score target.event_title src.event_title
            ≤ 35/100 := le_of_lt hsc
          _ ≤ p.2.1 := not_lt.mp hf
      · have hsbk2 : src.book ≠ target.book := by rw [hsbk]; exact hc
        rcases hcov src hsrc hsid hsbk2 hsc with ⟨q, hqm, hqk, hqle⟩
        have hpq : p = q := mem_same_key_eq _ hnd p hp q hqm (by rw [hqk, hsbk, hd])
        rw [hpq]
        exact hqle
    · intro evidence maxId
      constructor
      · simp only [rowsForMatch]
        split
        · simp
        · rw [List.length_map, List.enum_length]
          exact le_trans (List.length_take_le 8 _) (le_refl 8)
      · intro row hrow
        simp only [rowsForMatch] at hrow
        split at hrow
        · cases hrow
        · rcases List.mem_map.mp hrow with ⟨q, hq2, hqrow⟩
          subst hqrow
          refine ⟨rfl, rfl, rfl, rfl, q.2, ?_, rfl, rfl⟩
          exact List.take_subset 8 _ (mem_enumFrom_snd _ 0 q hq2)

/-- Witness for C4: on the concrete gospel table, exactly one match is
kept (scoring pair of retellings), and the theorem's properties hold of
it. -/
theorem parallel_matcher_properties_witness :
    (matchesFor (gospelEvents c4events) c4target).length ≤ 3 ∧
    matchesFor (gospelEvents c4events) c4target ≠ [] ∧
    ∀ m ∈ matchesFor (gospelEvents c4events) c4target,
      m.2.book ≠ c4target.book ∧ ¬ m.1 < 35/100 := by
  have h := parallel_matcher_properties c4events c4target
  refine ⟨h.1, ?_, fun m hm => ⟨(h.2 m hm).1, (h.2 m hm).2.2.2.1⟩⟩
  rcases bestByBook_inv (gospelEvents c4events) c4target with ⟨-, -, hcov⟩
  have hscore : ¬ score c4target.event_title c4src1.event_title < 35/100 := by
    have hs1 : score c4target.event_title c4src1.event_title = 1/2 := by
      show score "seed parable lake" "seed parable shore" = 1/2
      simp only [score]
      rw [if_neg (by decide), if_neg (by decide)]
      rw [show (tokens "seed parable lake" ∩ tokens "seed parable shore").card = 2 from by decide]
      rw [show (tokens "seed parable lake" ∪ tokens "seed parable shore").card = 4 from by decide]
      norm_num
    rw [hs1]
    norm_num
  rcases hcov c4src1 (by decide) (by decide) (by decide) hscore with ⟨p, hp, -, -⟩
  intro hcon
  have hlen := congrArg List.length hcon
  unfold matchesFor at hlen
  rw [List.length_take, sortKeep_length, List.length_map] at hlen
  simp only [List.length_nil] at hlen
  have hz : (bestByBook (gospelEvents c4events) c4target).length = 0 := by omega
  rw [List.length_eq_zero] at hz
  rw [hz] at hp
  cases hp

/-! #### C3: idempotence of the parallel matcher -/

theorem rowsForMatch_nil_indep (ev : List EnrichRow) (t : EventsCsvRow)
    (m : ℚ × EventsCsvRow) (k k' : Nat) (h : rowsForMatch ev t k m = []) :
    rowsForMatch ev t k' m = [] := by
  simp only [rowsForMatch] at h ⊢
  by_cases hk : existingParallelKey ev t.event_id (mkNote m.2.event_id m.1) = true
  · rw [if_pos hk]
  · rw [if_neg hk] at h ⊢
    rcases List.map_eq_nil.mp h with henum
    rw [henum]
    rfl

theorem mkNote_ne_empty (sid : String) (s : ℚ) : mkNote sid s ≠ "" := by
  intro h
  have hl := congrArg String.length h
  simp only [mkNote, String.length_append] at hl
  have h14 : String.length "parallel_from:" = 14 := rfl
  have h7 : String.length ";score=" = 7 := rfl
  have h0 : String.length "" = 0 := rfl
  rw [h14, h7, h0] at hl
  omega

theorem existingParallelKey_iff (l : List EnrichRow) (eid note : String) :
    existingParallelKey l eid note = true ↔
    ∃ r ∈ l, r.evidence_tier = "parallel" ∧ r.note ≠ "" ∧
      r.event_id = eid ∧ r.note = note := by
  simp [existingParallelKey, List.any_eq_true]

theorem goPairs_append (ev : List EnrichRow) :
    ∀ (l1 l2 : List (EventsCsvRow × ℚ × EventsCsvRow)) (k : Nat),
    goPairs ev (l1 ++ l2) k =
      goPairs ev l1 k ++ goPairs ev l2 (k + (goPairs ev l1 k).length) := by
  intro l1
  induction l1 with
  | nil =>
    intro l2 k
    simp [goPairs]
  | cons p rest ih =>
    intro l2 k
    obtain ⟨t, m⟩ := p
    simp only [List.cons_append, goPairs, List.append_eq]
    rw [ih, List.append_assoc, List.length_append, Nat.add_assoc]

theorem enrichInner (ev : List EnrichRow) (t : EventsCsvRow) :
    ∀ (ms : List (ℚ × EventsCsvRow)) (st : Nat × List EnrichRow),
    ms.foldl (fun st m =>
      (st.1 + (rowsForMatch ev t st.1 m).length, st.2 ++ rowsForMatch ev t st.1 m)) st =
    (st.1 + (goPairs ev (ms.map (fun m => (t, m))) st.1).length,
     st.2 ++ goPairs ev (ms.map (fun m => (t, m))) st.1) := by
  intro ms
  induction ms with
  | nil =>
    intro st
    simp [goPairs]
  | cons m ms ih =>
    intro st
    simp only [List.foldl_cons, List.map_cons, goPairs]
    rw [ih]
    simp only [Prod.mk.injEq, List.length_append, List.append_assoc]
    refine ⟨by omega, ?_⟩
    trivial

theorem enrichOuter (ev : List EnrichRow) (gospel : List EventsCsvRow) :
    ∀ (ts : List EventsCsvRow) (st : Nat × List EnrichRow),
    ts.foldl (fun st target =>
      (matchesFor gospel target).foldl (fun st m =>
        (st.1 + (rowsForMatch ev target st.1 m).length,
         st.2 ++ rowsForMatch ev target st.1 m)) st) st =
    (st.1 + (goPairs ev ((ts.map (fun t =>
        (matchesFor gospel t).map (fun m => (t, m)))).flatten) st.1).length,
     st.2 ++ goPairs ev ((ts.map (fun t =>
        (matchesFor gospel t).map (fun m => (t, m)))).flatten) st.1) := by
  intro ts
  induction ts with
  | nil =>
    intro st
    simp [goPairs]
  | cons t ts ih =>
    intro st
    simp only [List.foldl_cons, List.map_cons, List.flatten_cons]
    rw [enrichInner, ih, goPairs_append]
    simp only [Prod.mk.injEq, List.length_append, List.append_assoc]
    refine ⟨by omega, ?_⟩
    trivial

theorem enrichAdditions_eq_goPairs (events : List EventsCsvRow) (ev : List EnrichRow) :
    enrichAdditions events ev = goPairs ev (matchPairs events) (maxIdOf ev) := by
  simp only [enrichAdditions, matchPairs]
  rw [enrichOuter]
  exact rfl

theorem goPairs_tier (ev : List EnrichRow) :
    ∀ (pairs : List (EventsCsvRow × ℚ × EventsCsvRow)) (k : Nat) (r : EnrichRow),
    r ∈ goPairs ev pairs k → r.evidence_tier = "parallel" := by
  intro pairs
  induction pairs with
  | nil =>
    intro k r h
    simp [goPairs] at h
  | cons p rest ih =>
    intro k r h
    obtain ⟨t, m⟩ := p
    simp only [goPairs, List.mem_append] at h
    rcases h with h | h
    · simp only [rowsForMatch] at h
      split at h
      · exact absurd h (List.not_mem_nil r)
      · rcases List.mem_map.mp h with ⟨q, hq, hqr⟩
        subst hqr
        rfl
    · exact ih _ _ h

theorem goPairs_contains (ev : List EnrichRow) :
    ∀ (pairs : List (EventsCsvRow × ℚ × EventsCsvRow)) (k : Nat)
      (p : EventsCsvRow × ℚ × EventsCsvRow), p ∈ pairs →
      rowsForMatch ev p.1 0 p.2 ≠ [] →
      ∃ r ∈ goPairs ev pairs k, r.event_id = p.1.event_id ∧
        r.evidence_tier = "parallel" ∧ r.note = mkNote p.2.2.event_id p.2.1 := by
  intro pairs
  induction pairs with
  | nil =>
    intro k p hp
    exact absurd hp (List.not_mem_nil p)
  | cons q rest ih =>
    intro k p hp hne
    obtain ⟨t, m⟩ := q
    simp only [goPairs]
    rcases List.mem_cons.mp hp with rfl | hp'
    · have hne' : rowsForMatch ev t k m ≠ [] := fun h =>
        hne (rowsForMatch_nil_indep ev t m k 0 h)
      obtain ⟨r, hr⟩ := List.exists_mem_of_ne_nil _ hne'
      refine ⟨r, List.mem_append_left _ hr, ?_⟩
      simp only [rowsForMatch] at hr
      split at hr
      · exact absurd hr (List.not_mem_nil r)
      · rcases List.mem_map.mp hr with ⟨q, hq, hqr⟩
        subst hqr
        exact ⟨rfl, rfl, rfl⟩
    · obtain ⟨r, hr, hf⟩ := ih (k + (rowsForMatch ev t k m).length) p hp' hne
      exact ⟨r, List.mem_append_right _ hr, hf⟩

theorem goPairs_nil_of_all_nil (ev : List EnrichRow) :
    ∀ (pairs : List (EventsCsvRow × ℚ × EventsCsvRow)) (k : Nat),
    (∀ p ∈ pairs, rowsForMatch ev p.1 0 p.2 = []) → goPairs ev pairs k = [] := by
  intro pairs
  induction pairs with
  | nil =>
    intro k _
    rfl
  | cons q rest ih =>
    intro k h
    obtain ⟨t, m⟩ := q
    simp only [goPairs]
    rw [rowsForMatch_nil_indep ev t m 0 k (h (t, m) (List.mem_cons_self _ _))]
    simp only [List.nil_append, List.length_nil, Nat.add_zero]
    exact ih k (fun p hp => h p (List.mem_cons_of_mem _ hp))

theorem runMatcher_perm (events : List EventsCsvRow) (ev : List EnrichRow) :
    (runMatcher events ev).Perm (ev ++ enrichAdditions events ev) := by
  simp only [runMatcher]
  split
  · rename_i h
    rw [h, List.append_nil]
  · exact sortKeep_perm _ _

theorem directRowsOf_perm {l l' : List EnrichRow} (h : l.Perm l') (eid : String) :
    (directRowsOf l eid).Perm (directRowsOf l' eid) := by
  unfold directRowsOf
  exact h.filter _

theorem directRowsOf_append (l1 l2 : List EnrichRow) (eid : String) :
    directRowsOf (l1 ++ l2) eid = directRowsOf l1 eid ++ directRowsOf l2 eid := by
  simp [directRowsOf]

/-- C3: running the fuzzy parallel matcher a second time on the evidence
set produced by its first run appends zero rows: for every (target, match)
pair it re-derives, either the (target event id, note) key is already
present among the parallel rows of the enriched set and the pair is
skipped, or the match's source already had no direct rows and contributes
nothing. -/
theorem matcher_idempotent (events : List EventsCsvRow) (evidence : List EnrichRow) :
    enrichAdditions events (runMatcher events evidence) = [] := by
  rw [enrichAdditions_eq_goPairs]
  apply goPairs_nil_of_all_nil
  intro p hp
  have hperm := runMatcher_perm events evidence
  by_cases hkey : existingParallelKey (runMatcher events evidence) p.1.event_id
      (mkNote p.2.2.event_id p.2.1) = true
  · simp only [rowsForMatch]
    rw [if_pos hkey]
  · have hkey1 : ¬ existingParallelKey evidence p.1.event_id
        (mkNote p.2.2.event_id p.2.1) = true := by
      intro h1
      apply hkey
      rw [existingParallelKey_iff] at h1 ⊢
      obtain ⟨r, hr, hprops⟩ := h1
      exact ⟨r, (hperm.mem_iff).mpr (List.mem_append_left _ hr), hprops⟩
    by_cases hdir : directRowsOf evidence p.2.2.event_id = []
    · have hadds : directRowsOf (enrichAdditions events evidence) p.2.2.event_id = [] := by
        unfold directRowsOf
        rw [List.filter_eq_nil]
        intro r hr
        have htier : r.evidence_tier = "parallel" := by
          rw [enrichAdditions_eq_goPairs] at hr
          exact goPairs_tier evidence _ _ r hr
        simp [htier]
      have h1 : directRowsOf (evidence ++ enrichAdditions events evidence)
          p.2.2.event_id = [] := by
        rw [directRowsOf_append, hdir, hadds]
        rfl
      have h2 := directRowsOf_perm hperm p.2.2.event_id
      rw [h1] at h2
      have hd2 := h2.eq_nil
      simp only [rowsForMatch]
      rw [if_neg hkey, hd2]
      rfl
    · exfalso
      apply hkey
      have hne : rowsForMatch evidence p.1 0 p.2 ≠ [] := by
        simp only [rowsForMatch]
        rw [if_neg hkey1]
        obtain ⟨a, as, hcons⟩ := List.exists_cons_of_ne_nil hdir
        rw [hcons]
        simp [List.take_succ_cons]
      obtain ⟨r, hr, hid, htier, hnote⟩ :=
        goPairs_contains evidence (matchPairs events) (maxIdOf evidence) p hp hne
      rw [existingParallelKey_iff]
      refine ⟨r, ?_, htier, ?_, hid, hnote⟩
      · apply (hperm.mem_iff).mpr
        apply List.mem_append_right
        rw [enrichAdditions_eq_goPairs]
        exact hr
      · rw [hnote]
        exact mkNote_ne_empty _ _

/-! #### C1: the quota allocator -/

theorem nodup_lookup :
    ∀ (l : List (String × Nat)), (l.map (fun p => p.1)).Nodup →
      ∀ p ∈ l, l.lookup p.1 = some p.2 := by
  intro l
  induction l with
  | nil =>
    intro _ p hp
    exact absurd hp (List.not_mem_nil p)
  | cons q rest ih =>
    intro hnd p hp
    rcases q with ⟨k, v⟩
    simp only [List.map_cons, List.nodup_cons] at hnd
    rcases List.mem_cons.mp hp with rfl | hp'
    · simp [List.lookup]
    · have hne : p.1 ≠ k := by
        intro h
        exact hnd.1 (h ▸ List.mem_map_of_mem (fun p => p.1) hp')
      simp only [List.lookup, beq_eq_false_iff_ne.mpr hne]
      exact ih hnd.2 p hp'

theorem cntOf_eq (counts : List (String × Nat))
    (hnd : (counts.map (fun p => p.1)).Nodup) (p : String × Nat) (hp : p ∈ counts) :
    cntOf counts p.1 = p.2 := by
  simp [cntOf, nodup_lookup counts hnd p hp]

theorem div_add_div_le (a b d : Nat) : a / d + b / d ≤ (a + b) / d := by
  rcases Nat.eq_zero_or_pos d with rfl | hd
  · simp
  · rw [Nat.le_div_iff_mul_le hd, Nat.add_mul]
    exact Nat.add_le_add (Nat.div_mul_le_self a d) (Nat.div_mul_le_self b d)

theorem sum_div_le (l : List Nat) (d : Nat) : (l.map (fun x => x / d)).sum ≤ l.sum / d := by
  induction l with
  | nil => simp
  | cons a rest ih =>
    simp only [List.map_cons, List.sum_cons]
    calc a / d + (rest.map (fun x => x / d)).sum ≤ a / d + rest.sum / d :=
          Nat.add_le_add_left ih _
      _ ≤ (a + rest.sum) / d := div_add_div_le a rest.sum d

theorem sum_map_add (l : List α) (f g : α → Nat) :
    (l.map (fun x => f x + g x)).sum = (l.map f).sum + (l.map g).sum := by
  induction l with
  | nil => rfl
  | cons a rest ih =>
    simp only [List.map_cons, List.sum_cons, ih]
    omega

theorem sum_map_le (l : List α) (f g : α → Nat) (h : ∀ x ∈ l, f x ≤ g x) :
    (l.map f).sum ≤ (l.map g).sum := by
  induction l with
  | nil => exact Nat.le_refl 0
  | cons a rest ih =>
    simp only [List.map_cons, List.sum_cons]
    exact Nat.add_le_add (h a (List.mem_cons_self _ _))
      (ih (fun x hx => h x (List.mem_cons_of_mem _ hx)))

theorem sum_map_sub (l : List α) (f g : α → Nat) (h : ∀ x ∈ l, g x ≤ f x) :
    (l.map (fun x => f x - g x)).sum = (l.map f).sum - (l.map g).sum := by
  induction l with
  | nil => rfl
  | cons a rest ih =>
    simp only [List.map_cons, List.sum_cons]
    rw [ih (fun x hx => h x (List.mem_cons_of_mem _ hx))]
    have h1 := h a (List.mem_cons_self _ _)
    have h2 := sum_map_le rest g f (fun x hx => h x (List.mem_cons_of_mem _ hx))
    omega

theorem sum_filter_vanish (l : List α) (p : α → Bool) (f : α → Nat)
    (h : ∀ x ∈ l, p x = false → f x = 0) :
    ((l.filter p).map f).sum = (l.map f).sum := by
  induction l with
  | nil => rfl
  | cons a rest ih =>
    have ih' := ih (fun x hx => h x (List.mem_cons_of_mem _ hx))
    cases hpa : p a with
    | true =>
      rw [List.filter_cons, if_pos hpa]
      simp only [List.map_cons, List.sum_cons, ih']
    | false =>
      rw [List.filter_cons, if_neg (by simp [hpa])]
      simp only [List.map_cons, List.sum_cons, ih', h a (List.mem_cons_self _ _) hpa]
      omega

theorem sum_pos_mem (l : List α) (f : α → Nat) (h : 0 < (l.map f).sum) :
    ∃ x ∈ l, 0 < f x := by
  induction l with
  | nil => simp at h
  | cons a rest ih =>
    simp only [List.map_cons, List.sum_cons] at h
    rcases Nat.eq_zero_or_pos (f a) with hfa | hfa
    · rw [hfa, Nat.zero_add] at h
      obtain ⟨x, hx, hfx⟩ := ih h
      exact ⟨x, List.mem_cons_of_mem _ hx, hfx⟩
    · exact ⟨a, List.mem_cons_self _ _, hfa⟩

theorem mem_le_sum (l : List α) (f : α → Nat) (x : α) (hx : x ∈ l) :
    f x ≤ (l.map f).sum := by
  induction l with
  | nil => exact absurd hx (List.not_mem_nil x)
  | cons a rest ih =>
    simp only [List.map_cons, List.sum_cons]
    rcases List.mem_cons.mp hx with rfl | hx'
    · exact Nat.le_add_right _ _
    · exact Nat.le_trans (ih hx') (Nat.le_add_left _ _)

theorem sum_update_fun :
    ∀ (l : List String), l.Nodup → ∀ b ∈ l, ∀ (q r : String → Nat),
      (∀ x, x ≠ b → r x = q x) →
      (l.map r).sum + q b = (l.map q).sum + r b := by
  intro l
  induction l with
  | nil =>
    intro _ b hb
    exact absurd hb (List.not_mem_nil b)
  | cons a rest ih =>
    intro hnd b hb q r hoff
    simp only [List.nodup_cons] at hnd
    simp only [List.map_cons, List.sum_cons]
    rcases List.mem_cons.mp hb with rfl | hb'
    · have hrest : rest.map r = rest.map q := by
        apply List.map_congr_left
        intro x hx
        exact hoff x (fun h => hnd.1 (h ▸ hx))
      rw [hrest]
      omega
    · have hab : a ≠ b := fun h => hnd.1 (h ▸ hb')
      rw [hoff a hab]
      have := ih hnd.2 b hb' q r hoff
      omega

theorem sum_incr (l : List String) (hl : l.Nodup) (b : String) (hb : b ∈ l)
    (q : String → Nat) :
    (l.map (fun z => if z = b then q b + 1 else q z)).sum = (l.map q).sum + 1 := by
  induction l with
  | nil => exact absurd hb (List.not_mem_nil b)
  | cons a rest ih =>
    simp only [List.nodup_cons] at hl
    simp only [List.map_cons, List.sum_cons]
    rcases List.mem_cons.mp hb with rfl | hb'
    · rw [if_pos rfl]
      have hrest : rest.map (fun z => if z = b then q b + 1 else q z) = rest.map q := by
        apply List.map_congr_left
        intro z hz
        rw [if_neg (fun (h : z = b) => hl.1 (h ▸ hz))]
      rw [hrest]
      omega
    · have hab : a ≠ b := fun h => hl.1 (h ▸ hb')
      rw [if_neg hab, ih hl.2 hb']
      omega

theorem sum_sub_incr (l : List String) (hl : l.Nodup) (b : String) (hb : b ∈ l)
    (f q : String → Nat) (hg : q b < f b) :
    (l.map (fun x => f x - if x = b then q b + 1 else q x)).sum + 1 =
      (l.map (fun x => f x - q x)).sum := by
  induction l with
  | nil => exact absurd hb (List.not_mem_nil b)
  | cons a rest ih =>
    simp only [List.nodup_cons] at hl
    simp only [List.map_cons, List.sum_cons]
    rcases List.mem_cons.mp hb with rfl | hb'
    · rw [if_pos rfl]
      have hrest : rest.map (fun x => f x - if x = b then q b + 1 else q x) =
          rest.map (fun x => f x - q x) := by
        apply List.map_congr_left
        intro z hz
        rw [if_neg (fun (h : z = b) => hl.1 (h ▸ hz))]
      rw [hrest]
      omega
    · have hab : a ≠ b := fun h => hl.1 (h ▸ hb')
      rw [if_neg hab]
      have := ih hl.2 hb'
      omega

theorem sum_decr (l : List String) (hl : l.Nodup) (b : String) (hb : b ∈ l)
    (q : String → Nat) (h1 : 1 ≤ q b) :
    (l.map (fun z => if z = b then q b - 1 else q z)).sum + 1 = (l.map q).sum := by
  induction l with
  | nil => exact absurd hb (List.not_mem_nil b)
  | cons a rest ih =>
    simp only [List.nodup_cons] at hl
    simp only [List.map_cons, List.sum_cons]
    rcases List.mem_cons.mp hb with rfl | hb'
    · rw [if_pos rfl]
      have hrest : rest.map (fun z => if z = b then q b - 1 else q z) = rest.map q := by
        apply List.map_congr_left
        intro z hz
        rw [if_neg (fun (h : z = b) => hl.1 (h ▸ hz))]
      rw [hrest]
      omega
    · have hab : a ≠ b := fun h => hl.1 (h ▸ hb')
      rw [if_neg hab]
      have := ih hl.2 hb'
      omega

theorem sum_mass_decr (l : List String) (hl : l.Nodup) (b : String) (hb : b ∈ l)
    (q : String → Nat) (h2 : 2 ≤ q b) :
    (l.map (fun x => (if x = b then q b - 1 else q x) - 1)).sum + 1 =
      (l.map (fun x => q x - 1)).sum := by
  induction l with
  | nil => exact absurd hb (List.not_mem_nil b)
  | cons a rest ih =>
    simp only [List.nodup_cons] at hl
    simp only [List.map_cons, List.sum_cons]
    rcases List.mem_cons.mp hb with rfl | hb'
    · rw [if_pos rfl]
      have hrest : rest.map (fun x => (if x = b then q b - 1 else q x) - 1) =
          rest.map (fun x => q x - 1) := by
        apply List.map_congr_left
        intro z hz
        rw [if_neg (fun (h : z = b) => hl.1 (h ▸ hz))]
      rw [hrest]
      omega
    · have hab : a ≠ b := fun h => hl.1 (h ▸ hb')
      rw [if_neg hab]
      have := ih hl.2 hb'
      omega

theorem mod_offset (len idx i : Nat) (hlen : 0 < len) (hi : i < len) :
    ∃ j, j < len ∧ (idx + j) % len = i := by
  have ha : idx % len < len := Nat.mod_lt _ hlen
  by_cases hc : idx % len ≤ i
  · refine ⟨i - idx % len, by omega, ?_⟩
    rw [Nat.add_mod, Nat.mod_eq_of_lt (by omega : i - idx % len < len)]
    have h1 : idx % len + (i - idx % len) = i := by omega
    rw [h1, Nat.mod_eq_of_lt hi]
  · refine ⟨i + len - idx % len, by omega, ?_⟩
    rw [Nat.add_mod, Nat.mod_eq_of_lt (by omega : i + len - idx % len < len)]
    have h1 : idx % len + (i + len - idx % len) = i + len := by omega
    rw [h1, Nat.add_mod_right, Nat.mod_eq_of_lt hi]

theorem upLoop_done (counts : List (String × Nat)) (e : List String)
    (bound target fuel idx : Nat) (q : String → Nat) (current : Nat)
    (h : ¬ current < target) :
    upLoop counts e bound target fuel idx q current = (q, current) := by
  cases fuel with
  | zero => rfl
  | succ fuel =>
    simp only [upLoop]
    rw [if_neg (fun hc => h hc.1)]

theorem upLoop_cap (counts : List (String × Nat)) (e : List String)
    (bound target : Nat) :
    ∀ (fuel idx : Nat) (q : String → Nat) (current : Nat),
      (∀ x, q x ≤ cntOf counts x) →
      ∀ x, (upLoop counts e bound target fuel idx q current).1 x ≤ cntOf counts x := by
  intro fuel
  induction fuel with
  | zero =>
    intro idx q current hq x
    exact hq x
  | succ fuel ih =>
    intro idx q current hq x
    simp only [upLoop]
    by_cases hc : current < target ∧ e ≠ []
    · rw [if_pos hc]
      set b := e.getD (idx % e.length) "" with hbdef
      by_cases hg : q b < cntOf counts b
      · simp only [if_pos hg]
        have hq1 : ∀ y, (fun z => if z = b then q b + 1 else q z) y ≤ cntOf counts y := by
          intro y
          by_cases hy : y = b
          · simp only [if_pos hy]
            rw [hy]
            omega
          · simp only [if_neg hy]
            exact hq y
        by_cases hbr : idx + 1 > bound
        · rw [if_pos hbr]
          exact hq1 x
        · rw [if_neg hbr]
          exact ih _ _ _ hq1 x
      · simp only [if_neg hg]
        by_cases hbr : idx + 1 > bound
        · rw [if_pos hbr]
          exact hq x
        · rw [if_neg hbr]
          exact ih _ _ _ hq x
    · rw [if_neg hc]
      exact hq x

theorem upLoop_sum (counts : List (String × Nat)) (e : List String)
    (bound target : Nat) (books : List String)
    (hbn : books.Nodup) (he : ∀ x ∈ e, x ∈ books) :
    ∀ (fuel idx : Nat) (q : String → Nat) (current : Nat),
      (books.map q).sum = current →
      (books.map (upLoop counts e bound target fuel idx q current).1).sum =
        (upLoop counts e bound target fuel idx q current).2 := by
  intro fuel
  induction fuel with
  | zero =>
    intro idx q current hsum
    exact hsum
  | succ fuel ih =>
    intro idx q current hsum
    simp only [upLoop]
    by_cases hc : current < target ∧ e ≠ []
    · rw [if_pos hc]
      have hlen : 0 < e.length := List.length_pos.mpr hc.2
      set b := e.getD (idx % e.length) "" with hbdef
      have hbmem : b ∈ books := he b (by rw [hbdef]; exact getD_mem e _ (Nat.mod_lt _ hlen) "")
      by_cases hg : q b < cntOf counts b
      · simp only [if_pos hg]
        set q1 : String → Nat := fun z => if z = b then q b + 1 else q z with hq1
        have hsum1 : (books.map q1).sum = current + 1 := by
          rw [hq1, sum_incr books hbn b hbmem q, hsum]
        by_cases hbr : idx + 1 > bound
        · rw [if_pos hbr]
          exact hsum1
        · rw [if_neg hbr]
          exact ih _ _ _ hsum1
      · simp only [if_neg hg]
        by_cases hbr : idx + 1 > bound
        · rw [if_pos hbr]
          exact hsum
        · rw [if_neg hbr]
          exact ih _ _ _ hsum
    · rw [if_neg hc]
      exact hsum

theorem upLoop_reaches (counts : List (String × Nat)) (e : List String)
    (bound target : Nat) (hnd : e.Nodup) :
    ∀ (fuel need j idx : Nat) (q : String → Nat) (current : Nat),
      0 < need → current + need = target →
      (∀ x ∈ e, q x ≤ cntOf counts x) →
      need ≤ (e.map (fun x => cntOf counts x - q x)).sum →
      j < e.length →
      q (e.getD ((idx + j) % e.length) "") <
        cntOf counts (e.getD ((idx + j) % e.length) "") →
      (need - 1) * e.length + j + 1 ≤ fuel →
      idx + (need - 1) * e.length + j + 1 ≤ bound + 1 →
      (upLoop counts e bound target fuel idx q current).2 = target := by
  intro fuel
  induction fuel with
  | zero =>
    intro need j idx q current hpos hneed hq hH hj hwit hfuel hbound
    omega
  | succ fuel ih =>
    intro need j idx q current hpos hneed hq hH hj hwit hfuel hbound
    have hlen : 0 < e.length := Nat.lt_of_le_of_lt (Nat.zero_le j) hj
    have hene : e ≠ [] := List.length_pos.mp hlen
    have hcur : current < target := by omega
    simp only [upLoop]
    rw [if_pos ⟨hcur, hene⟩]
    set b := e.getD (idx % e.length) "" with hbdef
    have hbmem : b ∈ e := by rw [hbdef]; exact getD_mem e _ (Nat.mod_lt _ hlen) ""
    by_cases hg : q b < cntOf counts b
    · simp only [if_pos hg]
      set q1 : String → Nat := fun z => if z = b then q b + 1 else q z with hq1
      have hq' : ∀ x ∈ e, q1 x ≤ cntOf counts x := by
        intro x hx
        rw [hq1]
        by_cases hxb : x = b
        · simp only [if_pos hxb]
          rw [hxb]
          omega
        · simp only [if_neg hxb]
          exact hq x hx
      have hH1 : (e.map (fun x => cntOf counts x - q1 x)).sum + 1 =
          (e.map (fun x => cntOf counts x - q x)).sum := by
        rw [hq1]
        exact sum_sub_incr e hnd b hbmem (fun x => cntOf counts x) q hg
      by_cases h1 : need = 1
      · by_cases hbr : idx + 1 > bound
        · rw [if_pos hbr]
          show current + 1 = target
          omega
        · rw [if_neg hbr]
          rw [upLoop_done counts e bound target fuel (idx + 1) _ _ (by omega)]
          show current + 1 = target
          omega
      · have hmul : (need - 1) * e.length = (need - 2) * e.length + e.length := by
          have h2 : need - 1 = (need - 2) + 1 := by omega
          rw [h2, Nat.succ_mul]
        have hmul2 : (need - 1 - 1) * e.length = (need - 2) * e.length := by
          rw [show need - 1 - 1 = need - 2 by omega]
        have hnbr : ¬ idx + 1 > bound := by omega
        rw [if_neg hnbr]
        have hH2 : 1 ≤ (e.map (fun x => cntOf counts x - q1 x)).sum := by omega
        obtain ⟨x, hxe, hxpos⟩ := sum_pos_mem e _ hH2
        obtain ⟨⟨i, hilt⟩, hxget⟩ := List.get_of_mem hxe
        obtain ⟨j', hj', hmod⟩ := mod_offset e.length (idx + 1) i hlen hilt
        apply ih (need - 1) j' (idx + 1) q1 (current + 1) (by omega) (by omega) hq'
          (by omega) hj' ?_ (by omega) (by omega)
        rw [hmod, getD_eq_get e i hilt "", hxget]
        omega
    · simp only [if_neg hg]
      have hjpos : j ≠ 0 := by
        intro h0
        rw [h0, Nat.add_zero] at hwit
        rw [← hbdef] at hwit
        exact hg hwit
      have hnbr : ¬ idx + 1 > bound := by omega
      rw [if_neg hnbr]
      apply ih need (j - 1) (idx + 1) q current hpos hneed hq hH (by omega) ?_
        (by omega) (by omega)
      have hidx : idx + 1 + (j - 1) = idx + j := by omega
      rw [hidx]
      exact hwit

theorem downLoop_done (counts : List (String × Nat)) (r : List String)
    (bound target fuel idx : Nat) (q : String → Nat) (current : Nat)
    (h : ¬ target < current) :
    downLoop counts r bound target fuel idx q current = (q, current) := by
  cases fuel with
  | zero => rfl
  | succ fuel =>
    simp only [downLoop]
    rw [if_neg (fun hc => h hc.1)]

theorem downLoop_le (counts : List (String × Nat)) (r : List String)
    (bound target : Nat) :
    ∀ (fuel idx : Nat) (q : String → Nat) (current : Nat) (x : String),
      (downLoop counts r bound target fuel idx q current).1 x ≤ q x := by
  intro fuel
  induction fuel with
  | zero =>
    intro idx q current x
    exact Nat.le_refl _
  | succ fuel ih =>
    intro idx q current x
    simp only [downLoop]
    by_cases hc : target < current ∧ r ≠ []
    · rw [if_pos hc]
      set b := r.getD (idx % r.length) "" with hbdef
      by_cases hg : 1 < q b
      · simp only [if_pos hg]
        set q1 : String → Nat := fun z => if z = b then q b - 1 else q z with hq1
        have hle : q1 x ≤ q x := by
          rw [hq1]
          by_cases hxb : x = b
          · simp only [if_pos hxb]
            rw [hxb]
            omega
          · simp only [if_neg hxb]
            exact Nat.le_refl _
        by_cases hbr : idx + 1 > bound
        · rw [if_pos hbr]
          exact hle
        · rw [if_neg hbr]
          exact Nat.le_trans (ih _ _ _ x) hle
      · simp only [if_neg hg]
        by_cases hbr : idx + 1 > bound
        · rw [if_pos hbr]
        · rw [if_neg hbr]
          exact ih _ _ _ x
    · rw [if_neg hc]

theorem downLoop_sum (counts : List (String × Nat)) (r : List String)
    (bound target : Nat) (books : List String)
    (hbn : books.Nodup) (he : ∀ x ∈ r, x ∈ books) :
    ∀ (fuel idx : Nat) (q : String → Nat) (current : Nat),
      (books.map q).sum = current →
      (books.map (downLoop counts r bound target fuel idx q current).1).sum =
        (downLoop counts r bound target fuel idx q current).2 := by
  intro fuel
  induction fuel with
  | zero =>
    intro idx q current hsum
    exact hsum
  | succ fuel ih =>
    intro idx q current hsum
    simp only [downLoop]
    by_cases hc : target < current ∧ r ≠ []
    · rw [if_pos hc]
      have hlen : 0 < r.length := List.length_pos.mpr hc.2
      set b := r.getD (idx % r.length) "" with hbdef
      have hbmem : b ∈ books := he b (by rw [hbdef]; exact getD_mem r _ (Nat.mod_lt _ hlen) "")
      by_cases hg : 1 < q b
      · simp only [if_pos hg]
        set q1 : String → Nat := fun z => if z = b then q b - 1 else q z with hq1
        have hble := mem_le_sum books q b hbmem
        have hsum1 : (books.map q1).sum = current - 1 := by
          rw [hq1]
          have := sum_decr books hbn b hbmem q (by omega)
          omega
        by_cases hbr : idx + 1 > bound
        · rw [if_pos hbr]
          exact hsum1
        · rw [if_neg hbr]
          exact ih _ _ _ hsum1
      · simp only [if_neg hg]
        by_cases hbr : idx + 1 > bound
        · rw [if_pos hbr]
          exact hsum
        · rw [if_neg hbr]
          exact ih _ _ _ hsum
    · rw [if_neg hc]
      exact hsum

theorem downLoop_reaches (counts : List (String × Nat)) (r : List String)
    (bound target : Nat) (hnd : r.Nodup) :
    ∀ (fuel need j idx : Nat) (q : String → Nat) (current : Nat),
      0 < need → target + need = current →
      (∀ x ∈ r, 1 ≤ q x) →
      need ≤ (r.map (fun x => q x - 1)).sum →
      j < r.length →
      1 < q (r.getD ((idx + j) % r.length) "") →
      (need - 1) * r.length + j + 1 ≤ fuel →
      idx + (need - 1) * r.length + j + 1 ≤ bound + 1 →
      (downLoop counts r bound target fuel idx q current).2 = target := by
  intro fuel
  induction fuel with
  | zero =>
    intro need j idx q current hpos hneed hq hH hj hwit hfuel hbound
    omega
  | succ fuel ih =>
    intro need j idx q current hpos hneed hq hH hj hwit hfuel hbound
    have hlen : 0 < r.length := Nat.lt_of_le_of_lt (Nat.zero_le j) hj
    have hene : r ≠ [] := List.length_pos.mp hlen
    have hcur : target < current := by omega
    simp only [downLoop]
    rw [if_pos ⟨hcur, hene⟩]
    set b := r.getD (idx % r.length) "" with hbdef
    have hbmem : b ∈ r := by rw [hbdef]; exact getD_mem r _ (Nat.mod_lt _ hlen) ""
    by_cases hg : 1 < q b
    · simp only [if_pos hg]
      set q1 : String → Nat := fun z => if z = b then q b - 1 else q z with hq1
      have hq' : ∀ x ∈ r, 1 ≤ q1 x := by
        intro x hx
        rw [hq1]
        by_cases hxb : x = b
        · simp only [if_pos hxb]
          omega
        · simp only [if_neg hxb]
          exact hq x hx
      have hH1 : (r.map (fun x => q1 x - 1)).sum + 1 =
          (r.map (fun x => q x - 1)).sum := by
        rw [hq1]
        exact sum_mass_decr r hnd b hbmem q (by omega)
      by_cases h1 : need = 1
      · by_cases hbr : idx + 1 > bound
        · rw [if_pos hbr]
          show current - 1 = target
          omega
        · rw [if_neg hbr]
          rw [downLoop_done counts r bound target fuel (idx + 1) _ _ (by omega)]
          show current - 1 = target
          omega
      · have hmul : (need - 1) * r.length = (need - 2) * r.length + r.length := by
          have h2 : need - 1 = (need - 2) + 1 := by omega
          rw [h2, Nat.succ_mul]
        have hmul2 : (need - 1 - 1) * r.length = (need - 2) * r.length := by
          rw [show need - 1 - 1 = need - 2 by omega]
        have hnbr : ¬ idx + 1 > bound := by omega
        rw [if_neg hnbr]
        have hH2 : 1 ≤ (r.map (fun x => q1 x - 1)).sum := by omega
        obtain ⟨x, hxe, hxpos⟩ := sum_pos_mem r _ hH2
        obtain ⟨⟨i, hilt⟩, hxget⟩ := List.get_of_mem hxe
        obtain ⟨j', hj', hmod⟩ := mod_offset r.length (idx + 1) i hlen hilt
        apply ih (need - 1) j' (idx + 1) q1 (current - 1) (by omega) (by omega) hq'
          (by omega) hj' ?_ (by omega) (by omega)
        rw [hmod, getD_eq_get r i hilt "", hxget]
        omega
    · simp only [if_neg hg]
      have hjpos : j ≠ 0 := by
        intro h0
        rw [h0, Nat.add_zero] at hwit
        rw [← hbdef] at hwit
        exact hg hwit
      have hnbr : ¬ idx + 1 > bound := by omega
      rw [if_neg hnbr]
      apply ih need (j - 1) (idx + 1) q current hpos hneed hq hH (by omega) ?_
        (by omega) (by omega)
      have hidx : idx + 1 + (j - 1) = idx + j := by omega
      rw [hidx]
      exact hwit

theorem quota0_le_cnt (counts : List (String × Nat)) (target total : Nat) (b : String) :
    quota0 counts target total b ≤ cntOf counts b := by
  unfold quota0 cntOf
  cases hlook : counts.lookup b with
  | none => simp
  | some c => simp

theorem quota0_pos (counts : List (String × Nat)) (target total : Nat) (b : String)
    (h : 1 ≤ cntOf counts b) : 1 ≤ quota0 counts target total b := by
  unfold quota0
  unfold cntOf at h
  cases hlook : counts.lookup b with
  | none => rw [hlook] at h; simp at h
  | some c =>
    rw [hlook] at h
    simp only [Option.getD_some] at h
    exact Nat.le_min.mpr ⟨Nat.le_max_left 1 _, h⟩

theorem quota0_le_floor (counts : List (String × Nat)) (target total : Nat) (b : String) :
    quota0 counts target total b ≤ 1 + target * cntOf counts b / total := by
  unfold quota0 cntOf
  cases hlook : counts.lookup b with
  | none => simp
  | some c =>
    simp only [Option.getD_some]
    calc min (max 1 (target * c / total)) c ≤ max 1 (target * c / total) :=
          Nat.min_le_left _ _
      _ ≤ 1 + target * c / total :=
          Nat.max_le.mpr ⟨Nat.le_add_right 1 _, Nat.le_add_left _ 1⟩

theorem keysum (counts : List (String × Nat))
    (hnd : (counts.map (fun p => p.1)).Nodup) :
    ((counts.map (fun p => p.1)).map (fun b => cntOf counts b)).sum =
      (counts.map (fun p => p.2)).sum := by
  rw [List.map_map]
  have h : counts.map ((fun b => cntOf counts b) ∘ (fun p => p.1)) =
      counts.map (fun p => p.2) :=
    List.map_congr_left (fun p hp => cntOf_eq counts hnd p hp)
  rw [h]

theorem sum_map_one (l : List α) : (l.map (fun _ => (1 : Nat))).sum = l.length := by
  induction l with
  | nil => rfl
  | cons a rest ih =>
    simp only [List.map_cons, List.sum_cons, ih, List.length_cons]
    omega

theorem sum_mul_map (l : List α) (a : Nat) (f : α → Nat) :
    (l.map (fun x => a * f x)).sum = a * (l.map f).sum := by
  induction l with
  | nil => simp
  | cons x rest ih =>
    simp only [List.map_cons, List.sum_cons, ih, Nat.mul_add]

/-- Counterexample to C1 as stated: a single book with one candidate and the
fixed global target 320 (TARGET_EVENTS).  The one listed book has at least
one candidate, yet the quotas sum to 1, not 320: with every quota already at
its candidate-count cap the expandable list is empty and the correction loop
cannot reach the target. -/
theorem proportional_quotas_counterexample :
    ¬ ((([("A", 1)] : List (String × Nat)).map (fun p => p.1)).map
        (proportional_quotas [("A", 1)] TARGET_EVENTS)).sum = TARGET_EVENTS := by
  decide

/-- C1 (amended): when the group-counts dict (distinct book keys, every
listed book with at least one candidate) has at most `target` books and at
least `target` total candidates, proportional_quotas returns quotas that sum
exactly to the target, and no book's quota ever exceeds its candidate count.
Without `counts.length ≤ target ≤ total` the sum clause fails (see the
counterexample), since quotas are capped by candidate counts and floored at
one per book. -/
theorem quota_allocator_sum_cap (counts : List (String × Nat)) (target : Nat)
    (hnd : (counts.map (fun p => p.1)).Nodup)
    (hpos : ∀ p ∈ counts, 1 ≤ p.2)
    (hlen : counts.length ≤ target)
    (htot : target ≤ (counts.map (fun p => p.2)).sum) :
    ((counts.map (fun p => p.1)).map (proportional_quotas counts target)).sum = target ∧
    ∀ p ∈ counts, proportional_quotas counts target p.1 ≤ p.2 := by
  simp only [proportional_quotas]
  set T := (counts.map (fun p => p.2)).sum with hT
  set books := counts.map (fun p => p.1) with hbooks
  set q0f := quota0 counts target T with hq0f
  set cur := (books.map q0f).sum with hcur
  clear_value T books q0f cur
  have hndraw : (counts.map (fun p => p.1)).Nodup := hbooks ▸ hnd
  by_cases hT0 : T = 0
  · rw [if_pos hT0]
    have htarget0 : target = 0 := by omega
    constructor
    · rw [htarget0]
      simp
    · intro p hp
      exact Nat.zero_le _
  · rw [if_neg hT0]
    have hTpos : 0 < T := Nat.pos_of_ne_zero hT0
    have hndb : books.Nodup := hnd
    have htot2 : target ≤ T := htot
    have hcnt1 : ∀ b ∈ books, 1 ≤ cntOf counts b := by
      intro b hb
      rw [hbooks] at hb
      obtain ⟨p, hp, hpb⟩ := List.mem_map.mp hb
      rw [← hpb, cntOf_eq counts hndraw p hp]
      exact hpos p hp
    have hq0cnt : ∀ b, q0f b ≤ cntOf counts b := by
      intro b
      rw [hq0f]
      exact quota0_le_cnt counts target T b
    have hq0pos : ∀ b ∈ books, 1 ≤ q0f b := by
      intro b hb
      rw [hq0f]
      exact quota0_pos counts target T b (hcnt1 b hb)
    have hkeysum : (books.map (fun b => cntOf counts b)).sum = T := by
      rw [hbooks, hT]
      exact keysum counts hndraw
    by_cases hup : cur < target
    · rw [if_pos hup]
      set ee := sortKeep (fun a b => fracKey counts target T b ≤ fracKey counts target T a)
        (books.filter (fun b => q0f b < cntOf counts b)) with hee
      set eb := ee.length * (target + 2) with heb
      have hperm : ee.Perm (books.filter (fun b => q0f b < cntOf counts b)) := by
        rw [hee]
        exact sortKeep_perm _ _
      have hnde : ee.Nodup := (hperm.nodup_iff).mpr (hndb.filter _)
      have hesub : ∀ x ∈ ee, x ∈ books := fun x hx =>
        List.mem_of_mem_filter (hperm.mem_iff.mp hx)
      have hHe : (ee.map (fun x => cntOf counts x - q0f x)).sum = T - cur := by
        have h1 := (hperm.map (fun x => cntOf counts x - q0f x)).sum_eq
        have h2 := sum_filter_vanish books (fun b => q0f b < cntOf counts b)
          (fun x => cntOf counts x - q0f x)
          (fun x hx hfx => by
            have hn := of_decide_eq_false hfx
            show cntOf counts x - q0f x = 0
            omega)
        have h3 := sum_map_sub books (fun x => cntOf counts x) q0f (fun x _ => hq0cnt x)
        rw [hkeysum] at h3
        rw [h1, h2, h3, ← hcur]
      have hspos : 0 < (ee.map (fun x => cntOf counts x - q0f x)).sum := by
        rw [hHe]
        omega
      obtain ⟨x, hx, hxpos⟩ := sum_pos_mem ee _ hspos
      have hlee : 0 < ee.length := List.length_pos.mpr (List.ne_nil_of_mem hx)
      obtain ⟨⟨i, hilt⟩, hxget⟩ := List.get_of_mem hx
      obtain ⟨j, hj, hmod⟩ := mod_offset ee.length 0 i hlee hilt
      have hwit : q0f (ee.getD ((0 + j) % ee.length) "") <
          cntOf counts (ee.getD ((0 + j) % ee.length) "") := by
        rw [hmod, getD_eq_get ee i hilt "", hxget]
        omega
      have hA : (target - cur) * ee.length = (target - cur - 1) * ee.length + ee.length := by
        conv_lhs => rw [show target - cur = (target - cur - 1) + 1 by omega]
        rw [Nat.succ_mul]
      have hB : (target - cur) * ee.length ≤ (target + 2) * ee.length :=
        Nat.mul_le_mul_right _ (by omega)
      have hC : ee.length * (target + 2) = (target + 2) * ee.length := Nat.mul_comm _ _
      have hreach := upLoop_reaches counts ee eb target hnde (eb + 1) (target - cur) j 0
        q0f cur (by omega) (by omega) (fun y _ => hq0cnt y) (by rw [hHe]; omega) hj hwit
        (by omega) (by omega)
      have hsum := upLoop_sum counts ee eb target books hndb hesub (eb + 1) 0 q0f cur
        hcur.symm
      constructor
      · exact hsum.trans hreach
      · intro p hp
        have hcap := upLoop_cap counts ee eb target (eb + 1) 0 q0f cur hq0cnt p.1
        rw [cntOf_eq counts hndraw p hp] at hcap
        exact hcap
    · rw [if_neg hup]
      by_cases hdown : target < cur
      · rw [if_pos hdown]
        set rr := sortKeep (fun a b => fracKey counts target T a ≤ fracKey counts target T b)
          (books.filter (fun b => 1 < q0f b)) with hrr
        set rb := rr.length * (target + 2) with hrbd
        have hperm : rr.Perm (books.filter (fun b => 1 < q0f b)) := by
          rw [hrr]
          exact sortKeep_perm _ _
        have hndr : rr.Nodup := (hperm.nodup_iff).mpr (hndb.filter _)
        have hrsub : ∀ x ∈ rr, x ∈ books := fun x hx =>
          List.mem_of_mem_filter (hperm.mem_iff.mp hx)
        have hq1r : ∀ x ∈ rr, 1 ≤ q0f x := by
          intro x hx
          have hxf := hperm.mem_iff.mp hx
          have h2 := of_decide_eq_true (List.mem_filter.mp hxf).2
          omega
        have hMr : (rr.map (fun x => q0f x - 1)).sum = cur - counts.length := by
          have h1 := (hperm.map (fun x => q0f x - 1)).sum_eq
          have h2 := sum_filter_vanish books (fun b => 1 < q0f b)
            (fun x => q0f x - 1)
            (fun x hx hfx => by
              have hn := of_decide_eq_false hfx
              show q0f x - 1 = 0
              omega)
          have h3 := sum_map_sub books q0f (fun _ => 1) (fun y hy => hq0pos y hy)
          rw [sum_map_one] at h3
          rw [h1, h2, h3, ← hcur, hbooks, List.length_map]
        have hfloor : (books.map (fun b => target * cntOf counts b / T)).sum ≤ target := by
          have h1 := sum_div_le (books.map (fun b => target * cntOf counts b)) T
          rw [List.map_map] at h1
          have h2 : (books.map (fun b => target * cntOf counts b)).sum = target * T := by
            rw [sum_mul_map books target (fun b => cntOf counts b), hkeysum]
          rw [h2, Nat.mul_div_cancel _ hTpos] at h1
          exact h1
        have hblen : books.length = counts.length := by
          rw [hbooks]
          exact List.length_map _ _
        have hcurle : cur ≤ counts.length + target := by
          have h1 : cur ≤ (books.map (fun b => 1 + target * cntOf counts b / T)).sum := by
            rw [hcur]
            exact sum_map_le books q0f _ (fun b _ => by
              rw [hq0f]
              exact quota0_le_floor counts target T b)
          rw [sum_map_add books (fun _ => 1) (fun b => target * cntOf counts b / T),
            sum_map_one] at h1
          omega
        have hspos : 0 < (rr.map (fun x => q0f x - 1)).sum := by
          rw [hMr]
          omega
        obtain ⟨x, hx, hxpos⟩ := sum_pos_mem rr _ hspos
        have hlrr : 0 < rr.length := List.length_pos.mpr (List.ne_nil_of_mem hx)
        obtain ⟨⟨i, hilt⟩, hxget⟩ := List.get_of_mem hx
        obtain ⟨j, hj, hmod⟩ := mod_offset rr.length 0 i hlrr hilt
        have hwit : 1 < q0f (rr.getD ((0 + j) % rr.length) "") := by
          rw [hmod, getD_eq_get rr i hilt "", hxget]
          omega
        have hA : (cur - target) * rr.length = (cur - target - 1) * rr.length + rr.length := by
          conv_lhs => rw [show cur - target = (cur - target - 1) + 1 by omega]
          rw [Nat.succ_mul]
        have hB : (cur - target) * rr.length ≤ (target + 2) * rr.length :=
          Nat.mul_le_mul_right _ (by omega)
        have hC : rr.length * (target + 2) = (target + 2) * rr.length := Nat.mul_comm _ _
        have hreach := downLoop_reaches counts rr rb target hndr (rb + 1) (cur - target) j 0
          q0f cur (by omega) (by omega) hq1r (by rw [hMr]; omega) hj hwit
          (by omega) (by omega)
        have hsum := downLoop_sum counts rr rb target books hndb hrsub (rb + 1) 0 q0f cur
          hcur.symm
        constructor
        · exact hsum.trans hreach
        · intro p hp
          have hcap := Nat.le_trans
            (downLoop_le counts rr rb target (rb + 1) 0 q0f cur p.1) (hq0cnt p.1)
          rw [cntOf_eq counts hndraw p hp] at hcap
          exact hcap
      · rw [if_neg hdown]
        constructor
        · rw [← hcur]
          omega
        · intro p hp
          have hcap := hq0cnt p.1
          rw [cntOf_eq counts hndraw p hp] at hcap
          exact hcap

/-- Witness for C1 (amended): the spec's scenario, counts {A:100, B:10, C:2}
with target 20: three books, twenty is between 3 and 112, so the quotas sum
to exactly 20 and C's quota stays at most its pool of 2. -/
theorem quota_allocator_sum_cap_witness :
    ((([("A", 100), ("B", 10), ("C", 2)] : List (String × Nat)).map (fun p => p.1)).map
        (proportional_quotas [("A", 100), ("B", 10), ("C", 2)] 20)).sum = 20 ∧
    proportional_quotas [("A", 100), ("B", 10), ("C", 2)] 20 "C" ≤ 2 := by
  have h := quota_allocator_sum_cap [("A", 100), ("B", 10), ("C", 2)] 20
    (by decide) (by decide) (by decide) (by decide)
  exact ⟨h.1, h.2 ("C", 2) (by decide)⟩

/-! #### C2: the Kahn traversal and acyclicity -/

theorem getLast_decomp : ∀ (l : List α) (a : α), l.getLast? = some a →
    l = l.dropLast ++ [a] := by
  intro l
  induction l with
  | nil =>
    intro a h
    cases h
  | cons x rest ih =>
    intro a h
    cases rest with
    | nil =>
      simp only [List.getLast?_singleton, Option.some.injEq] at h
      rw [h]
      rfl
    | cons y rest2 =>
      have h2 : (y :: rest2).getLast? = some a := by
        rw [← h]
        rfl
      have ihh := ih a h2
      rw [List.dropLast_cons₂, List.cons_append, ← ihh]

theorem nodup_subset_length :
    ∀ (l₁ l₂ : List α) [DecidableEq α], l₁.Nodup → (∀ x ∈ l₁, x ∈ l₂) →
      l₁.length ≤ l₂.length := by
  intro l₁
  induction l₁ with
  | nil =>
    intro l₂ _ _ _
    exact Nat.zero_le _
  | cons a rest ih =>
    intro l₂ _ hnd hsub
    simp only [List.nodup_cons] at hnd
    have ha : a ∈ l₂ := hsub a (List.mem_cons_self _ _)
    have hsub2 : ∀ x ∈ rest, x ∈ l₂.erase a := by
      intro x hx
      exact (List.mem_erase_of_ne (fun h => hnd.1 (by rw [← h]; exact hx))).mpr
        (hsub x (List.mem_cons_of_mem _ hx))
    have h1 := ih (l₂.erase a) hnd.2 hsub2
    have h2 := List.length_erase_add_one ha
    simp only [List.length_cons]
    omega

theorem proper_subset_length [DecidableEq α] (l ns : List α) (v : α)
    (hnd : l.Nodup) (hsub : ∀ x ∈ l, x ∈ ns) (hv : v ∈ ns) (hvl : v ∉ l) :
    l.length < ns.length := by
  have hsub2 : ∀ x ∈ l, x ∈ ns.erase v := fun x hx =>
    (List.mem_erase_of_ne (fun h => hvl (by rw [← h]; exact hx))).mpr (hsub x hx)
  have h1 := nodup_subset_length l (ns.erase v) hnd hsub2
  have h2 := List.length_erase_add_one hv
  omega

theorem filter_imp_length (l : List α) (p q : α → Bool)
    (h : ∀ x ∈ l, p x = true → q x = true) :
    (l.filter p).length ≤ (l.filter q).length := by
  induction l with
  | nil => exact Nat.le_refl 0
  | cons a rest ih =>
    have ih2 := ih (fun x hx => h x (List.mem_cons_of_mem _ hx))
    cases hpa : p a with
    | true =>
      rw [List.filter_cons, if_pos hpa, List.filter_cons,
        if_pos (h a (List.mem_cons_self _ _) hpa)]
      simp only [List.length_cons]
      omega
    | false =>
      rw [List.filter_cons, if_neg (by simp [hpa])]
      cases hqa : q a with
      | true =>
        rw [List.filter_cons, if_pos hqa]
        simp only [List.length_cons]
        omega
      | false =>
        rw [List.filter_cons, if_neg (by simp [hqa])]
        exact ih2

theorem processOut_cons (nxt : String) (rest : List String)
    (indeg : String → Int) (queue : List String) :
    processOut (nxt :: rest) indeg queue =
      processOut rest (fun v => if v = nxt then indeg nxt - 1 else indeg v)
        (if indeg nxt - 1 = 0 then queue ++ [nxt] else queue) := rfl

theorem processOut_fst :
    ∀ (nxts : List String) (indeg : String → Int) (queue : List String) (v : String),
      (processOut nxts indeg queue).1 v = indeg v - (nxts.count v : Int) := by
  intro nxts
  induction nxts with
  | nil =>
    intro indeg queue v
    simp [processOut]
  | cons nxt rest ih =>
    intro indeg queue v
    rw [processOut_cons, ih]
    by_cases hv : v = nxt
    · subst hv
      simp only [if_pos rfl, List.count_cons, beq_self_eq_true, if_true]
      push_cast
      omega
    · simp only [if_neg hv, List.count_cons, beq_iff_eq]
      rw [if_neg (fun h => hv h.symm)]
      omega

theorem count_ge_step (nxt : String) (rest : List String) (indeg : String → Int)
    (hge : ∀ v, (((nxt :: rest).count v : Nat) : Int) ≤ indeg v) :
    ∀ w, ((rest.count w : Nat) : Int) ≤ (if w = nxt then indeg nxt - 1 else indeg w) := by
  intro w
  by_cases hw : w = nxt
  · subst hw
    have h := hge w
    rw [List.count_cons] at h
    simp only [beq_self_eq_true, if_true] at h
    rw [if_pos rfl]
    push_cast at h
    omega
  · have h := hge w
    rw [List.count_cons] at h
    simp only [beq_iff_eq] at h
    rw [if_neg (fun h2 => hw h2.symm)] at h
    rw [if_neg hw]
    push_cast at h
    omega

theorem processOut_mem :
    ∀ (nxts : List String) (indeg : String → Int) (queue : List String),
      (∀ v, ((nxts.count v : Nat) : Int) ≤ indeg v) →
      ∀ v, (v ∈ (processOut nxts indeg queue).2 ↔
        v ∈ queue ∨ (v ∈ nxts ∧ indeg v = ((nxts.count v : Nat) : Int))) := by
  intro nxts
  induction nxts with
  | nil =>
    intro indeg queue hge v
    simp [processOut]
  | cons nxt rest ih =>
    intro indeg queue hge v
    rw [processOut_cons]
    rw [ih _ _ (count_ge_step nxt rest indeg hge) v]
    by_cases hv : v = nxt
    · subst hv
      simp only [if_pos rfl, List.count_cons, beq_self_eq_true, if_true]
      by_cases hd : indeg v - 1 = 0
      · rw [if_pos hd]
        have hc := hge v
        rw [List.count_cons] at hc
        simp only [beq_self_eq_true, if_true] at hc
        push_cast at hc
        constructor
        · intro _
          right
          refine ⟨List.mem_cons_self _ _, ?_⟩
          have hc0 : rest.count v = 0 := by omega
          rw [hc0]
          push_cast
          omega
        · intro _
          left
          exact List.mem_append_right _ (List.mem_singleton.mpr rfl)
      · rw [if_neg hd]
        constructor
        · intro h
          rcases h with h | ⟨hr, he⟩
          · exact Or.inl h
          · right
            refine ⟨List.mem_cons_self _ _, ?_⟩
            push_cast
            omega
        · intro h
          rcases h with h | ⟨_, he⟩
          · exact Or.inl h
          · right
            push_cast at he
            have hcpos : rest.count v ≠ 0 := by
              intro h0
              rw [h0] at he
              omega
            have hm : v ∈ rest := by
              by_contra hnm
              exact hcpos (List.count_eq_zero.mpr hnm)
            exact ⟨hm, by omega⟩
    · simp only [if_neg hv]
      have hq1 : v ∈ (if indeg nxt - 1 = 0 then queue ++ [nxt] else queue) ↔ v ∈ queue := by
        by_cases hd : indeg nxt - 1 = 0
        · rw [if_pos hd, List.mem_append, List.mem_singleton]
          constructor
          · intro h
            rcases h with h | h
            · exact h
            · exact absurd h hv
          · exact Or.inl
        · rw [if_neg hd]
      rw [hq1]
      have hcnt : ((nxt :: rest).count v : Nat) = rest.count v := by
        rw [List.count_cons]
        simp only [beq_iff_eq]
        rw [if_neg (fun h2 => hv h2.symm)]
        omega
      rw [hcnt]
      have hmem : v ∈ nxt :: rest ↔ v ∈ rest := by
        rw [List.mem_cons]
        constructor
        · intro h
          rcases h with h | h
          · exact absurd h hv
          · exact h
        · exact Or.inr
      rw [hmem]

theorem processOut_nodup :
    ∀ (nxts : List String) (indeg : String → Int) (queue : List String),
      (∀ v, ((nxts.count v : Nat) : Int) ≤ indeg v) →
      (∀ v ∈ queue, v ∉ nxts) →
      queue.Nodup →
      (processOut nxts indeg queue).2.Nodup := by
  intro nxts
  induction nxts with
  | nil =>
    intro indeg queue _ _ h
    exact h
  | cons nxt rest ih =>
    intro indeg queue hge hnq hqn
    rw [processOut_cons]
    by_cases hd : indeg nxt - 1 = 0
    · rw [if_pos hd]
      have hnin : nxt ∉ rest := by
        have hc := hge nxt
        rw [List.count_cons] at hc
        simp only [beq_self_eq_true, if_true] at hc
        push_cast at hc
        have hc0 : rest.count nxt = 0 := by omega
        exact List.count_eq_zero.mp hc0
      have hqn1 : (queue ++ [nxt]).Nodup := by
        rw [List.nodup_append]
        refine ⟨hqn, List.nodup_singleton _, ?_⟩
        intro a ha hb
        rw [List.mem_singleton] at hb
        subst hb
        exact hnq a ha (List.mem_cons_self _ _)
      have hnq1 : ∀ v ∈ queue ++ [nxt], v ∉ rest := by
        intro v hv
        rcases List.mem_append.mp hv with h | h
        · exact fun hr => hnq v h (List.mem_cons_of_mem _ hr)
        · rw [List.mem_singleton] at h
          subst h
          exact hnin
      exact ih _ _ (count_ge_step nxt rest indeg hge) hnq1 hqn1
    · rw [if_neg hd]
      exact ih _ _ (count_ge_step nxt rest indeg hge)
        (fun v hv hr => hnq v hv (List.mem_cons_of_mem _ hr)) hqn

theorem buildMaps_aux_fst (ns : List String) :
    ∀ (edges : List (String × String)) (acc : (String → Int) × (String → List String))
      (v : String),
      (edges.foldl (fun (maps : (String → Int) × (String → List String))
          (e : String × String) =>
        if e.1 ∈ ns ∧ e.2 ∈ ns then
          (fun w => if w = e.2 then maps.1 w + 1 else maps.1 w,
           fun w => if w = e.1 then maps.2 w ++ [e.2] else maps.2 w)
        else maps) acc).1 v
        = acc.1 v + (((inducedEdges ns edges).filter (fun e => e.2 = v)).length : Int) := by
  intro edges
  induction edges with
  | nil =>
    intro acc v
    simp [inducedEdges]
  | cons e rest ih =>
    intro acc v
    by_cases hc : e.1 ∈ ns ∧ e.2 ∈ ns
    · rw [List.foldl_cons, if_pos hc]
      have hind : inducedEdges ns (e :: rest) = e :: inducedEdges ns rest := by
        unfold inducedEdges
        rw [List.filter_cons, if_pos (decide_eq_true hc)]
      rw [hind, ih]
      show (if v = e.2 then acc.1 v + 1 else acc.1 v) + _ = _
      by_cases hv : e.2 = v
      · rw [if_pos hv.symm, List.filter_cons, if_pos (decide_eq_true hv),
          List.length_cons]
        push_cast
        omega
      · rw [if_neg (fun h => hv h.symm), List.filter_cons, if_neg (by simp [hv])]
    · rw [List.foldl_cons, if_neg hc]
      have hind : inducedEdges ns (e :: rest) = inducedEdges ns rest := by
        unfold inducedEdges
        rw [List.filter_cons, if_neg (by simp [decide_eq_false hc])]
      rw [hind, ih]

theorem buildMaps_aux_snd (ns : List String) :
    ∀ (edges : List (String × String)) (acc : (String → Int) × (String → List String))
      (v : String),
      (edges.foldl (fun (maps : (String → Int) × (String → List String))
          (e : String × String) =>
        if e.1 ∈ ns ∧ e.2 ∈ ns then
          (fun w => if w = e.2 then maps.1 w + 1 else maps.1 w,
           fun w => if w = e.1 then maps.2 w ++ [e.2] else maps.2 w)
        else maps) acc).2 v
        = acc.2 v ++ ((inducedEdges ns edges).filter (fun e => e.1 = v)).map
            (fun e => e.2) := by
  intro edges
  induction edges with
  | nil =>
    intro acc v
    simp [inducedEdges]
  | cons e rest ih =>
    intro acc v
    by_cases hc : e.1 ∈ ns ∧ e.2 ∈ ns
    · rw [List.foldl_cons, if_pos hc]
      have hind : inducedEdges ns (e :: rest) = e :: inducedEdges ns rest := by
        unfold inducedEdges
        rw [List.filter_cons, if_pos (decide_eq_true hc)]
      rw [hind, ih]
      show (if v = e.1 then acc.2 v ++ [e.2] else acc.2 v) ++ _ = _
      by_cases hv : e.1 = v
      · rw [if_pos hv.symm, List.filter_cons, if_pos (decide_eq_true hv),
          List.map_cons, List.append_assoc, List.singleton_append]
      · rw [if_neg (fun h => hv h.symm), List.filter_cons, if_neg (by simp [hv])]
    · rw [List.foldl_cons, if_neg hc]
      have hind : inducedEdges ns (e :: rest) = inducedEdges ns rest := by
        unfold inducedEdges
        rw [List.filter_cons, if_neg (by simp [decide_eq_false hc])]
      rw [hind, ih]

theorem buildMaps_fst (ns : List String) (edges : List (String × String)) (v : String) :
    (buildMaps ns edges).1 v =
      (((inducedEdges ns edges).filter (fun e => e.2 = v)).length : Int) := by
  have h := buildMaps_aux_fst ns edges (fun _ => 0, fun _ => []) v
  simpa [buildMaps] using h

theorem buildMaps_snd (ns : List String) (edges : List (String × String)) (v : String) :
    (buildMaps ns edges).2 v =
      ((inducedEdges ns edges).filter (fun e => e.1 = v)).map (fun e => e.2) := by
  have h := buildMaps_aux_snd ns edges (fun _ => 0, fun _ => []) v
  simpa [buildMaps] using h

theorem count_out :
    ∀ (E : List (String × String)) (c v : String),
      ((E.filter (fun e => e.1 = c)).map (fun e => e.2)).count v =
        (E.filter (fun e => e.1 = c ∧ e.2 = v)).length := by
  intro E c v
  induction E with
  | nil => rfl
  | cons e rest ih =>
    by_cases h1 : e.1 = c
    · rw [List.filter_cons, if_pos (decide_eq_true h1), List.map_cons]
      by_cases h2 : e.2 = v
      · rw [List.filter_cons, if_pos (decide_eq_true ⟨h1, h2⟩), List.count_cons]
        simp only [beq_iff_eq]
        rw [if_pos h2, ih, List.length_cons]
      · rw [List.filter_cons, if_neg (by simp [h2]), List.count_cons]
        simp only [beq_iff_eq]
        rw [if_neg h2, ih]
        omega
    · rw [List.filter_cons, if_neg (by simp [h1]), List.filter_cons,
        if_neg (by simp [h1]), ih]

theorem step_count (E : List (String × String)) (popped : List String) (cur : String)
    (hcur : cur ∉ popped) :
    ∀ v, (E.filter (fun e => e.2 = v ∧ e.1 ∉ popped)).length
      = (E.filter (fun e => e.2 = v ∧ e.1 ∉ popped ++ [cur])).length
        + (E.filter (fun e => e.1 = cur ∧ e.2 = v)).length := by
  intro v
  induction E with
  | nil => rfl
  | cons e rest ih =>
    by_cases h2 : e.2 = v
    · by_cases hp : e.1 ∈ popped
      · have hnc : ¬ e.1 = cur := fun h => hcur (h ▸ hp)
        rw [List.filter_cons, if_neg (by simp [hp]),
          List.filter_cons, if_neg (by simp [List.mem_append, hp]),
          List.filter_cons, if_neg (by simp [hnc])]
        exact ih
      · by_cases hc : e.1 = cur
        · rw [List.filter_cons, if_pos (decide_eq_true ⟨h2, hp⟩),
            List.filter_cons,
            if_neg (by simp [List.mem_append, hc]),
            List.filter_cons, if_pos (decide_eq_true ⟨hc, h2⟩)]
          simp only [List.length_cons]
          omega
        · rw [List.filter_cons, if_pos (decide_eq_true ⟨h2, hp⟩),
            List.filter_cons,
            if_pos (decide_eq_true ⟨h2, by simp [List.mem_append, hp, hc]⟩),
            List.filter_cons, if_neg (by simp [hc])]
          simp only [List.length_cons]
          omega
    · rw [List.filter_cons, if_neg (by simp [h2]),
        List.filter_cons, if_neg (by simp [h2]),
        List.filter_cons, if_neg (by simp [h2])]
      exact ih

theorem getLast?_none : ∀ (l : List α), l.getLast? = none → l = [] := by
  intro l
  induction l with
  | nil =>
    intro _
    rfl
  | cons a rest ih =>
    intro h
    cases rest with
    | nil => simp [List.getLast?_singleton] at h
    | cons b r =>
      have h2 : (b :: r).getLast? = none := by rw [← h]; rfl
      exact absurd (ih h2) (List.cons_ne_nil b r)

theorem kahnLoop_nil (out : String → List String) (fuel : Nat)
    (indeg : String → Int) (popped : List String) :
    kahnLoop out fuel [] indeg popped = popped := by
  cases fuel with
  | zero => rfl
  | succ fuel => rfl

theorem kahnLoop_step (out : String → List String) (fuel : Nat)
    (queue : List String) (indeg : String → Int) (popped : List String)
    (cur : String) (hq : queue.getLast? = some cur) :
    kahnLoop out (fuel + 1) queue indeg popped =
      kahnLoop out fuel (processOut (out cur) indeg queue.dropLast).2
        (processOut (out cur) indeg queue.dropLast).1 (popped ++ [cur]) := by
  simp only [kahnLoop]
  rw [hq]

theorem kahnLoop_spec (E : List (String × String)) (ns : List String)
    (out : String → List String)
    (hout : ∀ v, out v = (E.filter (fun e => e.1 = v)).map (fun e => e.2))
    (hEns : ∀ e ∈ E, e.1 ∈ ns ∧ e.2 ∈ ns)
    (C : List String)
    (hCpred : ∀ x ∈ C, ∃ u ∈ C, (u, x) ∈ E) :
    ∀ (fuel : Nat) (queue : List String) (indeg : String → Int) (popped : List String),
      popped.Nodup →
      queue.Nodup →
      (∀ v ∈ queue, v ∉ popped) →
      (∀ v ∈ popped, v ∈ ns) →
      (∀ v ∈ queue, v ∈ ns) →
      (∀ v, indeg v = ((E.filter (fun e => e.2 = v ∧ e.1 ∉ popped)).length : Int)) →
      (∀ v ∈ ns, v ∉ popped → (v ∈ queue ↔ indeg v = 0)) →
      (∀ v ∈ popped, indeg v = 0) →
      (∀ x ∈ C, x ∉ popped ∧ x ∉ queue) →
      ns.length + 1 ≤ fuel + popped.length →
      (kahnLoop out fuel queue indeg popped).Nodup ∧
      (∀ v ∈ kahnLoop out fuel queue indeg popped, v ∈ ns) ∧
      (∀ v ∈ ns, v ∉ kahnLoop out fuel queue indeg popped →
        ∃ e ∈ E, e.2 = v ∧ e.1 ∉ kahnLoop out fuel queue indeg popped) ∧
      (∀ x ∈ C, x ∉ kahnLoop out fuel queue indeg popped) := by
  intro fuel
  induction fuel with
  | zero =>
    intro queue indeg popped hpn _ _ hpns _ _ _ _ _ hfuel
    exfalso
    have := nodup_subset_length popped ns hpn hpns
    omega
  | succ fuel ih =>
    intro queue indeg popped hpn hqn hqp hpns hqns hindeg hiff hpz hC hfuel
    cases hq : queue.getLast? with
    | none =>
      have hqnil : queue = [] := getLast?_none queue hq
      subst hqnil
      rw [kahnLoop_nil]
      refine ⟨hpn, hpns, ?_, fun x hx => (hC x hx).1⟩
      intro v hv hvp
      have hne0 : ¬ indeg v = 0 := fun h0 =>
        (List.not_mem_nil v) ((hiff v hv hvp).mpr h0)
      rw [hindeg v] at hne0
      have hlen : (E.filter (fun e => e.2 = v ∧ e.1 ∉ popped)).length ≠ 0 := by
        intro h0
        rw [h0] at hne0
        exact hne0 rfl
      have hnnil : E.filter (fun e => e.2 = v ∧ e.1 ∉ popped) ≠ [] := by
        intro h0
        rw [h0] at hlen
        exact hlen rfl
      obtain ⟨e, he⟩ := List.exists_mem_of_ne_nil _ hnnil
      have hef := List.mem_filter.mp he
      have hprops := of_decide_eq_true hef.2
      exact ⟨e, hef.1, hprops.1, hprops.2⟩
    | some cur =>
      rw [kahnLoop_step out fuel queue indeg popped cur hq]
      have hdec : queue = queue.dropLast ++ [cur] := getLast_decomp queue cur hq
      have hcurq : cur ∈ queue := by
        rw [hdec]
        exact List.mem_append_right _ (List.mem_singleton.mpr rfl)
      have hcurns : cur ∈ ns := hqns cur hcurq
      have hcurp : cur ∉ popped := hqp cur hcurq
      have hcur0 : indeg cur = 0 := (hiff cur hcurns hcurp).mp hcurq
      have hqn2 : (queue.dropLast ++ [cur]).Nodup := by rw [← hdec]; exact hqn
      rw [List.nodup_append] at hqn2
      have hq'n : queue.dropLast.Nodup := hqn2.1
      have hncq : cur ∉ queue.dropLast := by
        intro hcq
        exact hqn2.2.2 hcq (List.mem_singleton.mpr rfl)
      have hq'sub : ∀ v ∈ queue.dropLast, v ∈ queue := by
        intro v hv
        rw [hdec]
        exact List.mem_append_left _ hv
      -- count of successors = number of cur-edges
      have hcount : ∀ v, (out cur).count v =
          (E.filter (fun e => e.1 = cur ∧ e.2 = v)).length := by
        intro v
        rw [hout]
        exact count_out E cur v
      -- cur has no in-edges from unpopped nodes
      have hcurin : (E.filter (fun e => e.2 = cur ∧ e.1 ∉ popped)).length = 0 := by
        have h1 := hindeg cur
        rw [hcur0] at h1
        omega
      have hge : ∀ v, (((out cur).count v : Nat) : Int) ≤ indeg v := by
        intro v
        rw [hindeg v, hcount v]
        have hsub := filter_imp_length E (fun e => e.1 = cur ∧ e.2 = v)
          (fun e => e.2 = v ∧ e.1 ∉ popped) (fun e _ hp => by
            have h := of_decide_eq_true hp
            exact decide_eq_true ⟨h.2, h.1 ▸ hcurp⟩)
        omega
      have hfst : ∀ v, (processOut (out cur) indeg queue.dropLast).1 v =
          indeg v - (((out cur).count v : Nat) : Int) :=
        processOut_fst (out cur) indeg queue.dropLast
      have hmem2 : ∀ v, v ∈ (processOut (out cur) indeg queue.dropLast).2 ↔
          v ∈ queue.dropLast ∨ (v ∈ out cur ∧ indeg v = (((out cur).count v : Nat) : Int)) :=
        processOut_mem (out cur) indeg queue.dropLast hge
      -- members of out cur are edge targets
      have houtmem : ∀ v ∈ out cur, ∃ e ∈ E, e.1 = cur ∧ e.2 = v := by
        intro v hv
        rw [hout] at hv
        obtain ⟨e, he, hev⟩ := List.mem_map.mp hv
        have hef := List.mem_filter.mp he
        exact ⟨e, hef.1, of_decide_eq_true hef.2, hev⟩
      -- new indegree characterization
      have hindeg' : ∀ v, (processOut (out cur) indeg queue.dropLast).1 v =
          ((E.filter (fun e => e.2 = v ∧ e.1 ∉ popped ++ [cur])).length : Int) := by
        intro v
        rw [hfst v, hindeg v, hcount v]
        have hsp := step_count E popped cur hcurp v
        omega
      -- popped nodes keep indegree zero, incl. cur
      have hpz' : ∀ v ∈ popped ++ [cur],
          (processOut (out cur) indeg queue.dropLast).1 v = 0 := by
        intro v hv
        rw [hfst v]
        rcases List.mem_append.mp hv with h | h
        · have h0 := hpz v h
          have hg := hge v
          omega
        · rw [List.mem_singleton] at h
          subst h
          have hg := hge v
          rw [hcur0] at hg ⊢
          omega
      -- old queue members are not successors of cur
      have hnq0 : ∀ v ∈ queue.dropLast, v ∉ out cur := by
        intro v hv hvo
        have hvq : v ∈ queue := hq'sub v hv
        have h0 : indeg v = 0 := (hiff v (hqns v hvq) (hqp v hvq)).mp hvq
        have hg := hge v
        rw [h0] at hg
        have hc0 : (out cur).count v = 0 := by omega
        exact (List.count_eq_zero.mp hc0) hvo
      have hqn1 : (processOut (out cur) indeg queue.dropLast).2.Nodup :=
        processOut_nodup (out cur) indeg queue.dropLast hge hnq0 hq'n
      -- successors of cur are fresh
      have happf : ∀ v, v ∈ out cur → v ∉ popped ++ [cur] := by
        intro v hvo hvp
        have hcpos : (out cur).count v ≠ 0 := by
          intro h0
          exact (List.count_eq_zero.mp h0) hvo
        have hind0 : indeg v = 0 := by
          rcases List.mem_append.mp hvp with h | h
          · exact hpz v h
          · rw [List.mem_singleton] at h
            subst h
            exact hcur0
        have hg := hge v
        rw [hind0] at hg
        omega
      -- hypotheses for the recursive call
      have hpn' : (popped ++ [cur]).Nodup := by
        rw [List.nodup_append]
        refine ⟨hpn, List.nodup_singleton _, ?_⟩
        intro a ha hb
        rw [List.mem_singleton] at hb
        subst hb
        exact hcurp ha
      have hqp' : ∀ v ∈ (processOut (out cur) indeg queue.dropLast).2,
          v ∉ popped ++ [cur] := by
        intro v hv
        rcases (hmem2 v).mp hv with h | ⟨h1, h2⟩
        · intro hvp
          rcases List.mem_append.mp hvp with hp | hp
          · exact hqp v (hq'sub v h) hp
          · rw [List.mem_singleton] at hp
            exact hncq (hp ▸ h)
        · exact happf v h1
      have hpns' : ∀ v ∈ popped ++ [cur], v ∈ ns := by
        intro v hv
        rcases List.mem_append.mp hv with h | h
        · exact hpns v h
        · rw [List.mem_singleton] at h
          subst h
          exact hcurns
      have hqns' : ∀ v ∈ (processOut (out cur) indeg queue.dropLast).2, v ∈ ns := by
        intro v hv
        rcases (hmem2 v).mp hv with h | ⟨h1, _⟩
        · exact hqns v (hq'sub v h)
        · obtain ⟨e, he, _, he2⟩ := houtmem v h1
          exact he2 ▸ (hEns e he).2
      have hiff' : ∀ v ∈ ns, v ∉ popped ++ [cur] →
          (v ∈ (processOut (out cur) indeg queue.dropLast).2 ↔
            (processOut (out cur) indeg queue.dropLast).1 v = 0) := by
        intro v hv hvp
        have hvpop : v ∉ popped := fun h => hvp (List.mem_append_left _ h)
        have hvcur : v ≠ cur := fun h =>
          hvp (List.mem_append_right _ (List.mem_singleton.mpr h))
        constructor
        · intro hmem
          rw [hfst v]
          rcases (hmem2 v).mp hmem with h | ⟨_, h2⟩
          · have h0 : indeg v = 0 := (hiff v hv hvpop).mp (hq'sub v h)
            have hg := hge v
            omega
          · omega
        · intro h0
          rw [hfst v] at h0
          by_cases hcv : (out cur).count v = 0
          · have hv0 : indeg v = 0 := by
              rw [hcv] at h0
              omega
            have hvq : v ∈ queue := (hiff v hv hvpop).mpr hv0
            rw [hdec] at hvq
            rcases List.mem_append.mp hvq with h | h
            · exact (hmem2 v).mpr (Or.inl h)
            · rw [List.mem_singleton] at h
              exact absurd h hvcur
          · have hvo : v ∈ out cur := by
              by_contra hno
              exact hcv (List.count_eq_zero.mpr hno)
            exact (hmem2 v).mpr (Or.inr ⟨hvo, by omega⟩)
      have hC' : ∀ x ∈ C, x ∉ popped ++ [cur] ∧
          x ∉ (processOut (out cur) indeg queue.dropLast).2 := by
        intro x hx
        have hxp := (hC x hx).1
        have hxq := (hC x hx).2
        have hxcur : x ≠ cur := fun h => hxq (h ▸ hcurq)
        have hxp' : x ∉ popped ++ [cur] := by
          intro h
          rcases List.mem_append.mp h with h | h
          · exact hxp h
          · rw [List.mem_singleton] at h
            exact hxcur h
        refine ⟨hxp', ?_⟩
        intro hxin
        rcases (hmem2 x).mp hxin with h | ⟨h1, h2⟩
        · exact hxq (hq'sub x h)
        · obtain ⟨u, hu, huE⟩ := hCpred x hx
          have hup : u ∉ popped ++ [cur] := by
            intro h
            rcases List.mem_append.mp h with h | h
            · exact (hC u hu).1 h
            · rw [List.mem_singleton] at h
              exact (hC u hu).2 (h ▸ hcurq)
          have hmemf : (u, x) ∈ E.filter (fun e => e.2 = x ∧ e.1 ∉ popped ++ [cur]) :=
            List.mem_filter.mpr ⟨huE, decide_eq_true ⟨rfl, hup⟩⟩
          have hlpos : 0 < (E.filter (fun e => e.2 = x ∧ e.1 ∉ popped ++ [cur])).length :=
            List.length_pos.mpr (List.ne_nil_of_mem hmemf)
          have hsp := step_count E popped cur hcurp x
          rw [hindeg x, hcount x] at h2
          omega
      have hfuel' : ns.length + 1 ≤ fuel + (popped ++ [cur]).length := by
        rw [List.length_append, List.length_singleton]
        omega
      exact ih (processOut (out cur) indeg queue.dropLast).2
        (processOut (out cur) indeg queue.dropLast).1 (popped ++ [cur])
        hpn' hqn1 hqp' hpns' hqns' hindeg' hiff' hpz' hC' hfuel'

theorem chain_pred_exists (R : String → String → Prop) :
    ∀ (l : List String) (a : String), List.Chain R a l →
      ∀ x ∈ l, ∃ u ∈ a :: l, R u x := by
  intro l
  induction l with
  | nil =>
    intro a _ x hx
    exact absurd hx (List.not_mem_nil x)
  | cons b rest ih =>
    intro a hch x hx
    rw [List.chain_cons] at hch
    rcases List.mem_cons.mp hx with rfl | hx'
    · exact ⟨a, List.mem_cons_self _ _, hch.1⟩
    · obtain ⟨u, hu, hux⟩ := ih b hch.2 x hx'
      exact ⟨u, List.mem_cons_of_mem _ (hu), hux⟩

theorem cycle_nodes_pred (E : List (String × String)) (h : HasCycle E) :
    ∃ C : List String, C ≠ [] ∧ ∀ x ∈ C, ∃ u ∈ C, (u, x) ∈ E := by
  obtain ⟨v, l, hch⟩ := h
  refine ⟨v :: l, List.cons_ne_nil _ _, ?_⟩
  have hconv : ∀ u ∈ v :: (l ++ [v]), u ∈ v :: l := by
    intro u hu
    rcases List.mem_cons.mp hu with rfl | hu'
    · exact List.mem_cons_self _ _
    · rcases List.mem_append.mp hu' with h1 | h1
      · exact List.mem_cons_of_mem _ h1
      · rw [List.mem_singleton] at h1
        rw [h1]
        exact List.mem_cons_self _ _
  intro x hx
  have hx2 : x ∈ l ++ [v] := by
    rcases List.mem_cons.mp hx with rfl | hx'
    · exact List.mem_append_right _ (List.mem_singleton.mpr rfl)
    · exact List.mem_append_left _ hx'
  obtain ⟨u, hu, hux⟩ := chain_pred_exists (EdgeRel E) (l ++ [v]) v hch x hx2
  exact ⟨u, hconv u hu, hux⟩

theorem cycle_of_iter_eq (E : List (String × String)) (S : List String)
    (f : String → String) (hf : ∀ x ∈ S, f x ∈ S ∧ (f x, x) ∈ E)
    (w : String) (hw : w ∈ S) (d : Nat) (hd : 0 < d) (hiter : f^[d] w = w) :
    HasCycle E := by
  have iter_mem : ∀ (y : String), y ∈ S → ∀ k, f^[k] y ∈ S := by
    intro y hy k
    induction k with
    | zero => simpa using hy
    | succ k ihk =>
      rw [Function.iterate_succ_apply']
      exact (hf _ ihk).1
  have hcl : ∀ (m : Nat) (y : String), y ∈ S →
      List.Chain (EdgeRel E) (f^[m] y)
        ((List.range m).map (fun k => f^[m - 1 - k] y)) := by
    intro m
    induction m with
    | zero =>
      intro y _
      exact List.Chain.nil
    | succ m ihm =>
      intro y hy
      rw [List.range_succ_eq_map, List.map_cons, List.map_map]
      rw [List.chain_cons]
      constructor
      · show (f^[m + 1] y, f^[m] y) ∈ E
        rw [Function.iterate_succ_apply']
        exact (hf (f^[m] y) (iter_mem y hy m)).2
      · have hmap : (List.range m).map ((fun k => f^[m + 1 - 1 - k] y) ∘ Nat.succ) =
            (List.range m).map (fun k => f^[m - 1 - k] y) := by
          apply List.map_congr_left
          intro k _
          show f^[m + 1 - 1 - (k + 1)] y = f^[m - 1 - k] y
          congr 1
          omega
        rw [hmap]
        exact ihm y hy
  obtain ⟨m, rfl⟩ : ∃ m, d = m + 1 := ⟨d - 1, by omega⟩
  have hch := hcl (m + 1) w hw
  rw [hiter] at hch
  have hlast : f^[m + 1 - 1 - m] w = w := by
    rw [show m + 1 - 1 - m = 0 by omega]
    exact Function.iterate_zero_apply f w
  have hlist : (List.range (m + 1)).map (fun k => f^[m + 1 - 1 - k] w) =
      ((List.range m).map (fun k => f^[m + 1 - 1 - k] w)) ++ [w] := by
    rw [List.range_succ, List.map_append]
    rw [List.map_singleton, hlast]
  rw [hlist] at hch
  exact ⟨w, (List.range m).map (fun k => f^[m + 1 - 1 - k] w), hch⟩

theorem cycle_of_pred (E : List (String × String)) (S : List String)
    (hS : ∀ x ∈ S, ∃ u ∈ S, (u, x) ∈ E) (x0 : String) (hx0 : x0 ∈ S) :
    HasCycle E := by
  classical
  set f : String → String := fun x =>
    if hx : ∃ u, u ∈ S ∧ (u, x) ∈ E then Classical.choose hx else x with hfdef
  have hf : ∀ x ∈ S, f x ∈ S ∧ (f x, x) ∈ E := by
    intro x hx
    have hex : ∃ u, u ∈ S ∧ (u, x) ∈ E := by
      obtain ⟨u, hu, hux⟩ := hS x hx
      exact ⟨u, hu, hux⟩
    rw [hfdef]
    simp only [dif_pos hex]
    exact Classical.choose_spec hex
  have hiter : ∀ k, f^[k] x0 ∈ S := by
    intro k
    induction k with
    | zero => simpa using hx0
    | succ k ihk =>
      rw [Function.iterate_succ_apply']
      exact (hf _ ihk).1
  have hmapsto : ∀ a ∈ Finset.range (S.length + 1), f^[a] x0 ∈ S.toFinset := by
    intro a _
    rw [List.mem_toFinset]
    exact hiter a
  have hcard : S.toFinset.card < (Finset.range (S.length + 1)).card := by
    rw [Finset.card_range]
    have := S.toFinset_card_le
    omega
  obtain ⟨i, hi, j, hj, hij, heq⟩ :=
    Finset.exists_ne_map_eq_of_card_lt_of_maps_to hcard hmapsto
  rcases hij.lt_or_lt with hlt | hlt
  · apply cycle_of_iter_eq E S f hf (f^[i] x0) (hiter i) (j - i) (by omega)
    rw [← Function.iterate_add_apply, show j - i + i = j by omega]
    exact heq.symm
  · apply cycle_of_iter_eq E S f hf (f^[j] x0) (hiter j) (i - j) (by omega)
    rw [← Function.iterate_add_apply, show i - j + j = i by omega]
    exact heq

theorem kahn_characterization (nodes : List String) (edges : List (String × String))
    (C : List String)
    (hCpred : ∀ x ∈ C, ∃ u ∈ C, (u, x) ∈ inducedEdges nodes.dedup edges) :
    ∃ R : List String,
      topological_ok nodes edges = decide (R.length = nodes.dedup.length) ∧
      R.Nodup ∧ (∀ v ∈ R, v ∈ nodes.dedup) ∧
      (∀ v ∈ nodes.dedup, v ∉ R →
        ∃ e ∈ inducedEdges nodes.dedup edges, e.2 = v ∧ e.1 ∉ R) ∧
      (∀ x ∈ C, x ∉ R) := by
  have hindeg0 : ∀ v, (buildMaps nodes.dedup edges).1 v =
      (((inducedEdges nodes.dedup edges).filter
        (fun e => e.2 = v ∧ e.1 ∉ ([] : List String))).length : Int) := by
    intro v
    rw [buildMaps_fst]
    have hcongr : (inducedEdges nodes.dedup edges).filter (fun e => e.2 = v) =
        (inducedEdges nodes.dedup edges).filter
          (fun e => e.2 = v ∧ e.1 ∉ ([] : List String)) :=
      List.filter_congr (fun e _ => by simp)
    rw [hcongr]
  have hiff0 : ∀ v ∈ nodes.dedup, v ∉ ([] : List String) →
      (v ∈ nodes.dedup.filter (fun n => (buildMaps nodes.dedup edges).1 n = 0) ↔
        (buildMaps nodes.dedup edges).1 v = 0) := by
    intro v hv _
    rw [List.mem_filter]
    constructor
    · intro h
      exact of_decide_eq_true h.2
    · intro h
      exact ⟨hv, decide_eq_true h⟩
  have hC0 : ∀ x ∈ C, x ∉ ([] : List String) ∧
      x ∉ nodes.dedup.filter (fun n => (buildMaps nodes.dedup edges).1 n = 0) := by
    intro x hx
    refine ⟨List.not_mem_nil x, ?_⟩
    intro hxq
    have h0 : (buildMaps nodes.dedup edges).1 x = 0 :=
      of_decide_eq_true (List.mem_filter.mp hxq).2
    rw [buildMaps_fst] at h0
    obtain ⟨u, hu, huE⟩ := hCpred x hx
    have hmemf : (u, x) ∈ (inducedEdges nodes.dedup edges).filter (fun e => e.2 = x) :=
      List.mem_filter.mpr ⟨huE, decide_eq_true rfl⟩
    have hpos := List.length_pos.mpr (List.ne_nil_of_mem hmemf)
    omega
  have hspec := kahnLoop_spec (inducedEdges nodes.dedup edges) nodes.dedup
    (buildMaps nodes.dedup edges).2
    (fun v => buildMaps_snd nodes.dedup edges v)
    (fun e he => of_decide_eq_true (List.mem_filter.mp he).2)
    C hCpred
    (nodes.dedup.length + 1)
    (nodes.dedup.filter (fun n => (buildMaps nodes.dedup edges).1 n = 0))
    (buildMaps nodes.dedup edges).1 []
    List.nodup_nil
    ((List.nodup_dedup nodes).filter _)
    (fun v _ => List.not_mem_nil v)
    (fun v hv => absurd hv (List.not_mem_nil v))
    (fun v hv => List.mem_of_mem_filter hv)
    hindeg0 hiff0
    (fun v hv => absurd hv (List.not_mem_nil v))
    hC0
    (by omega)
  exact ⟨kahnLoop (buildMaps nodes.dedup edges).2 (nodes.dedup.length + 1)
    (nodes.dedup.filter (fun n => (buildMaps nodes.dedup edges).1 n = 0))
    (buildMaps nodes.dedup edges).1 [], rfl, hspec⟩

/-- C2: topological_ok considers only the edges with both endpoints inside
the (deduplicated) node set and returns true exactly when those induced
edges form an acyclic graph — the Kahn zero-indegree traversal pops a
number of nodes equal to the node-set size; and the per-track validation of
main aborts with an error whenever some track's check returns false. -/
theorem topological_ok_iff (nodes : List String) (edges : List (String × String))
    (tracks : List (String × List String × List (String × String))) :
    (topological_ok nodes edges = true ↔
      ¬ HasCycle (inducedEdges nodes.dedup edges)) ∧
    (∀ t ∈ tracks, topological_ok t.2.1 t.2.2 = false →
      ∃ msg, validateTracks tracks = Except.error msg) := by
  constructor
  · constructor
    · intro htrue hcyc
      obtain ⟨C, hCne, hCpred⟩ := cycle_nodes_pred _ hcyc
      obtain ⟨R, heq, hRnd, hRns, -, hRC⟩ := kahn_characterization nodes edges C hCpred
      obtain ⟨x, hx⟩ := List.exists_mem_of_ne_nil _ hCne
      obtain ⟨u, hu, huE⟩ := hCpred x hx
      have hxns : x ∈ nodes.dedup :=
        (of_decide_eq_true (List.mem_filter.mp huE).2).2
      have hxR := hRC x hx
      rw [heq] at htrue
      have hlen := of_decide_eq_true htrue
      have hproper := proper_subset_length R nodes.dedup x hRnd hRns hxns hxR
      omega
    · intro hnc
      obtain ⟨R, heq, hRnd, hRns, hRpred, -⟩ :=
        kahn_characterization nodes edges [] (fun x hx => absurd hx (List.not_mem_nil x))
      have hall : ∀ v ∈ nodes.dedup, v ∈ R := by
        by_contra hno
        push_neg at hno
        obtain ⟨v0, hv0ns, hv0R⟩ := hno
        have hSpred : ∀ x ∈ nodes.dedup.filter (fun x => ¬ x ∈ R),
            ∃ u ∈ nodes.dedup.filter (fun x => ¬ x ∈ R),
              (u, x) ∈ inducedEdges nodes.dedup edges := by
          intro x hxf
          have hxm := List.mem_filter.mp hxf
          have hxR := of_decide_eq_true hxm.2
          obtain ⟨e, heE, he2, he1⟩ := hRpred x hxm.1 hxR
          have he1ns : e.1 ∈ nodes.dedup :=
            (of_decide_eq_true (List.mem_filter.mp heE).2).1
          refine ⟨e.1, List.mem_filter.mpr ⟨he1ns, decide_eq_true he1⟩, ?_⟩
          rw [← he2]
          exact heE
        have hv0f : v0 ∈ nodes.dedup.filter (fun x => ¬ x ∈ R) :=
          List.mem_filter.mpr ⟨hv0ns, decide_eq_true hv0R⟩
        exact hnc (cycle_of_pred _ _ hSpred v0 hv0f)
      have h1 := nodup_subset_length R nodes.dedup hRnd hRns
      have h2 := nodup_subset_length nodes.dedup R (List.nodup_dedup nodes) hall
      rw [heq]
      exact decide_eq_true (by omega)
  · intro t ht hfalse
    cases hf : tracks.find? (fun t => !(topological_ok t.2.1 t.2.2)) with
    | none =>
      exfalso
      have hnone := List.find?_eq_none.mp hf t ht
      rw [hfalse] at hnone
      exact hnone rfl
    | some t2 =>
      refine ⟨"DAG violation: " ++ t2.1, ?_⟩
      unfold validateTracks
      rw [hf]

/-- Witness for C2: a two-node track with one edge passes the check, so by
the theorem its induced graph is acyclic; a one-node track with a self-loop
fails the check, so validation of a track list containing it aborts with an
error. -/
theorem topological_ok_iff_witness :
    ¬ HasCycle (inducedEdges (["a", "b"].dedup) [("a", "b")]) ∧
    ∃ msg, validateTracks [("t1", (["b"], [("b", "b")]))] = Except.error msg := by
  have h := topological_ok_iff ["a", "b"] [("a", "b")]
    [("t1", (["b"], [("b", "b")]))]
  refine ⟨h.1.mp (by decide), ?_⟩
  exact h.2 ("t1", (["b"], [("b", "b")])) (by decide) (by decide)

end BibleViewer
